import Mathlib

/-!
# JudaS experience store (`src/learn/learn.cpp`, `src/learn/learn.h`)

A shallow embedding of the persistent experience store of the engine and a
verification of the properties its specification states.

Modelling conventions

* `Key` (64-bit hash), `Move` (16-bit move code), `Depth`, `Value` and the
  `performance` field are copied and compared by the store, so they are
  embedded as `Nat` / `Int`; the one place that computes with them, the
  performance formula `depth * 10 + score / 100`, goes through `wrapInt`,
  which is the identity on the range of `int`.
* The hash table `HT` is a `std::unordered_multimap<Key, LearningMove*>`.
  Every pointer it holds addresses a distinct record (one slot of a file
  buffer or one freshly allocated block), so a pointer is identified with the
  position of its entry and the table is embedded by value: a list of groups,
  one per key, each group being the records of `equal_range(key)` in iteration
  order.  Where `insert` puts a new member of an existing group is left to the
  implementation by the standard: the store carries that choice
  (`placement`), the constructor takes the choice of libstdc++, which puts the
  new member before the existing ones, and an iterator taken before the
  insertion stays on its element.  A new group is placed after the existing
  groups.
* A file is a sequence of fixed-width records followed by fewer than
  `recordWidth` stray bytes; reading and writing use the same in-memory layout
  of `PersistedLearningMove`, so a record written is the record read back.
* The file system carries the trace of the requests made to it, so that
  "no file is written, removed or renamed" is the statement that the trace did
  not grow.  An output stream may fail to open, or fail after some records;
  the code never tests it.
* A path is the name under which the file system finds the file, so
  `map_path` is the identity exactly when the engine is started in the
  directory of its binary.
* The loop of `init` over the numbered slave files takes a bound on the number
  of files tried; its results are stated for bounds that suffice.
* The win-probability table of `src/win_probability.cpp` is embedded as a map
  from slot numbers to bytes; a read outside the array has no result.
-/

/-! ## Data model (`learn.h`) -/

/-- Position hash, `Judas::Key`. -/
abbrev Key := Nat

/-- Compact move code, `Judas::Move`. -/
abbrev Move := Nat

/-- Operating mode, `enum class LearningMode` of `learn.h` (`Off`, `Standard`,
`Self`) together with the enumerator `Experience` that `learn.cpp` uses. -/
inductive LearningMode where
  | Off
  | Standard
  | Self
  | Experience
  deriving DecidableEq, Repr

/-- One observation, `struct LearningMove`. -/
structure LearningMove where
  depth : Int
  score : Int
  move : Move
  performance : Int
  deriving DecidableEq, Repr

/-- The on-disk unit, `struct PersistedLearningMove`. -/
structure PersistedLearningMove where
  key : Key
  learningMove : LearningMove
  deriving DecidableEq, Repr

/-- The table `HT`: the groups of the multimap in iteration order. -/
abbrev Table := List (Key × List LearningMove)

/-- Where `HT.insert` places a new element among the elements of equal key.
The standard leaves the place to the implementation; libstdc++
(`_M_insert_multi_node` of `bits/hashtable.h`) places it before them. -/
inductive Placement where
  | beforeFirst
  | afterLast
  deriving DecidableEq, Repr

/-- The group after the insertion of `lm`. -/
def Placement.insert (pl : Placement) (g : List LearningMove) (lm : LearningMove) :
    List LearningMove :=
  match pl with
  | Placement.beforeFirst => lm :: g
  | Placement.afterLast => g ++ [lm]

/-- The position of the new element in a group that had `n` members. -/
def Placement.newPos (pl : Placement) (n : Nat) : Nat :=
  match pl with
  | Placement.beforeFirst => 0
  | Placement.afterLast => n

/-- The position, after an insertion into a non-empty group, of the element
that was first before it: an iterator taken before the insertion stays on its
element. -/
def Placement.firstPos (pl : Placement) : Nat :=
  match pl with
  | Placement.beforeFirst => 1
  | Placement.afterLast => 0

/-- The state of `class LearningData`.  The two buffer lists record the byte
size of every block the store owns; `placement` is the place the multimap of
the build gives a new member of a group. -/
structure LearningData where
  isPaused : Bool
  isReadOnly : Bool
  needPersisting : Bool
  learningMode : LearningMode
  HT : Table
  placement : Placement
  mainDataBuffers : List Nat
  newMovesDataBuffers : List Nat
  deriving DecidableEq, Repr

/-! ## The multimap primitives -/

/-- The records of `HT.equal_range(key)`, empty when the key is unknown. -/
def equal_range : Table → Key → List LearningMove
  | [], _ => []
  | (k, g) :: rest, key => if k = key then g else equal_range rest key

/-- Replace the group of `key` by `g` (a new group goes after the others). -/
def setGroup : Table → Key → List LearningMove → Table
  | [], key, g => [(key, g)]
  | (k, g0) :: rest, key, g =>
    if k = key then (k, g) :: rest else (k, g0) :: setGroup rest key g

/-- The multimap insertion `HT.insert({key, &lm})`. -/
def HT_insert (pl : Placement) (ht : Table) (key : Key) (lm : LearningMove) : Table :=
  setGroup ht key (pl.insert (equal_range ht key) lm)

/-- All entries of the table in iteration order, as `for (auto& kvp : HT)`
visits them. -/
def entries : Table → List PersistedLearningMove
  | [] => []
  | (k, g) :: rest => g.map (fun lm => ⟨k, lm⟩) ++ entries rest

/-- The test `HT.empty()`. -/
def HT_empty (ht : Table) : Bool := (entries ht).isEmpty

/-- The call `std::find_if(first, second, pred)` over a group: the position of
the first record satisfying `pred`, `none` standing for `second`. -/
def find_if (pred : LearningMove → Bool) : List LearningMove → Option Nat
  | [] => none
  | x :: xs => if pred x then some 0 else (find_if pred xs).map (· + 1)

/-! ## Merge engine -/

/-- The function `should_update(existing_move, learning_move)`. -/
def should_update (existing_move learning_move : LearningMove) : Bool :=
  if learning_move.depth > existing_move.depth then true
  else if learning_move.depth < existing_move.depth then false
  else if learning_move.score ≠ existing_move.score then true
  else learning_move.performance ≠ existing_move.performance

/-- The comparison that sets `newBestMove` once the candidate is known not to
be the current best record itself. -/
def newBestMove (qLearning : Bool) (bestNewMoveCandidate currentBestMove : LearningMove) :
    Bool :=
  if qLearning then
    decide (bestNewMoveCandidate.score > currentBestMove.score)
  else
    decide (currentBestMove.depth < bestNewMoveCandidate.depth)
      || (decide (currentBestMove.depth = bestNewMoveCandidate.depth)
          && decide (currentBestMove.score ≤ bestNewMoveCandidate.score))

/-- The block `if (bestNewMoveCandidate != nullptr)` of `insert_or_update`,
on the group of the key as it stands when the block is reached: `cand` is the
position of the candidate and `first` the position of `first->second`, the
record the iterator `first` was on when the range was taken; a promotion swaps
the two records by value. -/
def promote (qLearning : Bool) (g : List LearningMove) (first cand : Nat) :
    List LearningMove :=
  match g[first]?, g[cand]? with
  | some currentBestMove, some bestNewMoveCandidate =>
    if cand ≠ first ∧ newBestMove qLearning bestNewMoveCandidate currentBestMove = true then
      (g.set cand currentBestMove).set first bestNewMoveCandidate
    else g
  | _, _ => g

namespace LearningData

/-- The constructor `LearningData::LearningData()`, with the multimap of
libstdc++. -/
def construct : LearningData :=
  { isPaused := false, isReadOnly := false, needPersisting := false,
    learningMode := LearningMode.Experience, HT := [],
    placement := Placement.beforeFirst,
    mainDataBuffers := [], newMovesDataBuffers := [] }

/-- The method `LearningData::insert_or_update(plm, qLearning)`. -/
def insert_or_update (st : LearningData) (plm : PersistedLearningMove) (qLearning : Bool) :
    LearningData :=
  let range := equal_range st.HT plm.key
  if range = [] then
    { st with HT := HT_insert st.placement st.HT plm.key plm.learningMove,
              needPersisting := true }
  else
    match find_if (fun p => p.move = plm.learningMove.move) range with
    | none =>
      let ht1 := HT_insert st.placement st.HT plm.key plm.learningMove
      { st with
        HT := setGroup ht1 plm.key (promote qLearning (equal_range ht1 plm.key)
          st.placement.firstPos (st.placement.newPos range.length)),
        needPersisting := true }
    | some itr =>
      match range[itr]? with
      | some existingMove =>
        if should_update existingMove plm.learningMove then
          let g1 := range.set itr plm.learningMove
          { st with HT := setGroup st.HT plm.key (promote qLearning g1 0 itr),
                    needPersisting := true }
        else st
      | none => st

/-- The method `LearningData::probe_move(key, move)`. -/
def probe_move (st : LearningData) (key : Key) (move : Move) : Option LearningMove :=
  let range := equal_range st.HT key
  if range = [] then none
  else
    match find_if (fun p => p.move = move) range with
    | none => none
    | some itr => range[itr]?

/-- The method `LearningData::probe(key)`. -/
def probe (st : LearningData) (key : Key) : List LearningMove :=
  equal_range st.HT key

/-- The method `LearningData::clear()`. -/
def clear (st : LearningData) : LearningData :=
  { st with HT := [], mainDataBuffers := [], newMovesDataBuffers := [] }

end LearningData

/-! ## Files and the host environment -/

/-- The value of `sizeof(PersistedLearningMove)`; `quick_reset_exp` spells it
out as `entry_size = 24`. -/
abbrev recordWidth : Nat := 24

/-- The content of a file: its whole records, and the number of bytes left
over after the last whole record. -/
structure FileData where
  records : List PersistedLearningMove
  extra : Fin recordWidth
  deriving DecidableEq, Repr

/-- The byte length of a file. -/
def FileData.size (d : FileData) : Nat := recordWidth * d.records.length + d.extra.val

/-- One request made to the file system. -/
inductive FileOp where
  | openRead (path : String)
  | openWrite (path : String)
  | write (path : String) (record : PersistedLearningMove)
  | remove (path : String)
  | rename (oldPath newPath : String)
  deriving DecidableEq, Repr

/-- The file system: the files present, the paths that cannot be opened for
output, the paths on which an output stream fails after some records (the
number of records that reach the file before it does), the paths whose content
cannot be read in full, and the trace of the requests made so far. -/
structure FileSystem where
  files : String → Option FileData
  denyWrite : String → Bool
  failWrite : String → Option Nat
  shortRead : String → Bool
  log : List FileOp

/-- The host the engine runs on.  `map_path` is `Util::map_path` (declared in
`misc.h`, which is not part of the sources), `uniqueStr` is the value the
function-local static of `persist` holds once generated, `mallocLimit` bounds
the block sizes `malloc` grants, and `stray` is what the memory at the start
of a zero-length block decodes to. -/
structure Host where
  map_path : String → String
  uniqueStr : String
  mallocLimit : Option Nat
  stray : PersistedLearningMove

/-- The options `persist` and `init` consult. -/
structure OptionsMap where
  learningMode : String
  experienceBook : Bool
  concurrentExperience : Bool
  deriving DecidableEq, Repr

/-- Whether `malloc(n)` returns a block. -/
def Host.mallocOk (host : Host) (n : Nat) : Bool :=
  match host.mallocLimit with
  | none => true
  | some limit => decide (n ≤ limit)

/-- What reaches the file from the records handed to a stream opened on
`path`: all of them, or the first `k` when the stream fails after `k`
records. -/
def FileSystem.kept (fs : FileSystem) (path : String) (recs : List PersistedLearningMove) :
    FileData :=
  match fs.failWrite path with
  | none => ⟨recs, 0⟩
  | some k => ⟨recs.take k, 0⟩

/-- An `ofstream` opened with `trunc`, the records handed to its `write`, and
`close()`: every `write` call is traced, but when the open fails the stream
drops them all and no file appears, and when the stream fails later it drops
the records that follow. -/
def FileSystem.writeFile (fs : FileSystem) (path : String)
    (recs : List PersistedLearningMove) : FileSystem :=
  if fs.denyWrite path then
    { fs with log := fs.log ++ FileOp.openWrite path :: recs.map (FileOp.write path) }
  else
    { fs with
      files := fun p => if p = path then some (fs.kept path recs) else fs.files p,
      log := fs.log ++ FileOp.openWrite path :: recs.map (FileOp.write path) }

/-- The call `remove(path)`. -/
def FileSystem.removeFile (fs : FileSystem) (path : String) : FileSystem :=
  { fs with
    files := fun p => if p = path then none else fs.files p,
    log := fs.log ++ [FileOp.remove path] }

/-- The call `rename(oldPath, newPath)`: it fails when `oldPath` is absent. -/
def FileSystem.renameFile (fs : FileSystem) (oldPath newPath : String) : FileSystem :=
  match fs.files oldPath with
  | none => { fs with log := fs.log ++ [FileOp.rename oldPath newPath] }
  | some d =>
    { fs with
      files := fun p => if p = newPath then some d else if p = oldPath then none else fs.files p,
      log := fs.log ++ [FileOp.rename oldPath newPath] }

/-- The name `experienceFilename` computed by `persist`. -/
def experienceFilename (host : Host) (o : OptionsMap) : String :=
  if o.concurrentExperience then host.map_path ("JudaS-" ++ host.uniqueStr ++ ".exp")
  else host.map_path "JudaS.exp"

/-- The name `tempExperienceFilename` computed by `persist`. -/
def tempExperienceFilename (host : Host) (o : OptionsMap) : String :=
  if o.concurrentExperience then host.map_path ("JudaS_new-" ++ host.uniqueStr ++ ".exp")
  else host.map_path "JudaS_new.exp"

/-- The records the writing loop of `persist` hands to `outputFile.write`. -/
def snapshot (ht : Table) : List PersistedLearningMove :=
  (entries ht).filter (fun plm => decide (plm.learningMove.depth ≠ 0))

namespace LearningData

/-- The method `LearningData::persist(options)`, with `assert` compiled out. -/
def persist (host : Host) (o : OptionsMap) (fs : FileSystem) (st : LearningData) :
    FileSystem × LearningData :=
  if HT_empty st.HT || !st.needPersisting then (fs, st)
  else if st.isReadOnly then (fs, st)
  else
    let fs1 := fs.writeFile (tempExperienceFilename host o) (snapshot st.HT)
    let fs2 := fs1.removeFile (experienceFilename host o)
    let fs3 := fs2.renameFile (tempExperienceFilename host o) (experienceFilename host o)
    (fs3, { st with needPersisting := false })

/-- The method `LearningData::load(filename)`.  The `do ... while` loop runs
its body before testing the bound, so on a file of length zero it merges the
record found at the start of the zero-length buffer. -/
def load (host : Host) (fs : FileSystem) (st : LearningData) (filename : String) :
    Bool × FileSystem × LearningData :=
  let fs1 := { fs with log := fs.log ++ [FileOp.openRead filename] }
  match fs.files filename with
  | none => (false, fs1, st)
  | some d =>
    if d.size % recordWidth ≠ 0 then (false, fs1, st)
    else if !host.mallocOk d.size then (false, fs1, st)
    else if fs.shortRead filename then (false, fs1, st)
    else
      let st1 := { st with mainDataBuffers := st.mainDataBuffers ++ [d.size] }
      let qLearning := decide (st.learningMode = LearningMode.Self)
      let recs := if d.records = [] then [host.stray] else d.records
      (true, fs1, recs.foldl (fun s plm => s.insert_or_update plm qLearning) st1)

end LearningData

/-- A sequence of `insert_or_update` calls, each with its own mode flag. -/
def runCalls (st : LearningData) (calls : List (PersistedLearningMove × Bool)) : LearningData :=
  calls.foldl (fun s c => s.insert_or_update c.1 c.2) st

/-! ## Lifecycle -/

/-- The function `identify_learning_mode` of `learn.cpp`. -/
def identify_learning_mode (lm : String) : LearningMode :=
  if lm = "Experience" then LearningMode.Experience else LearningMode.Self

/-- The name of the numbered slave file `i`, as the loop of `init` computes it. -/
def slaveFileName (host : Host) (i : Nat) : String :=
  host.map_path ("JudaS" ++ toString i ++ ".exp")

namespace LearningData

/-- The method `LearningData::pause()`. -/
def pause (st : LearningData) : LearningData := { st with isPaused := true }

/-- The method `LearningData::resume()`. -/
def resume (st : LearningData) : LearningData := { st with isPaused := false }

/-- The method `LearningData::set_readonly(ro)`. -/
def set_readonly (st : LearningData) (ro : Bool) : LearningData := { st with isReadOnly := ro }

/-- The loop `while (true)` of `init` over the numbered slave files, from
number `i` on.  The loop ends at the first file that `load` refuses; `fuel`
bounds the number of files tried, and `none` means the bound was reached. -/
def loadSlaves (host : Host) :
    Nat → Nat → FileSystem → LearningData → List String →
      Option (FileSystem × LearningData × List String)
  | 0, _, _, _, _ => none
  | fuel + 1, i, fs, st, slaveFiles =>
    if (load host fs st (slaveFileName host i)).1 then
      loadSlaves host fuel (i + 1) (load host fs st (slaveFileName host i)).2.1
        (load host fs st (slaveFileName host i)).2.2 (slaveFiles ++ [slaveFileName host i])
    else
      some ((load host fs st (slaveFileName host i)).2.1,
        (load host fs st (slaveFileName host i)).2.2, slaveFiles)

/-- The loading part of `init`: the canonical file (loaded twice), the file
`JudaS_new.exp` (loaded under its plain name, remembered under the mapped
one), then the numbered slave files.  The result carries `slaveFiles`. -/
def loadPhase (host : Host) (fuel : Nat) (fs : FileSystem) (st : LearningData) :
    Option (FileSystem × LearningData × List String) :=
  let r1 := load host fs st (host.map_path "JudaS.exp")
  let r2 := load host r1.2.1 r1.2.2 (host.map_path "JudaS.exp")
  let r3 := load host r2.2.1 r2.2.2 "JudaS_new.exp"
  loadSlaves host fuel 0 r3.2.1 r3.2.2
    (if r3.1 then [host.map_path "JudaS_new.exp"] else [])

/-- The method `LearningData::init(options)`. -/
def init (host : Host) (o : OptionsMap) (fuel : Nat) (fs : FileSystem) (st : LearningData) :
    Option (FileSystem × LearningData) :=
  let st0 := { st.clear with learningMode := identify_learning_mode o.learningMode }
  if st0.learningMode = LearningMode.Experience ∧ o.experienceBook = false then some (fs, st0)
  else
    match loadPhase host fuel fs st0 with
    | none => none
    | some (fs1, st1, slaveFiles) =>
      let p := if slaveFiles ≠ [] then st1.persist host o fs1 else (fs1, st1)
      some (slaveFiles.foldl (fun f fn => f.removeFile fn) p.1,
        { p.2 with needPersisting := false })

end LearningData

/-- The four steps of the writing part of `persist`, in order. -/
inductive PersistStep where
  | writeTemp
  | closeTemp
  | deleteCanonical
  | renameTemp
  deriving DecidableEq, Repr

/-- The steps of `persist` in the order the code runs them. -/
def persistSteps : List PersistStep :=
  [PersistStep.writeTemp, PersistStep.closeTemp, PersistStep.deleteCanonical,
   PersistStep.renameTemp]

/-- One step of `persist` on the file system.  Until the stream is closed the
temporary file holds whatever part `flushed` of the output has reached the
disk; `close()` completes it. -/
def persistStep (host : Host) (o : OptionsMap) (st : LearningData) (flushed : FileData) :
    PersistStep → FileSystem → FileSystem
  | PersistStep.writeTemp, fs =>
    if fs.denyWrite (tempExperienceFilename host o) then
      { fs with log := fs.log ++ FileOp.openWrite (tempExperienceFilename host o)
          :: (snapshot st.HT).map (FileOp.write (tempExperienceFilename host o)) }
    else
      { fs with
        files := fun p => if p = tempExperienceFilename host o then some flushed else fs.files p,
        log := fs.log ++ FileOp.openWrite (tempExperienceFilename host o)
          :: (snapshot st.HT).map (FileOp.write (tempExperienceFilename host o)) }
  | PersistStep.closeTemp, fs =>
    if fs.denyWrite (tempExperienceFilename host o) then fs
    else
      { fs with
        files := fun p =>
          if p = tempExperienceFilename host o then
            some (fs.kept (tempExperienceFilename host o) (snapshot st.HT))
          else fs.files p }
  | PersistStep.deleteCanonical, fs => fs.removeFile (experienceFilename host o)
  | PersistStep.renameTemp, fs =>
    fs.renameFile (tempExperienceFilename host o) (experienceFilename host o)

/-- The file system after the first `n` steps of `persist`: the state a crash
after `n` steps leaves behind. -/
def persistPrefix (host : Host) (o : OptionsMap) (st : LearningData) (flushed : FileData)
    (n : Nat) (fs : FileSystem) : FileSystem :=
  (persistSteps.take n).foldl (fun f s => persistStep host o st flushed s f) fs


/-! ## Queries and display order -/

/-- The value an `int` holds after an arithmetic step whose exact result is
`x`: `x` itself when it fits in 32 bits.  Signed overflow is undefined in
C++; outside the range the embedding takes the two's-complement wrap. -/
def wrapInt (x : Int) : Int := (x + 2147483648) % 4294967296 - 2147483648

/-- The function `std::clamp(v, lo, hi)`. -/
def clamp (v lo hi : Int) : Int := if v < lo then lo else if hi < v then hi else v

/-- The `int` expression `std::clamp(depth * 10 + (score / 100), 0, 100)` of
`sortLearningMoves` and of `Engine::set_position`; `/` truncates toward zero. -/
def performanceOf (depth score : Int) : Int :=
  clamp (wrapInt (wrapInt (depth * 10) + Int.tdiv score 100)) 0 100

/-- The comparator of `sortLearningMoves` (the lambda handed to `std::sort`). -/
def sortLess (a b : LearningMove) : Bool :=
  if a.depth ≠ b.depth then decide (a.depth > b.depth)
  else if performanceOf a.depth a.score ≠ performanceOf b.depth b.score then
    decide (performanceOf a.depth a.score > performanceOf b.depth b.score)
  else decide (a.score > b.score)

/-- The relation "`a` may stand before `b`" in a range sorted with `comp`. -/
def mayPrecede (comp : LearningMove → LearningMove → Bool) (a b : LearningMove) : Prop :=
  comp b a = false

instance (comp : LearningMove → LearningMove → Bool) : DecidableRel (mayPrecede comp) :=
  fun a b => by unfold mayPrecede; exact inferInstance

/-- The call `std::sort(first, last, comp)`.  The algorithm belongs to the C++
standard library, not to the sources; it is embedded as insertion sort, one of
the algorithms that meet its contract. -/
def std_sort (comp : LearningMove → LearningMove → Bool) (l : List LearningMove) :
    List LearningMove :=
  l.insertionSort (mayPrecede comp)

/-- The loop of `probeByMaxDepthAndScore` over the group, on the triple
`(maxDepthMove, maxDepth, maxScore)`. -/
def scanMaxDepthAndScore :
    List LearningMove → Option LearningMove × Int × Int → Option LearningMove × Int × Int
  | [], acc => acc
  | move :: rest, (maxDepthMove, maxDepth, maxScore) =>
    if move.depth > maxDepth then
      scanMaxDepthAndScore rest (some move, move.depth, move.score)
    else if move.depth = maxDepth ∧ move.score > maxScore then
      scanMaxDepthAndScore rest (some move, maxDepth, move.score)
    else scanMaxDepthAndScore rest (maxDepthMove, maxDepth, maxScore)

namespace LearningData

/-- The method `LearningData::sortLearningMoves(learningMoves)`. -/
def sortLearningMoves (learningMoves : List LearningMove) : List LearningMove :=
  std_sort sortLess learningMoves

/-- The method `LearningData::probeByMaxDepthAndScore(key, learningMove)`:
the returned count and the record left in `learningMove`. -/
def probeByMaxDepthAndScore (st : LearningData) (key : Key) : Nat × Option LearningMove :=
  let range := equal_range st.HT key
  if range = [] then (0, none)
  else (range.length, (scanMaxDepthAndScore range (none, -1, -1)).1)

/-- The method `LearningData::is_enabled()`. -/
def is_enabled (st : LearningData) : Bool := decide (st.learningMode ≠ LearningMode.Off)

/-- The method `LearningData::add_new_learning(key, lm)`. -/
def add_new_learning (host : Host) (st : LearningData) (key : Key) (lm : LearningMove) :
    LearningData :=
  if !host.mallocOk recordWidth then st
  else
    insert_or_update
      { st with newMovesDataBuffers := st.newMovesDataBuffers ++ [recordWidth] }
      ⟨key, lm⟩ (decide (st.learningMode = LearningMode.Self))

end LearningData

/-! ## The engine front end (`engine.cpp`) -/

/-- What `Engine::set_position` uses of `Position`, `UCIEngine` and `types.h`,
none of which is part of the sources: the move parser, the position hash, the
two evaluations, `do_move`, and the constants `Move::none()` and `VALUE_NONE`. -/
structure PositionApi (Pos : Type) where
  to_move : Pos → String → Move
  key : Pos → Key
  calculate_depth : Pos → Int
  evaluate_position : Pos → Int
  do_move : Pos → Move → Pos
  move_none : Move
  value_none : Int

namespace Engine

/-- The record `persistedLearningMove` that the loop body of `set_position`
builds: default-initialised (`depth = 0`, `score = VALUE_NONE`,
`move = Move::none()`, `performance = 100`), then `key`, `depth`, `score` and
`performance` are assigned. -/
def observation {Pos : Type} (api : PositionApi Pos) (pos : Pos) : PersistedLearningMove :=
  let d : PersistedLearningMove := ⟨0, ⟨0, api.value_none, api.move_none, 100⟩⟩
  let d1 := { d with key := api.key pos }
  let d2 := { d1 with learningMove := { d1.learningMove with depth := api.calculate_depth pos } }
  let d3 := { d2 with
    learningMove := { d2.learningMove with score := api.evaluate_position pos } }
  { d3 with learningMove := { d3.learningMove with
      performance := performanceOf d3.learningMove.depth d3.learningMove.score } }

/-- The method `Engine::set_position(fen, moves)` from the position that
`pos.set(fen, ...)` produced: the final position and the store. -/
def set_position {Pos : Type} (api : PositionApi Pos) (host : Host) :
    Pos → List String → LearningData → Pos × LearningData
  | pos, [], st => (pos, st)
  | pos, move :: moves, st =>
    if api.to_move pos move = api.move_none then (pos, st)
    else
      set_position api host (api.do_move pos (api.to_move pos move)) moves
        (if st.is_enabled && decide (st.learningMode ≠ LearningMode.Self) && !st.isPaused then
          st.add_new_learning host (observation api pos).key (observation api pos).learningMove
        else st)

end Engine


/-! ## The win-probability table (`win_probability.cpp`) -/

/-- The macro `WIN_PROBABILITY_SIZE`. -/
def WIN_PROBABILITY_SIZE : Nat := 496062

/-- The array `win_probabilities`: the byte held by each slot.  Only the slots
below `WIN_PROBABILITY_SIZE` exist. -/
abbrev WinProbabilities := Nat → Nat

/-- The function `index(v, m)`: the `int` expression `(v + 4000) * 62 + m - 17`
converted to `size_t`.  The two `assert`s are absent from a release build. -/
def index (v m : Int) : Nat :=
  (wrapInt ((v + 4000) * 62 + m - 17) % 18446744073709551616).toNat

/-- The piece types `get_win_probability` counts. -/
inductive PieceType where
  | PAWN
  | KNIGHT
  | BISHOP
  | ROOK
  | QUEEN
  deriving DecidableEq, Repr

namespace WDLModel

/-- The values the outer loop of `init` runs through: `-4000 .. 4000`. -/
def valueClamps : List Int := (List.range 8001).map (fun i => Int.ofNat i - 4000)

/-- The values the inner loop of `init` runs through: `17 .. 78`. -/
def materialClamps : List Int := (List.range 62).map (fun i => Int.ofNat i + 17)

/-- The byte an assignment to a `uint8_t` slot stores. -/
def toUint8 (x : Int) : Nat := (x % 256).toNat

/-- The function `init()`, from the zero-initialised array.  The function
`UCIEngine::getWinProbability` is declared in `uci.h`, which is not part of
the sources, and is a parameter. -/
def init (getWinProbability : Int → Int → Int) : WinProbabilities :=
  valueClamps.foldl
    (fun t valueClamp =>
      materialClamps.foldl
        (fun t2 materialClamp =>
          Function.update t2 (index valueClamp materialClamp)
            (toUint8 (getWinProbability valueClamp materialClamp)))
        t)
    (fun _ => 0)

/-- A read of `win_probabilities[i]`: `none` when the slot is outside the
array. -/
def readSlot (t : WinProbabilities) (i : Nat) : Option Nat :=
  if i < WIN_PROBABILITY_SIZE then some (t i) else none

/-- The function `get_win_probability_by_material(value, materialClamp)`.  The
conversion of the `int` value to `double` and back is exact, so the clamp is
taken on the integers. -/
def get_win_probability_by_material (t : WinProbabilities) (value materialClamp : Int) :
    Option Nat :=
  let valueClamp := clamp value (-4000) 4000
  readSlot t (index valueClamp materialClamp)

/-- The local `materialClamp` of `get_win_probability(value, pos)`; `count` is
`pos.count<...>()` of `position.h`, which is not part of the sources. -/
def materialClamp (count : PieceType → Int) : Int :=
  let material := wrapInt (count PieceType.PAWN + 3 * count PieceType.KNIGHT
    + 3 * count PieceType.BISHOP + 5 * count PieceType.ROOK + 9 * count PieceType.QUEEN)
  clamp material 17 78

/-- The function `get_win_probability(value, pos)`. -/
def get_win_probability (t : WinProbabilities) (value : Int) (count : PieceType → Int) :
    Option Nat :=
  get_win_probability_by_material t value (materialClamp count)

end WDLModel


/-! ## Sample inputs -/

/-- A host that maps every path to itself and never refuses memory. -/
def sampleHost (stray : PersistedLearningMove) : Host :=
  { map_path := fun s => s, uniqueStr := "1f", mallocLimit := none, stray := stray }

/-- Options with the feature enabled and concurrent instances off. -/
def sampleOptions : OptionsMap :=
  { learningMode := "Experience", experienceBook := true, concurrentExperience := false }

/-- A file system holding the given files, with no fault and an empty trace. -/
def sampleFs (files : String → Option FileData) (denyWrite : String → Bool) : FileSystem :=
  { files := files, denyWrite := denyWrite, failWrite := fun _ => none,
    shortRead := fun _ => false, log := [] }

/-- A dirty, writable store holding the given table, with the multimap of
libstdc++. -/
def sampleStore (ht : Table) : LearningData :=
  { LearningData.construct with HT := ht, needPersisting := true }


/-- A host whose engine is installed in `/opt/judas/` and started from another
directory: `map_path` puts the directory of the binary before a plain name. -/
def installedHost : Host :=
  { map_path := fun s => "/opt/judas/" ++ s, uniqueStr := "1f", mallocLimit := none,
    stray := ⟨0, ⟨0, 0, 0, 0⟩⟩ }


/-! ## Specification vocabulary -/

/-- The relation "`a` ranks at least as high as `b`" of the promotion ordering:
by score alone in self-play mode, otherwise by depth and then by score. -/
def ranksAtLeast (qLearning : Bool) (a b : LearningMove) : Prop :=
  if qLearning then b.score ≤ a.score
  else b.depth < a.depth ∨ (b.depth = a.depth ∧ b.score ≤ a.score)

instance (q : Bool) (a b : LearningMove) : Decidable (ranksAtLeast q a b) := by
  unfold ranksAtLeast; exact inferInstance

/-- The first record of a group is maximal in the group. -/
def firstIsBest (qLearning : Bool) : List LearningMove → Prop
  | [] => True
  | first :: rest => ∀ x ∈ rest, ranksAtLeast qLearning first x

instance (q : Bool) (g : List LearningMove) : Decidable (firstIsBest q g) := by
  cases g <;> unfold firstIsBest <;> exact inferInstance

/-- No two records of a group carry the same move. -/
def movesUnique (g : List LearningMove) : Prop := (g.map (·.move)).Nodup

/-- The effect of `insert_or_update` on the group of the record's key. -/
def groupStep (pl : Placement) (qLearning : Bool) (g : List LearningMove)
    (lm : LearningMove) : List LearningMove :=
  if g = [] then [lm]
  else
    match find_if (fun p => p.move = lm.move) g with
    | none => promote qLearning (pl.insert g lm) pl.firstPos (pl.newPos g.length)
    | some itr =>
      match g[itr]? with
      | some existingMove =>
        if should_update existingMove lm then promote qLearning (g.set itr lm) 0 itr else g
      | none => g

/-- The lookup of `probe_move` inside one group. -/
def probeGroup (move : Move) (g : List LearningMove) : Option LearningMove :=
  match find_if (fun p => p.move = move) g with
  | none => none
  | some itr => g[itr]?

/-- The `(key, move)` pair that identifies a record inside the index. -/
def keyMove (plm : PersistedLearningMove) : Key × Move := (plm.key, plm.learningMove.move)

/-- The `(key, move, depth, score)` tuple of a record. -/
def tupleOf (plm : PersistedLearningMove) : Key × Move × Int × Int :=
  (plm.key, plm.learningMove.move, plm.learningMove.depth, plm.learningMove.score)


/-- The `(key, move, depth, score)` tuples held by a table. -/
def tuples (ht : Table) : List (Key × Move × Int × Int) :=
  (entries ht).map tupleOf

/-- A position interface for examples: a position is the list of moves made,
a move string `s` parses to the length of `s` (so the empty string is the null
move 0), the hash is the number of moves made. -/
def samplePositionApi : PositionApi (List Move) :=
  { to_move := fun _ s => s.length, key := fun pos => pos.length,
    calculate_depth := fun pos => 3 + pos.length, evaluate_position := fun _ => 250,
    do_move := fun pos m => pos ++ [m], move_none := 0, value_none := 32002 }

/-- The group of the key after the insertion or the overwrite and before the
promotion step, with the position of `first->second` and the position of the
candidate; `none` when the call has no candidate for promotion (new key, or
the incoming record loses). -/
def candidateOf (pl : Placement) (g : List LearningMove) (lm : LearningMove) :
    Option (List LearningMove × Nat × Nat) :=
  if g = [] then none
  else
    match find_if (fun p => p.move = lm.move) g with
    | none => some (pl.insert g lm, pl.firstPos, pl.newPos g.length)
    | some itr =>
      match g[itr]? with
      | some existingMove =>
        if should_update existingMove lm then some (g.set itr lm, 0, itr) else none
      | none => none

/-- The lexicographic order "at least" on the triples
`(depth, performance, score)` of two records. -/
def displayGe (a b : LearningMove) : Prop :=
  b.depth < a.depth ∨ (b.depth = a.depth ∧
    (clamp (b.depth * 10 + Int.tdiv b.score 100) 0 100
        < clamp (a.depth * 10 + Int.tdiv a.score 100) 0 100
      ∨ (clamp (b.depth * 10 + Int.tdiv b.score 100) 0 100
          = clamp (a.depth * 10 + Int.tdiv a.score 100) 0 100
        ∧ b.score ≤ a.score)))

instance (a b : LearningMove) : Decidable (displayGe a b) := by
  unfold displayGe; exact inferInstance

/-- The `int` computation of the performance of a record does not overflow. -/
def performanceFits (x : LearningMove) : Prop :=
  -2147483648 ≤ x.depth * 10 ∧ x.depth * 10 ≤ 2147483647
  ∧ -2147483648 ≤ x.depth * 10 + Int.tdiv x.score 100
  ∧ x.depth * 10 + Int.tdiv x.score 100 ≤ 2147483647

instance (x : LearningMove) : Decidable (performanceFits x) := by
  unfold performanceFits; exact inferInstance


/-- A record is settled in a store when `probe_move` finds, for its key and
move, a stored record that `should_update` does not let it replace. -/
def settledIn (st : LearningData) (r : PersistedLearningMove) : Prop :=
  ∃ w, st.probe_move r.key r.learningMove.move = some w
    ∧ should_update w r.learningMove = false


/-- A record the scan of `probeByMaxDepthAndScore` passes over while it holds
no record: neither its depth exceeds the starting depth `-1`, nor has it that
depth and a score above the starting score `-1`. -/
def belowStart (x : LearningMove) : Prop := x.depth < -1 ∨ (x.depth = -1 ∧ x.score ≤ -1)

instance (x : LearningMove) : Decidable (belowStart x) := by
  unfold belowStart; exact inferInstance

/-- The lexicographic order "greater" on the triples
`(depth, performance, score)` of two records. -/
def displayGt (a b : LearningMove) : Prop :=
  b.depth < a.depth ∨ (b.depth = a.depth ∧
    (clamp (b.depth * 10 + Int.tdiv b.score 100) 0 100
        < clamp (a.depth * 10 + Int.tdiv a.score 100) 0 100
      ∨ (clamp (b.depth * 10 + Int.tdiv b.score 100) 0 100
          = clamp (a.depth * 10 + Int.tdiv a.score 100) 0 100
        ∧ b.score < a.score)))

instance (a b : LearningMove) : Decidable (displayGt a b) := by
  unfold displayGt; exact inferInstance

/-- The `int` product `depth * 10` of a record does not overflow. -/
def depthTimesTenFits (x : LearningMove) : Prop :=
  -2147483648 ≤ x.depth * 10 ∧ x.depth * 10 ≤ 2147483647

instance (x : LearningMove) : Decidable (depthTimesTenFits x) := by
  unfold depthTimesTenFits; exact inferInstance


/-! ## The multimap primitives: basic facts -/

theorem equal_range_setGroup_same (ht : Table) (key : Key) (g : List LearningMove) :
    equal_range (setGroup ht key g) key = g := by
  induction ht with
  | nil => simp [setGroup, equal_range]
  | cons e rest ih =>
    obtain ⟨k, g0⟩ := e
    by_cases h : k = key
    · simp [setGroup, equal_range, h]
    · simp [setGroup, equal_range, h, ih]

theorem equal_range_setGroup_other (ht : Table) (key key2 : Key) (g : List LearningMove)
    (hne : key2 ≠ key) : equal_range (setGroup ht key g) key2 = equal_range ht key2 := by
  induction ht with
  | nil => simp [setGroup, equal_range, Ne.symm hne]
  | cons e rest ih =>
    obtain ⟨k, g0⟩ := e
    by_cases h : k = key
    · subst h
      simp [setGroup, equal_range, Ne.symm hne]
    · by_cases h2 : k = key2
      · subst h2
        simp [setGroup, equal_range, h]
      · simp [setGroup, equal_range, h, h2, ih]

theorem setGroup_setGroup (ht : Table) (key : Key) (g g2 : List LearningMove) :
    setGroup (setGroup ht key g) key g2 = setGroup ht key g2 := by
  induction ht with
  | nil => simp [setGroup]
  | cons e rest ih =>
    obtain ⟨k, g0⟩ := e
    by_cases h : k = key
    · simp [setGroup, h]
    · simp [setGroup, h, ih]

/-- Reading the group of the record's key after `insert_or_update`. -/
theorem equal_range_insert_or_update_same (st : LearningData) (plm : PersistedLearningMove)
    (q : Bool) :
    equal_range (st.insert_or_update plm q).HT plm.key
      = groupStep st.placement q (equal_range st.HT plm.key) plm.learningMove := by
  unfold LearningData.insert_or_update groupStep
  by_cases h : equal_range st.HT plm.key = []
  · cases hp : st.placement <;>
      simp [h, HT_insert, equal_range_setGroup_same, Placement.insert]
  · simp only [h, if_false]
    cases hf : find_if (fun p => decide (p.move = plm.learningMove.move))
        (equal_range st.HT plm.key) with
    | none => simp [HT_insert, equal_range_setGroup_same]
    | some itr =>
      simp only []
      cases hg : (equal_range st.HT plm.key)[itr]? with
      | none => simp [h]
      | some e =>
        simp only []
        by_cases hs : should_update e plm.learningMove = true
        · simp [hs, equal_range_setGroup_same]
        · simp [hs]

/-- Groups of other keys are not touched by `insert_or_update`. -/
theorem equal_range_insert_or_update_other (st : LearningData) (plm : PersistedLearningMove)
    (q : Bool) (key : Key) (hne : key ≠ plm.key) :
    equal_range (st.insert_or_update plm q).HT key = equal_range st.HT key := by
  unfold LearningData.insert_or_update
  by_cases h : equal_range st.HT plm.key = []
  · simp [h, HT_insert, equal_range_setGroup_other _ _ _ _ hne]
  · simp only [h, if_false]
    cases hf : find_if (fun p => decide (p.move = plm.learningMove.move))
        (equal_range st.HT plm.key) with
    | none => simp [HT_insert, equal_range_setGroup_other _ _ _ _ hne]
    | some itr =>
      simp only []
      cases hg : (equal_range st.HT plm.key)[itr]? with
      | none => simp
      | some e =>
        simp only []
        by_cases hs : should_update e plm.learningMove = true
        · simp [hs, equal_range_setGroup_other _ _ _ _ hne]
        · simp [hs]

/-- The place the multimap gives a new member is not changed by a call. -/
theorem placement_insert_or_update (st : LearningData) (plm : PersistedLearningMove)
    (q : Bool) : (st.insert_or_update plm q).placement = st.placement := by
  unfold LearningData.insert_or_update
  simp only []
  split
  · rfl
  · split
    · rfl
    · split
      · split <;> rfl
      · rfl

/-! ## Facts about `find_if` and `promote` -/

theorem find_if_eq_none_iff (pred : LearningMove → Bool) (g : List LearningMove) :
    find_if pred g = none ↔ ∀ x ∈ g, pred x = false := by
  induction g with
  | nil => simp [find_if]
  | cons a t ih =>
    by_cases h : pred a = true
    · simp [find_if, h]
    · simp [find_if, h, ih]

theorem find_if_eq_some_iff (pred : LearningMove → Bool) (g : List LearningMove) (i : Nat) :
    find_if pred g = some i ↔
      (∃ x, g[i]? = some x ∧ pred x = true) ∧ ∀ j, j < i → ∀ y, g[j]? = some y → pred y = false := by
  induction g generalizing i with
  | nil => simp [find_if]
  | cons a t ih =>
    by_cases h : pred a = true
    · simp only [find_if, h, if_true, Option.some.injEq]
      constructor
      · intro hi
        subst hi
        exact ⟨⟨a, by simp, h⟩, fun j hj => absurd hj (Nat.not_lt_zero j)⟩
      · rintro ⟨-, hmin⟩
        cases i with
        | zero => rfl
        | succ n =>
          have := hmin 0 (Nat.succ_pos n) a (by simp)
          rw [h] at this
          exact absurd this (by decide)
    · have hf : pred a = false := by simpa using h
      simp only [find_if, hf, Bool.false_eq_true, if_false, Option.map_eq_some']
      constructor
      · rintro ⟨n, hn, rfl⟩
        obtain ⟨hx, hmin⟩ := (ih n).1 hn
        refine ⟨by simpa using hx, ?_⟩
        intro j hj y hy
        cases j with
        | zero =>
          simp at hy
          subst hy
          exact hf
        | succ m => exact hmin m (Nat.lt_of_succ_lt_succ hj) y (by simpa using hy)
      · rintro ⟨⟨x, hx, hpx⟩, hmin⟩
        cases i with
        | zero =>
          simp at hx
          subst hx
          rw [hf] at hpx
          exact absurd hpx (by decide)
        | succ n =>
          refine ⟨n, (ih n).2 ⟨⟨x, by simpa using hx, hpx⟩, ?_⟩, rfl⟩
          intro j hj y hy
          exact hmin (j + 1) (Nat.succ_lt_succ hj) y (by simpa using hy)

theorem promote_nil (q : Bool) (first cand : Nat) : promote q [] first cand = [] := by
  simp [promote]

theorem promote_zero (q : Bool) (g : List LearningMove) : promote q g 0 0 = g := by
  unfold promote
  cases g with
  | nil => simp
  | cons a t => simp

/-- The promotion step right after an insertion before the first element: the
candidate is at position 0 and `first` is on position 1. -/
theorem promote_front (q : Bool) (a b : LearningMove) (t : List LearningMove) :
    promote q (a :: b :: t) 1 0 =
      if newBestMove q a b = true then b :: a :: t else a :: b :: t := by
  unfold promote
  by_cases h : newBestMove q a b = true
  · simp [h]
  · simp [h]

theorem promote_front_single (q : Bool) (a : LearningMove) : promote q [a] 1 0 = [a] := by
  simp [promote]

theorem promote_cons_succ (q : Bool) (a : LearningMove) (t : List LearningMove) (c : Nat) :
    promote q (a :: t) 0 (c + 1) =
      match t[c]? with
      | some b => if newBestMove q b a = true then b :: t.set c a else a :: t
      | none => a :: t := by
  unfold promote
  cases h : t[c]? with
  | none => simp [h]
  | some b => simp [h]

theorem swap_perm (a b : LearningMove) (t : List LearningMove) (c : Nat)
    (h : t[c]? = some b) : (b :: t.set c a).Perm (a :: t) := by
  induction t generalizing c with
  | nil => simp at h
  | cons x t ih =>
    cases c with
    | zero =>
      simp at h
      subst h
      simpa using List.Perm.swap a x t
    | succ n =>
      have h2 : t[n]? = some b := by simpa using h
      calc (b :: (x :: t).set (n + 1) a).Perm (x :: b :: t.set n a) := by
            simpa using List.Perm.swap x b (t.set n a)
        _ |>.Perm (x :: a :: t) := List.Perm.cons x (ih n h2)
        _ |>.Perm (a :: x :: t) := List.Perm.swap a x t

/-- A promotion only reorders the group. -/
theorem promote_perm (q : Bool) (g : List LearningMove) (cand : Nat) :
    (promote q g 0 cand).Perm g := by
  cases g with
  | nil => simp [promote_nil]
  | cons a t =>
    cases cand with
    | zero => simp [promote_zero]
    | succ c =>
      rw [promote_cons_succ]
      cases h : t[c]? with
      | none => simp
      | some b =>
        simp only []
        split
        · exact swap_perm a b t c h
        · exact List.Perm.refl _

theorem promote_front_perm (q : Bool) (g : List LearningMove) :
    (promote q g 1 0).Perm g := by
  cases g with
  | nil => simp [promote_nil]
  | cons a t =>
    cases t with
    | nil => simp [promote_front_single]
    | cons b t =>
      rw [promote_front]
      split
      · exact List.Perm.swap a b t
      · exact List.Perm.refl _

/-- The group after an insertion and the promotion step holds the records of
the group and the new record. -/
theorem promote_insert_perm (pl : Placement) (q : Bool) (g : List LearningMove)
    (lm : LearningMove) :
    (promote q (pl.insert g lm) pl.firstPos (pl.newPos g.length)).Perm (g ++ [lm]) := by
  cases pl with
  | beforeFirst =>
    exact (promote_front_perm q (lm :: g)).trans (List.perm_append_singleton lm g).symm
  | afterLast => exact promote_perm q (g ++ [lm]) g.length

/-! ## Move uniqueness -/

theorem map_move_set_same (g : List LearningMove) (i : Nat) (e lm : LearningMove)
    (hg : g[i]? = some e) (hm : e.move = lm.move) :
    (g.set i lm).map (·.move) = g.map (·.move) := by
  induction g generalizing i with
  | nil => simp
  | cons a t ih =>
    cases i with
    | zero =>
      simp at hg
      subst hg
      simp [hm]
    | succ n =>
      have h2 : t[n]? = some e := by simpa using hg
      simp [ih n h2]

theorem movesUnique_promote (q : Bool) (g : List LearningMove) (cand : Nat)
    (h : movesUnique g) : movesUnique (promote q g 0 cand) := by
  unfold movesUnique at *
  exact ((promote_perm q g cand).map _).nodup_iff.2 h

/-- One call keeps the moves of the group pairwise distinct. -/
theorem movesUnique_groupStep (pl : Placement) (q : Bool) (g : List LearningMove)
    (lm : LearningMove) (h : movesUnique g) : movesUnique (groupStep pl q g lm) := by
  unfold groupStep
  by_cases hg : g = []
  · simp [hg, movesUnique]
  · simp only [hg, if_false]
    cases hf : find_if (fun p => decide (p.move = lm.move)) g with
    | none =>
      simp only []
      have hno := (find_if_eq_none_iff _ g).1 hf
      unfold movesUnique at *
      rw [((promote_insert_perm pl q g lm).map _).nodup_iff]
      rw [List.map_append, List.nodup_append]
      refine ⟨h, by simp, ?_⟩
      intro m hm1 hm2
      simp at hm2
      obtain ⟨x, hx, hxm⟩ := List.mem_map.1 hm1
      have := hno x hx
      simp at this
      exact this (hxm.trans hm2)
    | some itr =>
      simp only []
      cases he : g[itr]? with
      | none => simpa using h
      | some e =>
        simp only []
        split
        · apply movesUnique_promote
          obtain ⟨⟨x, hx, hpx⟩, -⟩ := (find_if_eq_some_iff _ g itr).1 hf
          rw [he] at hx
          cases hx
          unfold movesUnique at *
          rw [map_move_set_same g itr e lm he (by simpa using hpx)]
          exact h
        · exact h

/-- The invariant behind move uniqueness: every group has pairwise distinct moves. -/
theorem movesUnique_insert_or_update (st : LearningData) (plm : PersistedLearningMove)
    (q : Bool) (h : ∀ key, movesUnique (equal_range st.HT key)) (key : Key) :
    movesUnique (equal_range (st.insert_or_update plm q).HT key) := by
  by_cases hk : key = plm.key
  · subst hk
    rw [equal_range_insert_or_update_same]
    exact movesUnique_groupStep _ q _ _ (h _)
  · rw [equal_range_insert_or_update_other st plm q key hk]
    exact h key

theorem movesUnique_runCalls (calls : List (PersistedLearningMove × Bool)) (st : LearningData)
    (h : ∀ key, movesUnique (equal_range st.HT key)) (key : Key) :
    movesUnique (equal_range (runCalls st calls).HT key) := by
  induction calls generalizing st with
  | nil => simpa [runCalls] using h key
  | cons c rest ih =>
    have := ih (st.insert_or_update c.1 c.2) (movesUnique_insert_or_update st c.1 c.2 h)
    simpa [runCalls] using this

theorem filter_move_length_le_one (g : List LearningMove) (h : movesUnique g) (move : Move) :
    (g.filter (fun r => decide (r.move = move))).length ≤ 1 := by
  unfold movesUnique at h
  have hc := List.nodup_iff_count_le_one.1 h move
  have he : List.count move (g.map (·.move))
      = (g.filter (fun r => decide (r.move = move))).length := by
    clear h hc
    induction g with
    | nil => simp
    | cons a t ih =>
      by_cases hm : a.move = move
      · simp [List.count_cons, List.filter_cons, hm, ih]
      · simp [List.count_cons, List.filter_cons, hm, ih]
  omega

/-! ## The lookup of `probe_move` -/

theorem probeGroup_nil (move : Move) : probeGroup move [] = none := by
  simp [probeGroup, find_if]

theorem probeGroup_cons (move : Move) (a : LearningMove) (t : List LearningMove) :
    probeGroup move (a :: t) = if a.move = move then some a else probeGroup move t := by
  unfold probeGroup
  by_cases h : a.move = move
  · simp [find_if, h]
  · cases hf : find_if (fun p => decide (p.move = move)) t with
    | none => simp [find_if, h, hf]
    | some i => simp [find_if, h, hf]

theorem probeGroup_eq_some (move : Move) (g : List LearningMove) (r : LearningMove)
    (h : probeGroup move g = some r) : r ∈ g ∧ r.move = move := by
  induction g with
  | nil => simp [probeGroup_nil] at h
  | cons a t ih =>
    rw [probeGroup_cons] at h
    by_cases ha : a.move = move
    · simp only [ha, if_true, Option.some.injEq] at h
      subst h
      exact ⟨by simp, ha⟩
    · simp only [ha, if_false] at h
      exact ⟨by simp [(ih h).1], (ih h).2⟩

theorem probeGroup_eq_none_iff (move : Move) (g : List LearningMove) :
    probeGroup move g = none ↔ ∀ x ∈ g, x.move ≠ move := by
  induction g with
  | nil => simp [probeGroup_nil]
  | cons a t ih =>
    rw [probeGroup_cons]
    by_cases ha : a.move = move
    · simp [ha]
    · simp [ha, ih]

theorem probeGroup_of_mem (move : Move) (g : List LearningMove) (r : LearningMove)
    (hu : movesUnique g) (hr : r ∈ g) (hm : r.move = move) : probeGroup move g = some r := by
  induction g with
  | nil => simp at hr
  | cons a t ih =>
    rw [probeGroup_cons]
    unfold movesUnique at hu ih
    simp only [List.map_cons, List.nodup_cons, List.mem_map, not_exists, not_and] at hu
    rcases List.mem_cons.1 hr with h | h
    · subst h
      simp [hm]
    · have ha : a.move ≠ move := by
        intro hc
        exact hu.1 r h (by rw [hm, hc])
      simp only [ha, if_false]
      exact ih hu.2 h


/-! ## What `probe_move` finds after a call -/

theorem probe_move_eq_probeGroup (st : LearningData) (key : Key) (move : Move) :
    st.probe_move key move = probeGroup move (equal_range st.HT key) := by
  unfold LearningData.probe_move probeGroup
  by_cases h : equal_range st.HT key = []
  · simp [h, find_if]
  · simp [h]

/-- The lookup returns the only record of a group that has the move. -/
theorem probeGroup_of_only (move : Move) (g : List LearningMove) (r : LearningMove)
    (hr : r ∈ g) (hm : r.move = move) (honly : ∀ y ∈ g, y.move = move → y = r) :
    probeGroup move g = some r := by
  induction g with
  | nil => simp at hr
  | cons a t ih =>
    rw [probeGroup_cons]
    by_cases ha : a.move = move
    · have := honly a (by simp) ha
      subst this
      simp [ha]
    · simp only [ha, if_false]
      rcases List.mem_cons.1 hr with h | h
      · rw [← h] at ha
        exact absurd hm ha
      · exact ih h (fun y hy => honly y (by simp [hy]))

theorem probeGroup_promote (q : Bool) (move : Move) (h : List LearningMove) (c : Nat)
    (x : LearningMove) (hf : find_if (fun p => decide (p.move = move)) h = some c)
    (hx : h[c]? = some x) : probeGroup move (promote q h 0 c) = some x := by
  obtain ⟨⟨y, hy, hpy⟩, -⟩ := (find_if_eq_some_iff _ h c).1 hf
  rw [hx] at hy
  cases hy
  cases h with
  | nil => simp at hx
  | cons a t =>
    cases c with
    | zero => simp [promote_zero, probeGroup, hf, hx]
    | succ n =>
      have ht : t[n]? = some x := by simpa using hx
      rw [promote_cons_succ, ht]
      simp only []
      split
      · simp [probeGroup, find_if, hpy]
      · simp [probeGroup, hf, hx]

/-- The record stored for the call's move after one call on a group. -/
theorem probeGroup_groupStep (pl : Placement) (q : Bool) (g : List LearningMove)
    (lm : LearningMove) :
    probeGroup lm.move (groupStep pl q g lm) =
      some (match probeGroup lm.move g with
        | none => lm
        | some e => if should_update e lm = true then lm else e) := by
  unfold groupStep
  by_cases hg : g = []
  · subst hg
    simp [probeGroup, find_if]
  · simp only [hg, if_false]
    cases hf : find_if (fun p => decide (p.move = lm.move)) g with
    | none =>
      have hno := (find_if_eq_none_iff _ g).1 hf
      have hperm := promote_insert_perm pl q g lm
      have := probeGroup_of_only lm.move _ lm (hperm.mem_iff.2 (by simp)) rfl
        (by
          intro y hy hym
          rcases List.mem_append.1 (hperm.mem_iff.1 hy) with h | h
          · have := hno y h
            simp [hym] at this
          · simpa using h)
      simpa [probeGroup, hf] using this
    | some itr =>
      obtain ⟨⟨e, he, hpe⟩, hmin⟩ := (find_if_eq_some_iff _ g itr).1 hf
      have hlt : itr < g.length := by
        by_contra hc
        rw [List.getElem?_eq_none (Nat.le_of_not_lt hc)] at he
        cases he
      simp only [he]
      by_cases hs : should_update e lm = true
      · have hfa : find_if (fun p => decide (p.move = lm.move)) (g.set itr lm) = some itr := by
          rw [find_if_eq_some_iff]
          refine ⟨⟨lm, by simp [List.getElem?_set, hlt], by simp⟩, ?_⟩
          intro j hj y hy
          rw [List.getElem?_set_ne (Nat.ne_of_gt hj)] at hy
          exact hmin j hj y hy
        have := probeGroup_promote q lm.move (g.set itr lm) itr lm hfa
          (by simp [List.getElem?_set, hlt])
        simpa [probeGroup, hf, he, hs] using this
      · simp [probeGroup, hf, he, hs]

/-- The record `probe_move` finds for the call's own key and move after
`insert_or_update`: the incoming record when nothing was stored or when it
wins `should_update`, the stored one otherwise. -/
theorem probe_move_insert_or_update (st : LearningData) (plm : PersistedLearningMove)
    (q : Bool) :
    (st.insert_or_update plm q).probe_move plm.key plm.learningMove.move =
      some (match st.probe_move plm.key plm.learningMove.move with
        | none => plm.learningMove
        | some e => if should_update e plm.learningMove = true then plm.learningMove else e) := by
  rw [probe_move_eq_probeGroup, probe_move_eq_probeGroup, equal_range_insert_or_update_same]
  exact probeGroup_groupStep _ q _ _

/-- A call that overwrites a stored record sets the dirty flag. -/
theorem needPersisting_of_update (st : LearningData) (plm : PersistedLearningMove) (q : Bool)
    (e : LearningMove) (hp : st.probe_move plm.key plm.learningMove.move = some e)
    (hs : should_update e plm.learningMove = true) :
    (st.insert_or_update plm q).needPersisting = true := by
  unfold LearningData.probe_move at hp
  unfold LearningData.insert_or_update
  by_cases h : equal_range st.HT plm.key = []
  · simp [h]
  · simp only [h, if_false] at hp ⊢
    cases hf : find_if (fun p => decide (p.move = plm.learningMove.move))
        (equal_range st.HT plm.key) with
    | none => simp
    | some itr =>
      rw [hf] at hp
      simp only [] at hp
      simp [hp, hs]


/-! ## Inserting a move that is new to its group -/

/-- The group after a call whose move is not yet in the (non-empty) group,
when the multimap places a new member after the others. -/
theorem groupStep_new_move (q : Bool) (B : LearningMove) (rest : List LearningMove)
    (lm : LearningMove) (hnew : ∀ x ∈ B :: rest, x.move ≠ lm.move) :
    groupStep Placement.afterLast q (B :: rest) lm =
      if newBestMove q lm B = true then lm :: (rest ++ [lm]).set rest.length B
      else B :: (rest ++ [lm]) := by
  have hf : find_if (fun p => decide (p.move = lm.move)) (B :: rest) = none := by
    rw [find_if_eq_none_iff]
    intro x hx
    simpa using hnew x hx
  unfold groupStep
  simp only [hf, List.cons_ne_nil, if_false, Placement.insert, Placement.firstPos,
    Placement.newPos, List.cons_append, List.length_cons, promote_cons_succ]
  simp

/-- The group after a call whose move is not yet in the (non-empty) group,
when the multimap places a new member before the others (libstdc++): the
promotion swaps the new record with the record after it, so a promoted record
ends second and a record that is not promoted ends first. -/
theorem groupStep_new_move_front (q : Bool) (B : LearningMove) (rest : List LearningMove)
    (lm : LearningMove) (hnew : ∀ x ∈ B :: rest, x.move ≠ lm.move) :
    groupStep Placement.beforeFirst q (B :: rest) lm =
      if newBestMove q lm B = true then B :: lm :: rest else lm :: B :: rest := by
  have hf : find_if (fun p => decide (p.move = lm.move)) (B :: rest) = none := by
    rw [find_if_eq_none_iff]
    intro x hx
    simpa using hnew x hx
  unfold groupStep
  simp only [hf, List.cons_ne_nil, if_false, Placement.insert, Placement.firstPos,
    Placement.newPos, promote_front]

theorem head_groupStep_new_move (q : Bool) (B : LearningMove) (rest : List LearningMove)
    (lm : LearningMove) (hnew : ∀ x ∈ B :: rest, x.move ≠ lm.move) :
    (groupStep Placement.afterLast q (B :: rest) lm).head? = some lm
      ↔ newBestMove q lm B = true := by
  rw [groupStep_new_move q B rest lm hnew]
  by_cases h : newBestMove q lm B = true
  · simp [h]
  · have hB : B ≠ lm := fun hB => hnew B (by simp) (by rw [hB])
    simp [h, hB]

theorem head_groupStep_new_move_front (q : Bool) (B : LearningMove)
    (rest : List LearningMove) (lm : LearningMove)
    (hnew : ∀ x ∈ B :: rest, x.move ≠ lm.move) :
    (groupStep Placement.beforeFirst q (B :: rest) lm).head? = some lm
      ↔ newBestMove q lm B = false := by
  rw [groupStep_new_move_front q B rest lm hnew]
  by_cases h : newBestMove q lm B = true
  · have hB : B ≠ lm := fun hB => hnew B (by simp) (by rw [hB])
    simp [h, hB]
  · simp [h]


/-! ## When the first record stays the best one -/

theorem ranksAtLeast_of_newBestMove (q : Bool) (cand best : LearningMove)
    (h : newBestMove q cand best = true) : ranksAtLeast q cand best := by
  cases q
  · simp only [newBestMove, Bool.false_eq_true, if_false, Bool.or_eq_true, Bool.and_eq_true,
      decide_eq_true_eq] at h
    simp only [ranksAtLeast, Bool.false_eq_true, if_false]
    omega
  · simp only [newBestMove, if_true, decide_eq_true_eq] at h
    simp only [ranksAtLeast, if_true]
    omega

theorem ranksAtLeast_of_not_newBestMove (q : Bool) (cand best : LearningMove)
    (h : ¬ newBestMove q cand best = true) : ranksAtLeast q best cand := by
  cases q
  · simp only [newBestMove, Bool.false_eq_true, if_false, Bool.or_eq_true, Bool.and_eq_true,
      decide_eq_true_eq] at h
    simp only [ranksAtLeast, Bool.false_eq_true, if_false]
    omega
  · simp only [newBestMove, if_true, decide_eq_true_eq] at h
    simp only [ranksAtLeast, if_true]
    omega

theorem ranksAtLeast_refl (q : Bool) (a : LearningMove) : ranksAtLeast q a a := by
  cases q <;> simp [ranksAtLeast]

theorem ranksAtLeast_trans (q : Bool) (a b c : LearningMove)
    (hab : ranksAtLeast q a b) (hbc : ranksAtLeast q b c) : ranksAtLeast q a c := by
  cases q
  · simp only [ranksAtLeast, Bool.false_eq_true, if_false] at *
    omega
  · simp only [ranksAtLeast, if_true] at *
    omega

/-- With new members placed after the others, one call keeps the first record
of the group maximal, unless it overwrites the first record itself with a
record that ranks below it. -/
theorem firstIsBest_groupStep (q : Bool) (g : List LearningMove) (lm : LearningMove)
    (h : firstIsBest q g)
    (hkeep : ∀ B rest, g = B :: rest → B.move = lm.move → should_update B lm = true →
      ranksAtLeast q lm B) :
    firstIsBest q (groupStep Placement.afterLast q g lm) := by
  cases g with
  | nil => simp [groupStep, firstIsBest]
  | cons B rest =>
    have hB : ∀ x ∈ rest, ranksAtLeast q B x := h
    unfold groupStep
    simp only [List.cons_ne_nil, if_false]
    cases hf : find_if (fun p => decide (p.move = lm.move)) (B :: rest) with
    | none =>
      simp only [Placement.insert, Placement.firstPos, Placement.newPos, List.cons_append,
        List.length_cons, promote_cons_succ]
      have hlast : (rest ++ [lm])[rest.length]? = some lm := by simp
      rw [hlast]
      simp only []
      by_cases hn : newBestMove q lm B = true
      · simp only [hn, if_true]
        intro x hx
        have hlB := ranksAtLeast_of_newBestMove q lm B hn
        rcases List.mem_or_eq_of_mem_set hx with hx | hx
        · rcases List.mem_append.1 hx with hx | hx
          · exact ranksAtLeast_trans q _ _ _ hlB (hB x hx)
          · simp at hx
            subst hx
            exact ranksAtLeast_refl q x
        · subst hx
          exact hlB
      · simp only [hn, if_false]
        intro x hx
        rcases List.mem_append.1 hx with hx | hx
        · exact hB x hx
        · simp at hx
          subst hx
          exact ranksAtLeast_of_not_newBestMove q _ _ hn
    | some itr =>
      obtain ⟨⟨e, he, hpe⟩, -⟩ := (find_if_eq_some_iff _ (B :: rest) itr).1 hf
      simp only [he]
      by_cases hs : should_update e lm = true
      · simp only [hs, if_true]
        cases itr with
        | zero =>
          have heB : B = e := by simpa using he
          subst heB
          simp only [List.set_cons_zero, promote_zero]
          have hlB := hkeep B rest rfl (by simpa using hpe) hs
          intro x hx
          exact ranksAtLeast_trans q _ _ _ hlB (hB x hx)
        | succ n =>
          have hn : rest[n]? = some e := by simpa using he
          have hlt : n < rest.length := by
            by_contra hc
            rw [List.getElem?_eq_none (Nat.le_of_not_lt hc)] at hn
            cases hn
          simp only [List.set_cons_succ, promote_cons_succ]
          have hget : (rest.set n lm)[n]? = some lm := by simp [List.getElem?_set, hlt]
          rw [hget]
          simp only []
          by_cases hnb : newBestMove q lm B = true
          · simp only [hnb, if_true, List.set_set]
            have hlB := ranksAtLeast_of_newBestMove q lm B hnb
            intro x hx
            rcases List.mem_or_eq_of_mem_set hx with hx | hx
            · exact ranksAtLeast_trans q _ _ _ hlB (hB x hx)
            · subst hx
              exact hlB
          · simp only [hnb, if_false]
            intro x hx
            rcases List.mem_or_eq_of_mem_set hx with hx | hx
            · exact hB x hx
            · subst hx
              exact ranksAtLeast_of_not_newBestMove q _ _ hnb
      · simp only [hs, if_false]
        exact h

/-- The store-level form: with new members placed after the others,
`insert_or_update` keeps the first record of every group maximal as long as
the call does not overwrite the first record of its group with a record that
ranks below it. -/
theorem firstIsBest_insert_or_update (st : LearningData) (plm : PersistedLearningMove)
    (q : Bool) (hpl : st.placement = Placement.afterLast)
    (h : ∀ key, firstIsBest q (equal_range st.HT key))
    (hkeep : ∀ B rest, equal_range st.HT plm.key = B :: rest →
      B.move = plm.learningMove.move → should_update B plm.learningMove = true →
      ranksAtLeast q plm.learningMove B)
    (key : Key) : firstIsBest q (equal_range (st.insert_or_update plm q).HT key) := by
  by_cases hk : key = plm.key
  · subst hk
    rw [equal_range_insert_or_update_same, hpl]
    exact firstIsBest_groupStep q _ _ (h _) hkeep
  · rw [equal_range_insert_or_update_other st plm q key hk]
    exact h key


/-! ## Merging records whose `(key, move)` is new -/

theorem mem_entries_of_mem_equal_range (ht : Table) (key : Key) (x : LearningMove)
    (h : x ∈ equal_range ht key) : (⟨key, x⟩ : PersistedLearningMove) ∈ entries ht := by
  induction ht with
  | nil => simp [equal_range] at h
  | cons e rest ih =>
    obtain ⟨k, g⟩ := e
    by_cases hk : k = key
    · subst hk
      simp only [equal_range, if_true] at h
      simp only [entries, List.mem_append, List.mem_map]
      exact Or.inl ⟨x, h, rfl⟩
    · simp only [equal_range, hk, if_false] at h
      simp only [entries, List.mem_append]
      exact Or.inr (ih h)

theorem entries_setGroup_perm (ht : Table) (key : Key) (g ext : List LearningMove)
    (h : g.Perm (equal_range ht key ++ ext)) :
    (entries (setGroup ht key g)).Perm
      (entries ht ++ ext.map (fun lm => (⟨key, lm⟩ : PersistedLearningMove))) := by
  induction ht with
  | nil =>
    simp only [equal_range, List.nil_append] at h
    simpa [setGroup, entries] using h.map (fun lm => (⟨key, lm⟩ : PersistedLearningMove))
  | cons e rest ih =>
    obtain ⟨k, g0⟩ := e
    by_cases hk : k = key
    · subst hk
      simp only [equal_range, if_true] at h
      simp only [setGroup, if_true, entries]
      have h1 := h.map (fun lm => (⟨k, lm⟩ : PersistedLearningMove))
      rw [List.map_append] at h1
      calc (List.map (fun lm => (⟨k, lm⟩ : PersistedLearningMove)) g ++ entries rest).Perm
            ((List.map (fun lm => (⟨k, lm⟩ : PersistedLearningMove)) g0
              ++ List.map (fun lm => (⟨k, lm⟩ : PersistedLearningMove)) ext) ++ entries rest) :=
            List.Perm.append_right _ h1
        _ |>.Perm (List.map (fun lm => (⟨k, lm⟩ : PersistedLearningMove)) g0
              ++ (List.map (fun lm => (⟨k, lm⟩ : PersistedLearningMove)) ext ++ entries rest)) := by
            rw [List.append_assoc]
        _ |>.Perm (List.map (fun lm => (⟨k, lm⟩ : PersistedLearningMove)) g0
              ++ (entries rest ++ List.map (fun lm => (⟨k, lm⟩ : PersistedLearningMove)) ext)) :=
            List.Perm.append_left _ List.perm_append_comm
        _ |>.Perm (List.map (fun lm => (⟨k, lm⟩ : PersistedLearningMove)) g0 ++ entries rest
              ++ List.map (fun lm => (⟨k, lm⟩ : PersistedLearningMove)) ext) := by
            rw [List.append_assoc]
    · simp only [equal_range, hk, if_false] at h
      simp only [setGroup, hk, if_false, entries, List.append_assoc]
      exact List.Perm.append_left _ (ih h)

/-- A call whose move is new to its group adds exactly its record to the
entries of the index. -/
theorem entries_insert_or_update_new (st : LearningData) (plm : PersistedLearningMove)
    (q : Bool) (hnew : ∀ x ∈ equal_range st.HT plm.key, x.move ≠ plm.learningMove.move) :
    (entries (st.insert_or_update plm q).HT).Perm (entries st.HT ++ [plm]) := by
  have hf : find_if (fun p => decide (p.move = plm.learningMove.move))
      (equal_range st.HT plm.key) = none := by
    rw [find_if_eq_none_iff]
    intro x hx
    simpa using hnew x hx
  unfold LearningData.insert_or_update
  by_cases h : equal_range st.HT plm.key = []
  · simp only [h, if_true, HT_insert]
    exact entries_setGroup_perm st.HT plm.key _ [plm.learningMove]
      (by cases st.placement <;> simp [h, Placement.insert])
  · simp only [h, if_false, hf, HT_insert, setGroup_setGroup, equal_range_setGroup_same]
    exact entries_setGroup_perm st.HT plm.key _ [plm.learningMove]
      (promote_insert_perm st.placement q _ _)

/-- Merging a list of records with pairwise distinct `(key, move)`, none of
them present in the index, adds exactly these records. -/
theorem entries_foldl_insert_or_update (q : Bool) (recs : List PersistedLearningMove)
    (st : LearningData) (h : ((entries st.HT ++ recs).map keyMove).Nodup) :
    (entries (recs.foldl (fun s plm => s.insert_or_update plm q) st).HT).Perm
      (entries st.HT ++ recs) := by
  induction recs generalizing st with
  | nil => simp
  | cons r rs ih =>
    have hnew : ∀ x ∈ equal_range st.HT r.key, x.move ≠ r.learningMove.move := by
      intro x hx hm
      have hmem := mem_entries_of_mem_equal_range st.HT r.key x hx
      rw [List.map_append, List.nodup_append] at h
      have h1 : keyMove r ∈ (entries st.HT).map keyMove :=
        List.mem_map.2 ⟨_, hmem, by simp [keyMove, hm]⟩
      have h2 : keyMove r ∈ (r :: rs).map keyMove := by simp
      exact h.2.2 h1 h2
    have hstep := entries_insert_or_update_new st r q hnew
    have hperm : (entries (st.insert_or_update r q).HT ++ rs).Perm (entries st.HT ++ r :: rs) := by
      have := List.Perm.append_right rs hstep
      simpa using this
    have hnd : ((entries (st.insert_or_update r q).HT ++ rs).map keyMove).Nodup :=
      (hperm.map keyMove).nodup_iff.2 h
    simpa using (ih (st.insert_or_update r q) hnd).trans hperm


/-! ## Persist followed by load -/

/-- The result of `persist` when it proceeds. -/
theorem persist_of_proceeds (host : Host) (o : OptionsMap) (fs : FileSystem)
    (st : LearningData) (hne : HT_empty st.HT = false) (hd : st.needPersisting = true)
    (hro : st.isReadOnly = false) :
    st.persist host o fs =
      ((((fs.writeFile (tempExperienceFilename host o) (snapshot st.HT)).removeFile
          (experienceFilename host o)).renameFile (tempExperienceFilename host o)
          (experienceFilename host o)),
        { st with needPersisting := false }) := by
  simp [LearningData.persist, hne, hd, hro]

theorem kept_of_no_failure (fs : FileSystem) (path : String)
    (recs : List PersistedLearningMove) (h : fs.failWrite path = none) :
    fs.kept path recs = ⟨recs, 0⟩ := by
  simp [FileSystem.kept, h]

/-- The canonical file after a `persist` that proceeds and can open its
temporary file: what the stream kept of the snapshot. -/
theorem persist_files_canonical_kept (host : Host) (o : OptionsMap) (fs : FileSystem)
    (st : LearningData) (hne : HT_empty st.HT = false) (hd : st.needPersisting = true)
    (hro : st.isReadOnly = false)
    (hw : fs.denyWrite (tempExperienceFilename host o) = false)
    (hp : tempExperienceFilename host o ≠ experienceFilename host o) :
    (st.persist host o fs).1.files (experienceFilename host o)
      = some (fs.kept (tempExperienceFilename host o) (snapshot st.HT)) := by
  rw [persist_of_proceeds host o fs st hne hd hro]
  simp [FileSystem.writeFile, hw, FileSystem.removeFile, FileSystem.renameFile, hp]

/-- The canonical file after a `persist` that proceeds, can open its temporary
file and writes it in full. -/
theorem persist_files_canonical (host : Host) (o : OptionsMap) (fs : FileSystem)
    (st : LearningData) (hne : HT_empty st.HT = false) (hd : st.needPersisting = true)
    (hro : st.isReadOnly = false)
    (hw : fs.denyWrite (tempExperienceFilename host o) = false)
    (hfw : fs.failWrite (tempExperienceFilename host o) = none)
    (hp : tempExperienceFilename host o ≠ experienceFilename host o) :
    (st.persist host o fs).1.files (experienceFilename host o) = some ⟨snapshot st.HT, 0⟩ := by
  rw [persist_files_canonical_kept host o fs st hne hd hro hw hp,
    kept_of_no_failure _ _ _ hfw]

theorem persist_shortRead (host : Host) (o : OptionsMap) (fs : FileSystem)
    (st : LearningData) : (st.persist host o fs).1.shortRead = fs.shortRead := by
  unfold LearningData.persist
  split
  · rfl
  · split
    · rfl
    · simp only [FileSystem.renameFile, FileSystem.removeFile, FileSystem.writeFile]
      split <;> split <;> rfl

/-- A successful `load` of a file with at least one record merges the records
of the file in order. -/
theorem load_of_records (host : Host) (fs : FileSystem) (st : LearningData)
    (filename : String) (recs : List PersistedLearningMove)
    (hfile : fs.files filename = some ⟨recs, 0⟩) (hrecs : recs ≠ [])
    (hmem : host.mallocOk (recordWidth * recs.length) = true)
    (hrd : fs.shortRead filename = false) :
    (LearningData.load host fs st filename).1 = true
    ∧ (LearningData.load host fs st filename).2.2 =
        recs.foldl (fun s plm => s.insert_or_update plm
            (decide (st.learningMode = LearningMode.Self)))
          { st with mainDataBuffers := st.mainDataBuffers ++ [recordWidth * recs.length] } := by
  have hsize : (⟨recs, 0⟩ : FileData).size = recordWidth * recs.length := by
    simp [FileData.size]
  unfold LearningData.load
  simp only [hfile, hsize, Nat.mul_mod_right, ne_eq, not_true_eq_false, if_false, hmem,
    Bool.not_true, Bool.false_eq_true, hrd, hrecs]
  exact ⟨trivial, trivial⟩

/-- Round trip away from the empty file: when no two entries of the index
share `(key, move)`, at least one record has depth other than 0, concurrent
mode is off and the files can be written in full and read, then `persist`,
`clear` and `load` of the canonical file give back the
`(key, move, depth, score)` tuples held before, minus those of depth 0. -/
theorem round_trip_of_nonzero_depth (host : Host) (o : OptionsMap) (fs : FileSystem)
    (st : LearningData)
    (hd : st.needPersisting = true) (hro : st.isReadOnly = false)
    (huniq : ((entries st.HT).map keyMove).Nodup)
    (hnz : snapshot st.HT ≠ [])
    (hw : fs.denyWrite (tempExperienceFilename host o) = false)
    (hfw : fs.failWrite (tempExperienceFilename host o) = none)
    (hp : tempExperienceFilename host o ≠ experienceFilename host o)
    (hmem : host.mallocOk (recordWidth * (snapshot st.HT).length) = true)
    (hrd : fs.shortRead (experienceFilename host o) = false) :
    (LearningData.load host (st.persist host o fs).1 (st.persist host o fs).2.clear
        (experienceFilename host o)).1 = true
    ∧ (tuples (LearningData.load host (st.persist host o fs).1 (st.persist host o fs).2.clear
        (experienceFilename host o)).2.2.HT).Perm
        ((tuples st.HT).filter (fun t => decide (t.2.2.1 ≠ 0))) := by
  have hne : HT_empty st.HT = false := by
    cases he : entries st.HT with
    | nil => simp [snapshot, he] at hnz
    | cons a t => simp [HT_empty, he]
  have hfile := persist_files_canonical host o fs st hne hd hro hw hfw hp
  have hrd2 : (st.persist host o fs).1.shortRead (experienceFilename host o) = false := by
    rw [persist_shortRead]
    exact hrd
  obtain ⟨h1, h2⟩ := load_of_records host (st.persist host o fs).1
    (st.persist host o fs).2.clear (experienceFilename host o) (snapshot st.HT) hfile hnz
    hmem hrd2
  refine ⟨h1, ?_⟩
  rw [h2]
  have hsub : ((snapshot st.HT).map keyMove).Nodup :=
    List.Nodup.sublist (List.Sublist.map keyMove (List.filter_sublist _)) huniq
  have hperm := entries_foldl_insert_or_update
    (decide ((st.persist host o fs).2.clear.learningMode = LearningMode.Self))
    (snapshot st.HT)
    { (st.persist host o fs).2.clear with
      mainDataBuffers := (st.persist host o fs).2.clear.mainDataBuffers
        ++ [recordWidth * (snapshot st.HT).length] }
    (by simpa [LearningData.clear, entries] using hsub)
  have htup : (tuples st.HT).filter (fun t => decide (t.2.2.1 ≠ 0))
      = (snapshot st.HT).map tupleOf := by
    simp only [tuples, snapshot, List.filter_map]
    rfl
  rw [htup]
  simpa [tuples, LearningData.clear, entries] using hperm.map tupleOf


/-! ## The dirty flag under `insert_or_update` -/

/-- A call either leaves the store exactly as it was or sets the dirty flag. -/
theorem insert_or_update_eq_or_dirty (st : LearningData) (plm : PersistedLearningMove)
    (q : Bool) :
    st.insert_or_update plm q = st ∨ (st.insert_or_update plm q).needPersisting = true := by
  unfold LearningData.insert_or_update
  by_cases h : equal_range st.HT plm.key = []
  · simp [h]
  · simp only [h, if_false]
    cases hf : find_if (fun p => decide (p.move = plm.learningMove.move))
        (equal_range st.HT plm.key) with
    | none => simp
    | some itr =>
      simp only []
      cases hg : (equal_range st.HT plm.key)[itr]? with
      | none => simp
      | some e =>
        simp only []
        by_cases hs : should_update e plm.learningMove = true
        · simp [hs]
        · simp [hs]

/-- A call whose record loses to the stored record of the same move leaves the
store as it was. -/
theorem insert_or_update_of_loses (st : LearningData) (plm : PersistedLearningMove) (q : Bool)
    (e : LearningMove) (hp : st.probe_move plm.key plm.learningMove.move = some e)
    (hs : should_update e plm.learningMove = false) : st.insert_or_update plm q = st := by
  unfold LearningData.probe_move at hp
  unfold LearningData.insert_or_update
  by_cases h : equal_range st.HT plm.key = []
  · simp [h] at hp
  · simp only [h, if_false] at hp ⊢
    cases hf : find_if (fun p => decide (p.move = plm.learningMove.move))
        (equal_range st.HT plm.key) with
    | none => simp [hf] at hp
    | some itr =>
      rw [hf] at hp
      simp only [] at hp
      simp [hp, hs]


/-! ## The file system under `load` and `init` -/

/-- The only trace `load` leaves on the file system is the request to open
the file. -/
theorem load_fileSystem (host : Host) (fs : FileSystem) (st : LearningData)
    (filename : String) :
    (LearningData.load host fs st filename).2.1
      = { fs with log := fs.log ++ [FileOp.openRead filename] } := by
  unfold LearningData.load
  cases fs.files filename with
  | none => rfl
  | some d =>
    simp only []
    split
    · rfl
    · split
      · rfl
      · split <;> rfl

theorem load_of_absent (host : Host) (fs : FileSystem) (st : LearningData)
    (filename : String) (h : fs.files filename = none) :
    (LearningData.load host fs st filename).1 = false
    ∧ (LearningData.load host fs st filename).2.2 = st := by
  simp [LearningData.load, h]

/-- The result of `init` when neither `JudaS_new.exp` nor the first numbered
slave file is present: the files are untouched and the trace grows by four
open-for-reading requests only. -/
theorem init_without_slaves (host : Host) (o : OptionsMap) (fuel : Nat) (fs : FileSystem)
    (st : LearningData) (hbook : o.experienceBook = true)
    (hnew : fs.files "JudaS_new.exp" = none)
    (h0 : fs.files (slaveFileName host 0) = none) :
    ∃ r, LearningData.init host o (fuel + 1) fs st = some r
      ∧ r.1.files = fs.files
      ∧ r.1.log = fs.log ++
          [FileOp.openRead (host.map_path "JudaS.exp"),
           FileOp.openRead (host.map_path "JudaS.exp"),
           FileOp.openRead "JudaS_new.exp",
           FileOp.openRead (slaveFileName host 0)] := by
  unfold LearningData.init LearningData.loadPhase
  simp only [hbook, Bool.true_eq_false, and_false, if_false, load_fileSystem]
  have h3 := load_of_absent host
    { files := fs.files, denyWrite := fs.denyWrite, failWrite := fs.failWrite,
      shortRead := fs.shortRead,
      log := fs.log ++ [FileOp.openRead (host.map_path "JudaS.exp")]
        ++ [FileOp.openRead (host.map_path "JudaS.exp")] }
  simp only [] at h3
  simp only [(h3 _ "JudaS_new.exp" hnew).1, Bool.false_eq_true, if_false]
  unfold LearningData.loadSlaves
  have h4 := load_of_absent host
    { files := fs.files, denyWrite := fs.denyWrite, failWrite := fs.failWrite,
      shortRead := fs.shortRead,
      log := fs.log ++ [FileOp.openRead (host.map_path "JudaS.exp")]
        ++ [FileOp.openRead (host.map_path "JudaS.exp")] ++ [FileOp.openRead "JudaS_new.exp"] }
  simp only [] at h4
  simp only [(h4 _ (slaveFileName host 0) h0).1, Bool.false_eq_true, if_false, load_fileSystem]
  simp


/-- A stream that fails after one record: `persist` does not test it, removes
the canonical file, renames the truncated temporary file to it and clears the
dirty flag. -/
theorem persist_with_failing_stream :
    ((sampleStore [(1, [⟨3, 20, 7, 100⟩]), (2, [⟨5, 1, 7, 90⟩])]).persist
        (sampleHost ⟨0, ⟨0, 0, 0, 0⟩⟩) sampleOptions
        { sampleFs (fun p => if p = "JudaS.exp" then
              some ⟨[⟨1, ⟨3, 20, 7, 100⟩⟩, ⟨2, ⟨4, 0, 7, 90⟩⟩], 0⟩ else none)
            (fun _ => false) with
          failWrite := fun _ => some 1 }).1.files "JudaS.exp"
      = some ⟨[⟨1, ⟨3, 20, 7, 100⟩⟩], 0⟩
    ∧ ((sampleStore [(1, [⟨3, 20, 7, 100⟩]), (2, [⟨5, 1, 7, 90⟩])]).persist
        (sampleHost ⟨0, ⟨0, 0, 0, 0⟩⟩) sampleOptions
        { sampleFs (fun p => if p = "JudaS.exp" then
              some ⟨[⟨1, ⟨3, 20, 7, 100⟩⟩, ⟨2, ⟨4, 0, 7, 90⟩⟩], 0⟩ else none)
            (fun _ => false) with
          failWrite := fun _ => some 1 }).2.needPersisting = false := by
  refine ⟨by decide, by decide⟩


/-! ## The steps of `persist` and a crash between them -/

/-- Running the four steps in order is what `persist` does to the file system. -/
theorem persistPrefix_all (host : Host) (o : OptionsMap) (fs : FileSystem)
    (st : LearningData) (flushed : FileData) (n : Nat)
    (hne : HT_empty st.HT = false) (hd : st.needPersisting = true)
    (hro : st.isReadOnly = false) :
    persistPrefix host o st flushed (n + 4) fs = (st.persist host o fs).1 := by
  rw [persist_of_proceeds host o fs st hne hd hro]
  by_cases hw : fs.denyWrite (tempExperienceFilename host o) = true
  · simp [persistPrefix, persistSteps, persistStep, FileSystem.writeFile, hw]
  · simp only [persistPrefix, persistSteps, List.take_succ_cons, List.take_nil, List.take_zero,
      List.foldl_cons, List.foldl_nil, persistStep, FileSystem.writeFile, hw,
      Bool.false_eq_true, if_false, FileSystem.kept]
    congr 3
    funext p
    by_cases hp : p = tempExperienceFilename host o <;> simp [hp]

/-- After any number of steps of a `persist` whose stream does not fail, the
canonical file is as before, absent, or the complete snapshot; and once it
differs from before, the complete snapshot is in the temporary file or in the
canonical file. -/
theorem persistPrefix_canonical (host : Host) (o : OptionsMap) (fs : FileSystem)
    (st : LearningData) (flushed : FileData) (n : Nat)
    (hw : fs.denyWrite (tempExperienceFilename host o) = false)
    (hfw : fs.failWrite (tempExperienceFilename host o) = none)
    (hp : tempExperienceFilename host o ≠ experienceFilename host o) :
    ((persistPrefix host o st flushed n fs).files (experienceFilename host o)
        = fs.files (experienceFilename host o)
      ∨ (persistPrefix host o st flushed n fs).files (experienceFilename host o) = none
      ∨ (persistPrefix host o st flushed n fs).files (experienceFilename host o)
        = some ⟨snapshot st.HT, 0⟩)
    ∧ ((persistPrefix host o st flushed n fs).files (experienceFilename host o)
        ≠ fs.files (experienceFilename host o) →
      (persistPrefix host o st flushed n fs).files (tempExperienceFilename host o)
          = some ⟨snapshot st.HT, 0⟩
      ∨ (persistPrefix host o st flushed n fs).files (experienceFilename host o)
          = some ⟨snapshot st.HT, 0⟩) := by
  have hp2 : experienceFilename host o ≠ tempExperienceFilename host o := Ne.symm hp
  match n with
  | 0 => simp [persistPrefix, persistSteps]
  | 1 => simp [persistPrefix, persistSteps, persistStep, hw, hp2]
  | 2 => simp [persistPrefix, persistSteps, persistStep, hw, hp2]
  | 3 =>
    simp [persistPrefix, persistSteps, persistStep, hw, hp2, hp, FileSystem.removeFile,
      FileSystem.kept, hfw]
  | k + 4 =>
    simp [persistPrefix, persistSteps, persistStep, hw, hp2, hp, FileSystem.removeFile,
      FileSystem.renameFile, FileSystem.kept, hfw]


/-! ## Which operations clear the dirty flag -/

/-- With the feature enabled `init` ends with the dirty flag cleared. -/
theorem needPersisting_init (host : Host) (o : OptionsMap) (fuel : Nat) (fs : FileSystem)
    (st : LearningData) (r : FileSystem × LearningData) (hbook : o.experienceBook = true)
    (h : LearningData.init host o fuel fs st = some r) : r.2.needPersisting = false := by
  unfold LearningData.init at h
  simp only [hbook, Bool.true_eq_false, and_false, if_false] at h
  cases hl : LearningData.loadPhase host fuel fs
      { st.clear with learningMode := identify_learning_mode o.learningMode } with
  | none => simp [hl] at h
  | some t =>
    obtain ⟨fs1, st1, slaveFiles⟩ := t
    simp only [hl, Option.some.injEq] at h
    rw [← h]


/-! ## What the loading part of `init` depends on -/

/-- The verdict of `load` and the store it returns depend on the file system
only through the content and the readability of the named file. -/
theorem load_congr (host : Host) (fs fs2 : FileSystem) (st : LearningData) (filename : String)
    (hf : fs.files filename = fs2.files filename)
    (hs : fs.shortRead filename = fs2.shortRead filename) :
    (LearningData.load host fs st filename).1 = (LearningData.load host fs2 st filename).1
    ∧ (LearningData.load host fs st filename).2.2
        = (LearningData.load host fs2 st filename).2.2 := by
  unfold LearningData.load
  rw [hf, hs]
  cases fs2.files filename with
  | none => exact ⟨rfl, rfl⟩
  | some d =>
    simp only []
    split
    · exact ⟨rfl, rfl⟩
    · split
      · exact ⟨rfl, rfl⟩
      · split <;> exact ⟨rfl, rfl⟩

theorem load_of_bad_size (host : Host) (fs : FileSystem) (st : LearningData)
    (filename : String)
    (h : ∃ d, fs.files filename = some d ∧ d.size % recordWidth ≠ 0) :
    (LearningData.load host fs st filename).1 = false
    ∧ (LearningData.load host fs st filename).2.2 = st := by
  obtain ⟨d, hd, hsz⟩ := h
  simp [LearningData.load, hd, hsz]

/-- The store `persist` returns does not depend on the file system. -/
theorem persist_snd_congr (host : Host) (o : OptionsMap) (fs fs2 : FileSystem)
    (st : LearningData) : (st.persist host o fs).2 = (st.persist host o fs2).2 := by
  unfold LearningData.persist
  split
  · rfl
  · split <;> rfl

/-- The numbered loop ends at a file of bad length: started at or before
number `k`, it returns the same store and the same list of slave files on any
two file systems that agree on the numbered files before `k` and both hold a
file `k` of bad length. -/
theorem loadSlaves_congr_up_to_bad (host : Host) (k : Nat) :
    ∀ (fuel i : Nat) (fs fs2 : FileSystem) (st : LearningData) (slaveFiles : List String),
      i ≤ k → k - i < fuel →
      (∀ j, j < k → fs.files (slaveFileName host j) = fs2.files (slaveFileName host j)
        ∧ fs.shortRead (slaveFileName host j) = fs2.shortRead (slaveFileName host j)) →
      (∃ d, fs.files (slaveFileName host k) = some d ∧ d.size % recordWidth ≠ 0) →
      (∃ d, fs2.files (slaveFileName host k) = some d ∧ d.size % recordWidth ≠ 0) →
      ∃ fsA fsB stR slavesR,
        LearningData.loadSlaves host fuel i fs st slaveFiles = some (fsA, stR, slavesR)
        ∧ LearningData.loadSlaves host fuel i fs2 st slaveFiles = some (fsB, stR, slavesR) := by
  intro fuel
  induction fuel with
  | zero => intro i fs fs2 st slaveFiles _ hlt; exact absurd hlt (Nat.not_lt_zero _)
  | succ fuel ih =>
    intro i fs fs2 st slaveFiles hik hlt hagree hbad hbad2
    unfold LearningData.loadSlaves
    by_cases hi : i = k
    · subst hi
      have h1 := load_of_bad_size host fs st (slaveFileName host i) hbad
      have h2 := load_of_bad_size host fs2 st (slaveFileName host i) hbad2
      simp only [h1.1, h2.1, Bool.false_eq_true, if_false, h1.2, h2.2]
      exact ⟨_, _, _, _, rfl, rfl⟩
    · have hlt2 : i < k := Nat.lt_of_le_of_ne hik hi
      obtain ⟨hf, hs⟩ := hagree i hlt2
      obtain ⟨hc1, hc2⟩ := load_congr host fs fs2 st (slaveFileName host i) hf hs
      rw [← hc1, ← hc2]
      by_cases hl : (LearningData.load host fs st (slaveFileName host i)).1 = true
      · simp only [hl, if_true, load_fileSystem]
        exact ih (i + 1) _ _ _ _ hlt2 (by omega) hagree hbad hbad2
      · simp only [hl, Bool.false_eq_true, if_false]
        exact ⟨_, _, _, _, rfl, rfl⟩

/-- The loading part of `init` on two file systems that agree up to a numbered
file `k` of bad length. -/
theorem loadPhase_congr_up_to_bad (host : Host) (k fuel : Nat) (fs fs2 : FileSystem)
    (st : LearningData) (hfuel : k < fuel)
    (hcanon : fs.files (host.map_path "JudaS.exp") = fs2.files (host.map_path "JudaS.exp")
      ∧ fs.shortRead (host.map_path "JudaS.exp") = fs2.shortRead (host.map_path "JudaS.exp"))
    (hnew : fs.files "JudaS_new.exp" = fs2.files "JudaS_new.exp"
      ∧ fs.shortRead "JudaS_new.exp" = fs2.shortRead "JudaS_new.exp")
    (hagree : ∀ j, j < k → fs.files (slaveFileName host j) = fs2.files (slaveFileName host j)
      ∧ fs.shortRead (slaveFileName host j) = fs2.shortRead (slaveFileName host j))
    (hbad : ∃ d, fs.files (slaveFileName host k) = some d ∧ d.size % recordWidth ≠ 0)
    (hbad2 : ∃ d, fs2.files (slaveFileName host k) = some d ∧ d.size % recordWidth ≠ 0) :
    ∃ fsA fsB stR slavesR,
      LearningData.loadPhase host fuel fs st = some (fsA, stR, slavesR)
      ∧ LearningData.loadPhase host fuel fs2 st = some (fsB, stR, slavesR) := by
  unfold LearningData.loadPhase
  simp only [load_fileSystem]
  obtain ⟨a1, a2⟩ := load_congr host fs fs2 st (host.map_path "JudaS.exp") hcanon.1 hcanon.2
  obtain ⟨b1, b2⟩ := load_congr host
    { fs with log := fs.log ++ [FileOp.openRead (host.map_path "JudaS.exp")] }
    { fs2 with log := fs2.log ++ [FileOp.openRead (host.map_path "JudaS.exp")] }
    (LearningData.load host fs st (host.map_path "JudaS.exp")).2.2
    (host.map_path "JudaS.exp") hcanon.1 hcanon.2
  obtain ⟨c1, c2⟩ := load_congr host
    { fs with log := fs.log ++ [FileOp.openRead (host.map_path "JudaS.exp")]
        ++ [FileOp.openRead (host.map_path "JudaS.exp")] }
    { fs2 with log := fs2.log ++ [FileOp.openRead (host.map_path "JudaS.exp")]
        ++ [FileOp.openRead (host.map_path "JudaS.exp")] }
    (LearningData.load host
      { fs with log := fs.log ++ [FileOp.openRead (host.map_path "JudaS.exp")] }
      (LearningData.load host fs st (host.map_path "JudaS.exp")).2.2
      (host.map_path "JudaS.exp")).2.2
    "JudaS_new.exp" hnew.1 hnew.2
  rw [← a2, ← b2, ← c1, ← c2]
  exact loadSlaves_congr_up_to_bad host k fuel 0 _ _ _ _ (Nat.zero_le k) (by omega)
    hagree hbad hbad2


/-! ## The store after the loading part of `init` -/

/-- Once the scan holds a record, it ends holding a record of the scanned
part or the one it held, of depth at least the depth of every record seen and,
among those of that depth, of score at least theirs. -/
theorem scanMaxDepthAndScore_tracking (l : List LearningMove) :
    ∀ r : LearningMove, ∃ r2 : LearningMove,
      scanMaxDepthAndScore l (some r, r.depth, r.score) = (some r2, r2.depth, r2.score)
      ∧ (r2 = r ∨ r2 ∈ l)
      ∧ (r.depth ≤ r2.depth ∧ (r.depth = r2.depth → r.score ≤ r2.score))
      ∧ ∀ x ∈ l, x.depth ≤ r2.depth ∧ (x.depth = r2.depth → x.score ≤ r2.score) := by
  induction l with
  | nil =>
    intro r
    exact ⟨r, rfl, Or.inl rfl, ⟨le_refl _, fun _ => le_refl _⟩, by simp⟩
  | cons x rest ih =>
    intro r
    by_cases h1 : x.depth > r.depth
    · obtain ⟨r2, hs, hmem, hdom, hall⟩ := ih x
      refine ⟨r2, by simp [scanMaxDepthAndScore, h1, hs], ?_, ?_, ?_⟩
      · rcases hmem with h | h
        · exact Or.inr (by simp [h])
        · exact Or.inr (by simp [h])
      · constructor
        · omega
        · intro h; omega
      · intro y hy
        rcases List.mem_cons.1 hy with h | h
        · subst h; exact hdom
        · exact hall y h
    · by_cases h2 : x.depth = r.depth ∧ x.score > r.score
      · obtain ⟨r2, hs, hmem, hdom, hall⟩ := ih x
        have hst : scanMaxDepthAndScore (x :: rest) (some r, r.depth, r.score)
            = scanMaxDepthAndScore rest (some x, x.depth, x.score) := by
          simp [scanMaxDepthAndScore, h1, h2, h2.1]
        refine ⟨r2, by rw [hst, hs], ?_, ?_, ?_⟩
        · rcases hmem with h | h
          · exact Or.inr (by simp [h])
          · exact Or.inr (by simp [h])
        · constructor
          · omega
          · intro h; have := hdom.2 (by omega); omega
        · intro y hy
          rcases List.mem_cons.1 hy with h | h
          · subst h; exact hdom
          · exact hall y h
      · obtain ⟨r2, hs, hmem, hdom, hall⟩ := ih r
        have hst : scanMaxDepthAndScore (x :: rest) (some r, r.depth, r.score)
            = scanMaxDepthAndScore rest (some r, r.depth, r.score) := by
          simp only [scanMaxDepthAndScore, h1, h2, if_false]
        refine ⟨r2, by rw [hst, hs], ?_, hdom, ?_⟩
        · rcases hmem with h | h
          · exact Or.inl h
          · exact Or.inr (by simp [h])
        · intro y hy
          rcases List.mem_cons.1 hy with h | h
          · subst h
            constructor
            · omega
            · intro h3
              have h4 : y.depth = r.depth := by omega
              have h5 : ¬ y.score > r.score := fun hc => h2 ⟨h4, hc⟩
              have := hdom.2 (by omega)
              omega
          · exact hall y h

/-- The scan of a non-empty group whose first record has a non-negative depth. -/
theorem scanMaxDepthAndScore_spec (x : LearningMove) (rest : List LearningMove)
    (hx : 0 ≤ x.depth) :
    ∃ r : LearningMove,
      (scanMaxDepthAndScore (x :: rest) (none, -1, -1)).1 = some r
      ∧ r ∈ x :: rest
      ∧ ∀ y ∈ x :: rest, y.depth ≤ r.depth ∧ (y.depth = r.depth → y.score ≤ r.score) := by
  obtain ⟨r, hs, hmem, hdom, hall⟩ := scanMaxDepthAndScore_tracking rest x
  have hst : scanMaxDepthAndScore (x :: rest) (none, -1, -1)
      = scanMaxDepthAndScore rest (some x, x.depth, x.score) := by
    have h1 : x.depth > -1 := by omega
    simp [scanMaxDepthAndScore, h1]
  refine ⟨r, by rw [hst, hs], ?_, ?_⟩
  · rcases hmem with h | h
    · simp [h]
    · simp [h]
  · intro y hy
    rcases List.mem_cons.1 hy with h | h
    · subst h; exact hdom
    · exact hall y h


/-! ## The engine front end and the pause flag -/

/-- While the store is paused `Engine::set_position` leaves it as it is. -/
theorem set_position_of_paused {Pos : Type} (api : PositionApi Pos) (host : Host)
    (moves : List String) (st : LearningData) (hp : st.isPaused = true) :
    ∀ pos : Pos, (Engine.set_position api host pos moves st).2 = st := by
  induction moves with
  | nil => intro pos; rfl
  | cons move rest ih =>
    intro pos
    unfold Engine.set_position
    by_cases hm : api.to_move pos move = api.move_none
    · simp [hm]
    · simp only [hm, if_false, hp, Bool.not_true, Bool.and_false, Bool.false_eq_true]
      exact ih _


/-! ## The promotion as a swap, and what a call keeps -/

/-- The group after a call is the promotion step applied to the group as it
stood after the insertion or the overwrite. -/
theorem groupStep_eq_promote_candidate (pl : Placement) (q : Bool) (g : List LearningMove)
    (lm : LearningMove) :
    groupStep pl q g lm =
      match candidateOf pl g lm with
      | some c => promote q c.1 c.2.1 c.2.2
      | none => if g = [] then [lm] else g := by
  unfold groupStep candidateOf
  by_cases hg : g = []
  · simp [hg]
  · simp only [hg, if_false]
    cases find_if (fun p => decide (p.move = lm.move)) g with
    | none => rfl
    | some itr =>
      simp only []
      cases g[itr]? with
      | none => simp [hg]
      | some e =>
        simp only []
        by_cases hs : should_update e lm = true
        · simp [hs]
        · simp [hs, hg]

/-- A promotion that takes place is the exchange of the positions `first` and
`cand`. -/
theorem promote_of_newBestMove (q : Bool) (g : List LearningMove) (first cand : Nat)
    (best c : LearningMove) (hi : cand ≠ first) (hb : g[first]? = some best)
    (hc : g[cand]? = some c) (hn : newBestMove q c best = true) :
    promote q g first cand = (g.set cand best).set first c := by
  unfold promote
  simp [hb, hc, hi, hn]

/-- The three ways a call acts on the group of its key, up to the order of
the records: a new member, an overwrite of a record of the same move, or
nothing while a record of the same move is present. -/
theorem groupStep_cases (pl : Placement) (q : Bool) (g : List LearningMove)
    (lm : LearningMove) :
    ((∀ x ∈ g, x.move ≠ lm.move) ∧ (groupStep pl q g lm).Perm (g ++ [lm]))
    ∨ (∃ i e, g[i]? = some e ∧ e.move = lm.move ∧ (groupStep pl q g lm).Perm (g.set i lm))
    ∨ (groupStep pl q g lm = g ∧ ∃ e ∈ g, e.move = lm.move) := by
  unfold groupStep
  by_cases hg : g = []
  · subst hg
    exact Or.inl ⟨by simp, by simp⟩
  · simp only [hg, if_false]
    cases hf : find_if (fun p => decide (p.move = lm.move)) g with
    | none =>
      have hno := (find_if_eq_none_iff _ g).1 hf
      exact Or.inl ⟨fun x hx => by simpa using hno x hx, promote_insert_perm pl q g lm⟩
    | some itr =>
      obtain ⟨⟨e, he, hpe⟩, -⟩ := (find_if_eq_some_iff _ g itr).1 hf
      have hm : e.move = lm.move := by simpa using hpe
      simp only [he]
      by_cases hs : should_update e lm = true
      · simp only [hs, if_true]
        exact Or.inr (Or.inl ⟨itr, e, he, hm, promote_perm q _ _⟩)
      · have hs2 : should_update e lm = false := by simpa using hs
        rw [hs2]
        exact Or.inr (Or.inr ⟨by simp, e, List.getElem?_mem he, hm⟩)

theorem filter_set_same_move (g : List LearningMove) (i : Nat) (e lm : LearningMove)
    (hg : g[i]? = some e) (hm : e.move = lm.move) :
    (g.set i lm).filter (fun r => decide (r.move ≠ lm.move))
      = g.filter (fun r => decide (r.move ≠ lm.move)) := by
  induction g generalizing i with
  | nil => simp
  | cons a t ih =>
    cases i with
    | zero =>
      have ha : a = e := by simpa using hg
      subst ha
      simp [List.filter_cons, hm]
    | succ n =>
      have h2 : t[n]? = some e := by simpa using hg
      have h3 := ih n h2
      simp only [List.set_cons_succ, List.filter_cons, h3]

/-- The moves present in the group after a call are those present before and
the move of the call. -/
theorem mem_moves_groupStep (pl : Placement) (q : Bool) (g : List LearningMove)
    (lm : LearningMove) (m : Move) :
    m ∈ (groupStep pl q g lm).map (·.move) ↔ m ∈ g.map (·.move) ∨ m = lm.move := by
  rcases groupStep_cases pl q g lm with ⟨-, hp⟩ | ⟨i, e, he, hm, hp⟩ | ⟨he, e, hmem, hm⟩
  · rw [(hp.map (·.move)).mem_iff]
    simp
  · rw [(hp.map (·.move)).mem_iff, map_move_set_same g i e lm he hm]
    constructor
    · exact fun h => Or.inl h
    · rintro (h | h)
      · exact h
      · rw [h, ← hm]
        exact List.mem_map.2 ⟨e, List.getElem?_mem he, rfl⟩
  · rw [he]
    constructor
    · exact fun h => Or.inl h
    · rintro (h | h)
      · exact h
      · rw [h, ← hm]
        exact List.mem_map.2 ⟨e, hmem, rfl⟩

/-- The records of the group whose move is not the move of the call are the
same before and after, as a multiset. -/
theorem filter_other_moves_groupStep (pl : Placement) (q : Bool) (g : List LearningMove)
    (lm : LearningMove) :
    ((groupStep pl q g lm).filter (fun r => decide (r.move ≠ lm.move))).Perm
      (g.filter (fun r => decide (r.move ≠ lm.move))) := by
  rcases groupStep_cases pl q g lm with ⟨-, hp⟩ | ⟨i, e, he, hm, hp⟩ | ⟨he, -⟩
  · have := hp.filter (fun r => decide (r.move ≠ lm.move))
    simpa using this
  · have := hp.filter (fun r => decide (r.move ≠ lm.move))
    rw [filter_set_same_move g i e lm he hm] at this
    exact this
  · rw [he]

/-- With new members placed after the others, insert-only merging keeps the
first record of every group maximal. -/
theorem firstIsBest_foldl_insert_only (q : Bool) (recs : List PersistedLearningMove) :
    ∀ st : LearningData, st.placement = Placement.afterLast →
      ((entries st.HT ++ recs).map keyMove).Nodup →
      (∀ key, firstIsBest q (equal_range st.HT key)) →
      ∀ key, firstIsBest q
        (equal_range (recs.foldl (fun s plm => s.insert_or_update plm q) st).HT key) := by
  induction recs with
  | nil => intro st _ _ h key; simpa using h key
  | cons r rs ih =>
    intro st hpl hnd h key
    have hnew : ∀ x ∈ equal_range st.HT r.key, x.move ≠ r.learningMove.move := by
      intro x hx hm
      have hmem := mem_entries_of_mem_equal_range st.HT r.key x hx
      rw [List.map_append, List.nodup_append] at hnd
      have h1 : keyMove r ∈ (entries st.HT).map keyMove :=
        List.mem_map.2 ⟨_, hmem, by simp [keyMove, hm]⟩
      have h2 : keyMove r ∈ (r :: rs).map keyMove := by simp
      exact hnd.2.2 h1 h2
    have hstep := entries_insert_or_update_new st r q hnew
    have hperm : (entries (st.insert_or_update r q).HT ++ rs).Perm (entries st.HT ++ r :: rs) := by
      have := List.Perm.append_right rs hstep
      simpa using this
    have hnd2 : ((entries (st.insert_or_update r q).HT ++ rs).map keyMove).Nodup :=
      (hperm.map keyMove).nodup_iff.2 hnd
    have hfirst : ∀ key, firstIsBest q (equal_range (st.insert_or_update r q).HT key) := by
      intro k
      refine firstIsBest_insert_or_update st r q hpl h ?_ k
      intro B rest hB hm _
      exact absurd hm (hnew B (by rw [hB]; simp))
    simpa using ih (st.insert_or_update r q)
      ((placement_insert_or_update st r q).trans hpl) hnd2 hfirst key


/-! ## The display order -/

theorem wrapInt_of_fits (x : Int) (h1 : -2147483648 ≤ x) (h2 : x ≤ 2147483647) :
    wrapInt x = x := by
  unfold wrapInt
  rw [Int.emod_eq_of_lt (by omega) (by omega)]
  omega

/-- Without overflow the `int` expression is the clamped exact value. -/
theorem performanceOf_of_fits (x : LearningMove) (h : performanceFits x) :
    performanceOf x.depth x.score = clamp (x.depth * 10 + Int.tdiv x.score 100) 0 100 := by
  obtain ⟨h1, h2, h3, h4⟩ := h
  unfold performanceOf
  rw [wrapInt_of_fits _ h1 h2, wrapInt_of_fits _ h3 h4]

/-- Two records are never each strictly before the other. -/
theorem mayPrecede_sortLess_total (a b : LearningMove) :
    mayPrecede sortLess a b ∨ mayPrecede sortLess b a := by
  unfold mayPrecede sortLess
  generalize performanceOf a.depth a.score = pa
  generalize performanceOf b.depth b.score = pb
  by_cases h1 : a.depth = b.depth
  · by_cases h2 : pa = pb
    · simp only [h1, h2, ne_eq, not_true_eq_false, if_false, decide_eq_false_iff_not]
      omega
    · have h3 : ¬ pb = pa := fun h => h2 h.symm
      simp only [h1, h2, h3, ne_eq, not_true_eq_false, not_false_eq_true, if_false, if_true,
        decide_eq_false_iff_not]
      omega
  · have h3 : ¬ b.depth = a.depth := fun h => h1 h.symm
    simp only [h1, h3, ne_eq, not_false_eq_true, if_true, decide_eq_false_iff_not]
    omega

theorem mayPrecede_sortLess_trans (a b c : LearningMove)
    (hab : mayPrecede sortLess a b) (hbc : mayPrecede sortLess b c) :
    mayPrecede sortLess a c := by
  unfold mayPrecede sortLess at *
  generalize performanceOf a.depth a.score = pa at *
  generalize performanceOf b.depth b.score = pb at *
  generalize performanceOf c.depth c.score = pc at *
  simp only [ne_eq, ite_not] at *
  split_ifs at * <;> simp only [decide_eq_false_iff_not] at * <;> omega

/-- Without overflow, "may stand before" is the lexicographic order on
`(depth, performance, score)`. -/
theorem displayGe_of_mayPrecede (a b : LearningMove) (ha : performanceFits a)
    (hb : performanceFits b) (h : mayPrecede sortLess a b) : displayGe a b := by
  unfold mayPrecede sortLess at h
  rw [performanceOf_of_fits a ha, performanceOf_of_fits b hb] at h
  unfold displayGe
  generalize clamp (a.depth * 10 + Int.tdiv a.score 100) 0 100 = pa at *
  generalize clamp (b.depth * 10 + Int.tdiv b.score 100) 0 100 = pb at *
  simp only [ne_eq, ite_not] at h
  split_ifs at h <;> simp only [decide_eq_false_iff_not] at h <;> omega

/-- The result of `std_sort` with the comparator of `sortLearningMoves` is a
permutation of the input in which no record is strictly before an earlier one. -/
theorem sortLearningMoves_sorted (l : List LearningMove) :
    (LearningData.sortLearningMoves l).Perm l
    ∧ (LearningData.sortLearningMoves l).Pairwise (mayPrecede sortLess) := by
  unfold LearningData.sortLearningMoves std_sort
  exact ⟨List.perm_insertionSort _ l,
    @List.sorted_insertionSort _ (mayPrecede sortLess) _ ⟨mayPrecede_sortLess_total⟩
      ⟨mayPrecede_sortLess_trans⟩ l⟩


/-! ## Stored depth, and merging the same records again -/

theorem should_update_self (r : LearningMove) : should_update r r = false := by
  simp [should_update]

theorem depth_le_of_should_update (e lm : LearningMove) (h : should_update e lm = true) :
    e.depth ≤ lm.depth := by
  unfold should_update at h
  split_ifs at h <;> omega

theorem depth_le_of_not_should_update (e lm : LearningMove)
    (h : should_update e lm = false) : lm.depth ≤ e.depth := by
  unfold should_update at h
  split_ifs at h <;> omega

/-- In a group with pairwise distinct moves, a call does not change what the
lookup finds for a move other than the move of the call. -/
theorem probeGroup_groupStep_other (pl : Placement) (q : Bool) (g : List LearningMove)
    (lm : LearningMove) (move : Move) (hu : movesUnique g) (hne : move ≠ lm.move) :
    probeGroup move (groupStep pl q g lm) = probeGroup move g := by
  cases hp : probeGroup move g with
  | none =>
    rw [probeGroup_eq_none_iff] at hp ⊢
    intro x hx hc
    have hmem : x.move ∈ (groupStep pl q g lm).map (·.move) := List.mem_map.2 ⟨x, hx, rfl⟩
    rcases (mem_moves_groupStep pl q g lm x.move).1 hmem with h | h
    · obtain ⟨y, hy, hym⟩ := List.mem_map.1 h
      exact hp y hy (hym.trans hc)
    · exact hne (hc.symm.trans h)
  | some e =>
    obtain ⟨he, hm⟩ := probeGroup_eq_some move g e hp
    have h1 : e ∈ g.filter (fun r => decide (r.move ≠ lm.move)) := by
      rw [List.mem_filter]
      exact ⟨he, by simpa [hm] using hne⟩
    have h2 := ((filter_other_moves_groupStep pl q g lm).mem_iff).2 h1
    exact probeGroup_of_mem move _ e (movesUnique_groupStep pl q g lm hu)
      (List.mem_filter.1 h2).1 hm

/-- In a store with pairwise distinct moves per group, a call does not change
what `probe_move` finds for another `(key, move)`. -/
theorem probe_move_insert_or_update_other (st : LearningData) (plm : PersistedLearningMove)
    (q : Bool) (key : Key) (move : Move) (hu : movesUnique (equal_range st.HT key))
    (hne : key ≠ plm.key ∨ move ≠ plm.learningMove.move) :
    (st.insert_or_update plm q).probe_move key move = st.probe_move key move := by
  rw [probe_move_eq_probeGroup, probe_move_eq_probeGroup]
  by_cases hk : key = plm.key
  · subst hk
    rw [equal_range_insert_or_update_same]
    rcases hne with h | h
    · exact absurd rfl h
    · exact probeGroup_groupStep_other _ q _ _ move hu h
  · rw [equal_range_insert_or_update_other st plm q key hk]

/-- One call never lowers the depth stored for any `(key, move)`. -/
theorem probe_move_depth_step (st : LearningData) (plm : PersistedLearningMove) (q : Bool)
    (key : Key) (move : Move) (e : LearningMove)
    (hu : movesUnique (equal_range st.HT key)) (hp : st.probe_move key move = some e) :
    ∃ r, (st.insert_or_update plm q).probe_move key move = some r ∧ e.depth ≤ r.depth := by
  by_cases hne : key ≠ plm.key ∨ move ≠ plm.learningMove.move
  · exact ⟨e, by rw [probe_move_insert_or_update_other st plm q key move hu hne, hp],
      le_refl _⟩
  · have hk : key = plm.key := by
      by_contra hc
      exact hne (Or.inl hc)
    have hm : move = plm.learningMove.move := by
      by_contra hc
      exact hne (Or.inr hc)
    subst hk hm
    rw [probe_move_insert_or_update, hp]
    by_cases hs : should_update e plm.learningMove = true
    · exact ⟨plm.learningMove, by simp [hs], depth_le_of_should_update _ _ hs⟩
    · exact ⟨e, by simp [hs], le_refl _⟩

/-- A sequence of calls never lowers the depth stored for any `(key, move)`. -/
theorem probe_move_depth_runCalls (calls : List (PersistedLearningMove × Bool)) :
    ∀ (st : LearningData), (∀ key, movesUnique (equal_range st.HT key)) →
      ∀ (key : Key) (move : Move) (e : LearningMove), st.probe_move key move = some e →
        ∃ r, (runCalls st calls).probe_move key move = some r ∧ e.depth ≤ r.depth := by
  induction calls with
  | nil =>
    intro st _ key move e hp
    exact ⟨e, by simpa [runCalls] using hp, le_refl _⟩
  | cons c rest ih =>
    intro st hu key move e hp
    obtain ⟨r1, h1, hd1⟩ := probe_move_depth_step st c.1 c.2 key move e (hu key) hp
    obtain ⟨r2, h2, hd2⟩ := ih (st.insert_or_update c.1 c.2)
      (movesUnique_insert_or_update st c.1 c.2 hu) key move r1 h1
    refine ⟨r2, ?_, le_trans hd1 hd2⟩
    simpa [runCalls] using h2


theorem settledIn_insert_or_update_self (st : LearningData) (r : PersistedLearningMove)
    (q : Bool) : settledIn (st.insert_or_update r q) r := by
  unfold settledIn
  rw [probe_move_insert_or_update]
  cases hp : st.probe_move r.key r.learningMove.move with
  | none => exact ⟨r.learningMove, rfl, should_update_self _⟩
  | some e =>
    by_cases hs : should_update e r.learningMove = true
    · exact ⟨r.learningMove, by simp [hs], should_update_self _⟩
    · exact ⟨e, by simp [hs], by simpa using hs⟩

theorem settledIn_insert_or_update_other (st : LearningData) (r r2 : PersistedLearningMove)
    (q : Bool) (hu : movesUnique (equal_range st.HT r.key)) (hne : keyMove r ≠ keyMove r2)
    (h : settledIn st r) : settledIn (st.insert_or_update r2 q) r := by
  unfold settledIn at *
  have hne2 : r.key ≠ r2.key ∨ r.learningMove.move ≠ r2.learningMove.move := by
    by_contra hc
    simp only [not_or, not_not] at hc
    exact hne (by simp [keyMove, hc.1, hc.2])
  rw [probe_move_insert_or_update_other st r2 q r.key r.learningMove.move hu hne2]
  exact h

/-- After merging records of pairwise distinct `(key, move)` into a store with
pairwise distinct moves per group, every merged record is settled. -/
theorem settledIn_foldl (q : Bool) (recs : List PersistedLearningMove) :
    ∀ (st : LearningData) (done : List PersistedLearningMove),
      (∀ key, movesUnique (equal_range st.HT key)) →
      (recs.map keyMove).Nodup →
      (∀ r ∈ done, ∀ r2 ∈ recs, keyMove r ≠ keyMove r2) →
      (∀ r ∈ done, settledIn st r) →
      ∀ r ∈ done ++ recs,
        settledIn (recs.foldl (fun s plm => s.insert_or_update plm q) st) r := by
  induction recs with
  | nil =>
    intro st done _ _ _ hd r hr
    simpa using hd r (by simpa using hr)
  | cons a rest ih =>
    intro st done hu hnd hdis hd r hr
    rw [List.map_cons, List.nodup_cons] at hnd
    have hstep := ih (st.insert_or_update a q) (done ++ [a])
      (movesUnique_insert_or_update st a q hu) hnd.2
      (by
        intro x hx y hy
        rcases List.mem_append.1 hx with h | h
        · exact hdis x h y (by simp [hy])
        · have hxa : x = a := by simpa using h
          subst hxa
          intro hc
          exact hnd.1 (List.mem_map.2 ⟨y, hy, hc.symm⟩))
      (by
        intro x hx
        rcases List.mem_append.1 hx with h | h
        · exact settledIn_insert_or_update_other st x a q (hu x.key)
            (hdis x h a (by simp)) (hd x h)
        · have hxa : x = a := by simpa using h
          subst hxa
          exact settledIn_insert_or_update_self st x q)
      r (by simpa using hr)
    simpa using hstep

/-- Merging records that are all settled changes nothing. -/
theorem foldl_insert_or_update_of_settled (q : Bool) (recs : List PersistedLearningMove)
    (st : LearningData) (h : ∀ r ∈ recs, settledIn st r) :
    recs.foldl (fun s plm => s.insert_or_update plm q) st = st := by
  induction recs with
  | nil => rfl
  | cons a rest ih =>
    obtain ⟨w, hw, hs⟩ := h a (by simp)
    rw [List.foldl_cons, insert_or_update_of_loses st a q w hw hs]
    exact ih (fun r hr => h r (by simp [hr]))

theorem settledIn_congr (st st2 : LearningData) (r : PersistedLearningMove)
    (hHT : st2.HT = st.HT) (h : settledIn st r) : settledIn st2 r := by
  unfold settledIn at *
  rw [probe_move_eq_probeGroup, hHT, ← probe_move_eq_probeGroup]
  exact h

theorem learningMode_insert_or_update (st : LearningData) (plm : PersistedLearningMove)
    (q : Bool) : (st.insert_or_update plm q).learningMode = st.learningMode := by
  unfold LearningData.insert_or_update
  simp only []
  split
  · rfl
  · split
    · rfl
    · split
      · split <;> rfl
      · rfl

theorem learningMode_foldl_insert_or_update (q : Bool) (recs : List PersistedLearningMove)
    (st : LearningData) :
    (recs.foldl (fun s plm => s.insert_or_update plm q) st).learningMode = st.learningMode := by
  induction recs generalizing st with
  | nil => rfl
  | cons a rest ih => rw [List.foldl_cons, ih, learningMode_insert_or_update]

/-- The two outcomes of `load` on an existing file. -/
theorem load_cases (host : Host) (fs : FileSystem) (st : LearningData) (filename : String)
    (d : FileData) (hfile : fs.files filename = some d) :
    ((LearningData.load host fs st filename).1 = false
      ∧ (LearningData.load host fs st filename).2.2 = st)
    ∨ ((LearningData.load host fs st filename).1 = true
      ∧ (LearningData.load host fs st filename).2.2 =
        (if d.records = [] then [host.stray] else d.records).foldl
          (fun s plm => s.insert_or_update plm (decide (st.learningMode = LearningMode.Self)))
          { st with mainDataBuffers := st.mainDataBuffers ++ [d.size] }) := by
  unfold LearningData.load
  simp only [hfile]
  split
  · exact Or.inl ⟨rfl, rfl⟩
  · split
    · exact Or.inl ⟨rfl, rfl⟩
    · split
      · exact Or.inl ⟨rfl, rfl⟩
      · exact Or.inr ⟨rfl, rfl⟩

/-- Loading a file again right after a successful load of it changes no
group, when the records the two loads merge are the same and have pairwise
distinct `(key, move)`. -/
theorem load_twice_HT (host host2 : Host) (fs : FileSystem) (st : LearningData)
    (filename : String) (d : FileData)
    (hu : ∀ key, movesUnique (equal_range st.HT key))
    (hfile : fs.files filename = some d)
    (hnd : (d.records.map keyMove).Nodup)
    (hstray : d.records = [] → host2.stray = host.stray)
    (h1 : (LearningData.load host fs st filename).1 = true) :
    (LearningData.load host2 (LearningData.load host fs st filename).2.1
        (LearningData.load host fs st filename).2.2 filename).2.2.HT
      = (LearningData.load host fs st filename).2.2.HT := by
  have hfile2 : (LearningData.load host fs st filename).2.1.files filename = some d := by
    rw [load_fileSystem]
    exact hfile
  rcases load_cases host2 _ (LearningData.load host fs st filename).2.2 filename d hfile2
    with ⟨-, h2⟩ | ⟨-, h2⟩
  · rw [h2]
  · rw [h2]
    rcases load_cases host fs st filename d hfile with ⟨hf, -⟩ | ⟨-, hfirst⟩
    · rw [h1] at hf
      cases hf
    · have hrecs : (if d.records = [] then [host2.stray] else d.records)
          = (if d.records = [] then [host.stray] else d.records) := by
        by_cases he : d.records = []
        · simp [he, hstray he]
        · simp [he]
      have hnd2 : ((if d.records = [] then [host.stray] else d.records).map keyMove).Nodup := by
        by_cases he : d.records = []
        · simp [he]
        · simpa [he] using hnd
      rw [hrecs, hfirst, learningMode_foldl_insert_or_update]
      have hset := settledIn_foldl (decide (st.learningMode = LearningMode.Self))
        (if d.records = [] then [host.stray] else d.records)
        { st with mainDataBuffers := st.mainDataBuffers ++ [d.size] } []
        hu hnd2 (by simp) (by simp)
      rw [foldl_insert_or_update_of_settled]
      intro r hr
      exact settledIn_congr _ _ r rfl (hset r (by simpa using hr))


/-- A group that holds one move twice, which no sequence of calls builds, is
changed by the second load: the promotion of the first load exchanges the
first record with the overwritten one, which puts it behind the other record
of its move, and the second load then meets the shallower one. -/
theorem load_twice_with_repeated_move :
    (LearningData.load (sampleHost ⟨0, ⟨0, 0, 0, 0⟩⟩)
        (sampleFs (fun p => if p = "JudaS.exp" then
          some ⟨[⟨1, ⟨4, 0, 4, 100⟩⟩, ⟨1, ⟨9, 0, 6, 100⟩⟩], 0⟩ else none) (fun _ => false))
        (sampleStore [(1, [⟨5, 0, 4, 100⟩, ⟨3, 0, 4, 100⟩, ⟨1, 0, 6, 100⟩])])
        "JudaS.exp").2.2.HT
      = [(1, [⟨9, 0, 6, 100⟩, ⟨3, 0, 4, 100⟩, ⟨5, 0, 4, 100⟩])]
    ∧ (LearningData.load (sampleHost ⟨0, ⟨0, 0, 0, 0⟩⟩)
        (LearningData.load (sampleHost ⟨0, ⟨0, 0, 0, 0⟩⟩)
          (sampleFs (fun p => if p = "JudaS.exp" then
            some ⟨[⟨1, ⟨4, 0, 4, 100⟩⟩, ⟨1, ⟨9, 0, 6, 100⟩⟩], 0⟩ else none) (fun _ => false))
          (sampleStore [(1, [⟨5, 0, 4, 100⟩, ⟨3, 0, 4, 100⟩, ⟨1, 0, 6, 100⟩])])
          "JudaS.exp").2.1
        (LearningData.load (sampleHost ⟨0, ⟨0, 0, 0, 0⟩⟩)
          (sampleFs (fun p => if p = "JudaS.exp" then
            some ⟨[⟨1, ⟨4, 0, 4, 100⟩⟩, ⟨1, ⟨9, 0, 6, 100⟩⟩], 0⟩ else none) (fun _ => false))
          (sampleStore [(1, [⟨5, 0, 4, 100⟩, ⟨3, 0, 4, 100⟩, ⟨1, 0, 6, 100⟩])])
          "JudaS.exp").2.2
        "JudaS.exp").2.2.HT
      = [(1, [⟨9, 0, 6, 100⟩, ⟨4, 0, 4, 100⟩, ⟨5, 0, 4, 100⟩])] := by
  constructor <;>
    simp [LearningData.load, sampleHost, sampleFs, sampleStore, LearningData.construct,
      FileData.size, Host.mallocOk, LearningData.insert_or_update, equal_range, HT_insert,
      setGroup, find_if, promote, newBestMove, should_update]


/-! ## When the scan returns no record -/

/-- Started without a record, the scan ends without one exactly when every
record scanned is below the starting depth and score. -/
theorem scanMaxDepthAndScore_eq_none_iff (l : List LearningMove) :
    (scanMaxDepthAndScore l (none, -1, -1)).1 = none ↔ ∀ x ∈ l, belowStart x := by
  induction l with
  | nil => simp [scanMaxDepthAndScore]
  | cons x rest ih =>
    by_cases h1 : x.depth > -1
    · obtain ⟨r2, hs, -⟩ := scanMaxDepthAndScore_tracking rest x
      have hst : scanMaxDepthAndScore (x :: rest) (none, -1, -1)
          = scanMaxDepthAndScore rest (some x, x.depth, x.score) := by
        simp [scanMaxDepthAndScore, h1]
      rw [hst, hs]
      constructor
      · intro h
        cases h
      · intro h
        have := h x (by simp)
        unfold belowStart at this
        omega
    · by_cases h2 : x.depth = -1 ∧ x.score > -1
      · obtain ⟨r2, hs, -⟩ := scanMaxDepthAndScore_tracking rest x
        have hst : scanMaxDepthAndScore (x :: rest) (none, -1, -1)
            = scanMaxDepthAndScore rest (some x, x.depth, x.score) := by
          simp [scanMaxDepthAndScore, h1, h2, h2.1]
        rw [hst, hs]
        constructor
        · intro h
          cases h
        · intro h
          have := h x (by simp)
          unfold belowStart at this
          omega
      · have hst : scanMaxDepthAndScore (x :: rest) (none, -1, -1)
            = scanMaxDepthAndScore rest (none, -1, -1) := by
          simp only [scanMaxDepthAndScore, h1, h2, if_false]
        rw [hst, ih]
        have hx : belowStart x := by
          unfold belowStart
          omega
        simp [hx]

/-! ## The comparator of `sortLearningMoves` -/

theorem sortLess_irrefl (a : LearningMove) : sortLess a a = false := by
  simp [sortLess]

theorem sortLess_asymm (a b : LearningMove) (h : sortLess a b = true) :
    sortLess b a = false := by
  unfold sortLess at *
  generalize performanceOf a.depth a.score = pa at *
  generalize performanceOf b.depth b.score = pb at *
  simp only [ne_eq, ite_not] at *
  split_ifs at * <;> simp only [decide_eq_true_eq, decide_eq_false_iff_not] at * <;> omega

theorem sortLess_trans (a b c : LearningMove) (hab : sortLess a b = true)
    (hbc : sortLess b c = true) : sortLess a c = true := by
  unfold sortLess at *
  generalize performanceOf a.depth a.score = pa at *
  generalize performanceOf b.depth b.score = pb at *
  generalize performanceOf c.depth c.score = pc at *
  simp only [ne_eq, ite_not] at *
  split_ifs at * <;> simp only [decide_eq_true_eq] at * <;> omega

/-- Without overflow the comparator is the strict lexicographic order on
`(depth, performance, score)`. -/
theorem sortLess_iff_displayGt (a b : LearningMove) (ha : performanceFits a)
    (hb : performanceFits b) : sortLess a b = true ↔ displayGt a b := by
  unfold sortLess displayGt
  rw [performanceOf_of_fits a ha, performanceOf_of_fits b hb]
  generalize clamp (a.depth * 10 + Int.tdiv a.score 100) 0 100 = pa at *
  generalize clamp (b.depth * 10 + Int.tdiv b.score 100) 0 100 = pb at *
  simp only [ne_eq, ite_not]
  split_ifs <;> simp only [decide_eq_true_eq] <;> omega


/-! ## The win-probability table -/

/-- Inside the ranges of its two `assert`s, `index` is the plain expression. -/
theorem index_of_inRange (v m : Int) (hv1 : -4000 ≤ v) (hv2 : v ≤ 4000) (hm1 : 17 ≤ m)
    (hm2 : m ≤ 78) : (index v m : Int) = (v + 4000) * 62 + m - 17 := by
  unfold index
  rw [wrapInt_of_fits _ (by omega) (by omega), Int.emod_eq_of_lt (by omega) (by omega)]
  omega

theorem index_lt_size (v m : Int) (hv1 : -4000 ≤ v) (hv2 : v ≤ 4000) (hm1 : 17 ≤ m)
    (hm2 : m ≤ 78) : index v m < WIN_PROBABILITY_SIZE := by
  have h := index_of_inRange v m hv1 hv2 hm1 hm2
  unfold WIN_PROBABILITY_SIZE
  omega

theorem index_injective (v m v2 m2 : Int) (hv1 : -4000 ≤ v) (hv2 : v ≤ 4000)
    (hm1 : 17 ≤ m) (hm2 : m ≤ 78) (hw1 : -4000 ≤ v2) (hw2 : v2 ≤ 4000) (hn1 : 17 ≤ m2)
    (hn2 : m2 ≤ 78) (h : index v m = index v2 m2) : v = v2 ∧ m = m2 := by
  have h1 := index_of_inRange v m hv1 hv2 hm1 hm2
  have h2 := index_of_inRange v2 m2 hw1 hw2 hn1 hn2
  rw [h] at h1
  omega

theorem mem_valueClamps (v : Int) : v ∈ WDLModel.valueClamps ↔ -4000 ≤ v ∧ v ≤ 4000 := by
  unfold WDLModel.valueClamps
  rw [List.mem_map]
  constructor
  · rintro ⟨i, hi, rfl⟩
    rw [List.mem_range] at hi
    simp only [Int.ofNat_eq_coe]
    omega
  · intro h
    exact ⟨(v + 4000).toNat, by rw [List.mem_range]; omega, by
      simp only [Int.ofNat_eq_coe]
      omega⟩

theorem mem_materialClamps (m : Int) : m ∈ WDLModel.materialClamps ↔ 17 ≤ m ∧ m ≤ 78 := by
  unfold WDLModel.materialClamps
  rw [List.mem_map]
  constructor
  · rintro ⟨i, hi, rfl⟩
    rw [List.mem_range] at hi
    simp only [Int.ofNat_eq_coe]
    omega
  · intro h
    exact ⟨(m - 17).toNat, by rw [List.mem_range]; omega, by
      simp only [Int.ofNat_eq_coe]
      omega⟩

/-- Two nested loops of slot assignments are one loop over the pairs. -/
theorem foldl_nested_eq (f : Int → Int → Nat) (ms : List Int) (vs : List Int) :
    ∀ t : WinProbabilities,
      vs.foldl (fun t v => ms.foldl (fun t2 m => Function.update t2 (index v m) (f v m)) t) t
        = (vs.flatMap (fun v => ms.map (fun m => (v, m)))).foldl
            (fun t2 p => Function.update t2 (index p.1 p.2) (f p.1 p.2)) t := by
  induction vs with
  | nil => intro t; rfl
  | cons v rest ih =>
    intro t
    rw [List.foldl_cons, ih, List.flatMap_cons, List.foldl_append, List.foldl_map]

/-- After a loop of slot assignments, the slot of a pair that is the only one
of the loop with its index holds the byte assigned for that pair. -/
theorem foldl_update_get (f : Int → Int → Nat) (l : List (Int × Int)) (t : WinProbabilities)
    (p : Int × Int) (hp : p ∈ l)
    (hinj : ∀ p2 ∈ l, index p2.1 p2.2 = index p.1 p.2 → p2 = p) :
    (l.foldl (fun t2 p2 => Function.update t2 (index p2.1 p2.2) (f p2.1 p2.2)) t)
      (index p.1 p.2) = f p.1 p.2 := by
  induction l using List.reverseRecOn with
  | nil => simp at hp
  | append_singleton l a ih =>
    rw [List.foldl_append, List.foldl_cons, List.foldl_nil]
    by_cases ha : index a.1 a.2 = index p.1 p.2
    · have hap := hinj a (by simp) ha
      subst hap
      simp
    · rw [Function.update_noteq (fun h => ha h.symm)]
      have hpl : p ∈ l := by
        rcases List.mem_append.1 hp with h | h
        · exact h
        · have hpa : p = a := by simpa using h
          subst hpa
          exact absurd rfl ha
      exact ih hpl (fun p2 h2 => hinj p2 (by simp [h2]))

/-- After `init`, the slot of every pair of the two ranges holds the byte of
`getWinProbability` for that pair. -/
theorem init_slot (g : Int → Int → Int) (v m : Int) (hv1 : -4000 ≤ v) (hv2 : v ≤ 4000)
    (hm1 : 17 ≤ m) (hm2 : m ≤ 78) :
    WDLModel.init g (index v m) = WDLModel.toUint8 (g v m) := by
  unfold WDLModel.init
  rw [foldl_nested_eq (fun a b => WDLModel.toUint8 (g a b))]
  refine foldl_update_get (fun a b => WDLModel.toUint8 (g a b)) _ _ (v, m) ?_ ?_
  · rw [List.mem_flatMap]
    exact ⟨v, (mem_valueClamps v).2 ⟨hv1, hv2⟩,
      List.mem_map.2 ⟨m, (mem_materialClamps m).2 ⟨hm1, hm2⟩, rfl⟩⟩
  · intro p2 hp2 hidx
    rw [List.mem_flatMap] at hp2
    obtain ⟨v2, hv, hp2⟩ := hp2
    obtain ⟨m2, hm, rfl⟩ := List.mem_map.1 hp2
    have h1 := (mem_valueClamps v2).1 hv
    have h2 := (mem_materialClamps m2).1 hm
    obtain ⟨e1, e2⟩ := index_injective v2 m2 v m h1.1 h1.2 h2.1 h2.2 hv1 hv2 hm1 hm2 hidx
    rw [e1, e2]

theorem clamp_mem (v lo hi : Int) (h : lo ≤ hi) : lo ≤ clamp v lo hi ∧ clamp v lo hi ≤ hi := by
  unfold clamp
  split_ifs <;> omega


/-! ## Properties stated by the specification -/

/-- C1. Position 0 is best: the specification states that after any sequence of
`insert_or_update` calls on the empty store the first record of every group is
maximal under the promotion ordering of the mode.  Evaluated on four calls for
one key (a first move at depth 5 score 10, a second move at depth 5 score 7,
the first move again at depth 5 score 0, a third move at depth 5 score 3):
wherever the multimap places a new member, the group ends with the record of
score 3 first and the record of score 7 behind it, in non-self-play mode; in
self-play mode the same happens when the third call brings depth 6 and
score 0.  With the multimap of libstdc++ the second call already leaves the
record of score 7 before the record of score 10. -/
theorem C1_first_record_not_best :
    (∀ pl : Placement,
      equal_range (runCalls { LearningData.construct with placement := pl }
        [(⟨1, ⟨5, 10, 1, 100⟩⟩, false), (⟨1, ⟨5, 7, 2, 100⟩⟩, false),
         (⟨1, ⟨5, 0, 1, 100⟩⟩, false), (⟨1, ⟨5, 3, 3, 100⟩⟩, false)]).HT 1
        = [⟨5, 3, 3, 100⟩, ⟨5, 7, 2, 100⟩, ⟨5, 0, 1, 100⟩]
      ∧ equal_range (runCalls { LearningData.construct with placement := pl }
        [(⟨1, ⟨5, 10, 1, 100⟩⟩, true), (⟨1, ⟨5, 7, 2, 100⟩⟩, true),
         (⟨1, ⟨6, 0, 1, 100⟩⟩, true), (⟨1, ⟨5, 3, 3, 100⟩⟩, true)]).HT 1
        = [⟨5, 3, 3, 100⟩, ⟨5, 7, 2, 100⟩, ⟨6, 0, 1, 100⟩])
    ∧ ¬ firstIsBest false [⟨5, 3, 3, 100⟩, ⟨5, 7, 2, 100⟩, ⟨5, 0, 1, 100⟩]
    ∧ ¬ firstIsBest true [⟨5, 3, 3, 100⟩, ⟨5, 7, 2, 100⟩, ⟨6, 0, 1, 100⟩]
    ∧ equal_range (runCalls LearningData.construct
        [(⟨1, ⟨5, 10, 1, 100⟩⟩, false), (⟨1, ⟨5, 7, 2, 100⟩⟩, false)]).HT 1
      = [⟨5, 7, 2, 100⟩, ⟨5, 10, 1, 100⟩]
    ∧ ¬ firstIsBest false [⟨5, 7, 2, 100⟩, ⟨5, 10, 1, 100⟩] := by
  refine ⟨?_, by decide, by decide, by decide, by decide⟩
  intro pl
  cases pl <;> exact ⟨by decide, by decide⟩

/-- C2. Move uniqueness: after any finite sequence of `insert_or_update`
calls on the empty store, with any mix of keys, moves, depths, scores and
modes, every group holds at most one record for each move value. -/
theorem C2_move_uniqueness (calls : List (PersistedLearningMove × Bool)) (key : Key)
    (move : Move) :
    ((equal_range (runCalls LearningData.construct calls).HT key).filter
      (fun r => decide (r.move = move))).length ≤ 1 := by
  have hu := movesUnique_runCalls calls LearningData.construct
    (by intro k; simp [LearningData.construct, equal_range, movesUnique]) key
  exact filter_move_length_le_one _ hu move

/-- C3. The predicate `should_update existing incoming` holds exactly when the
incoming depth is greater, or the depths are equal and the score or the
performance differs; so it fails when the incoming depth is smaller and when
depth, score and performance all agree. -/
theorem C3_should_update_iff (existing incoming : LearningMove) :
    (should_update existing incoming = true ↔
      incoming.depth > existing.depth ∨
        (incoming.depth = existing.depth ∧
          (incoming.score ≠ existing.score ∨ incoming.performance ≠ existing.performance)))
    ∧ (incoming.depth < existing.depth → should_update existing incoming = false)
    ∧ (incoming.depth = existing.depth → incoming.score = existing.score →
        incoming.performance = existing.performance →
        should_update existing incoming = false) := by
  unfold should_update
  refine ⟨?_, ?_, ?_⟩
  · by_cases h1 : incoming.depth > existing.depth
    · simp [h1]
    · by_cases h2 : incoming.depth < existing.depth
      · simp [h1, h2]
        intro h3
        omega
      · have h3 : incoming.depth = existing.depth := by omega
        by_cases h4 : incoming.score = existing.score
        · simp [h3, h4]
        · simp [h3, h4]
  · intro h
    have h1 : ¬ incoming.depth > existing.depth := by omega
    simp [h1, h]
  · intro h1 h2 h3
    simp [h1, h2, h3]

/-- C4. Merge determinism: when the store holds no record for `(key, move)`
and `a`, `b` are two records with that key and move and `a.depth < b.depth`,
inserting `a` then `b` and inserting `b` then `a` both leave `probe_move`
returning exactly the fields of `b`, in either mode. -/
theorem C4_merge_determinism (st : LearningData) (a b : PersistedLearningMove) (q : Bool)
    (hnone : st.probe_move a.key a.learningMove.move = none)
    (hk : b.key = a.key) (hm : b.learningMove.move = a.learningMove.move)
    (hd : a.learningMove.depth < b.learningMove.depth) :
    ((st.insert_or_update a q).insert_or_update b q).probe_move a.key a.learningMove.move
        = some b.learningMove
    ∧ ((st.insert_or_update b q).insert_or_update a q).probe_move a.key a.learningMove.move
        = some b.learningMove := by
  have hab : should_update a.learningMove b.learningMove = true := by
    simp [should_update, hd]
  have hba : should_update b.learningMove a.learningMove = false := by
    have h1 : ¬ b.learningMove.depth < a.learningMove.depth := by omega
    simp [should_update, hd, h1]
  constructor
  · have h1 := probe_move_insert_or_update st a q
    rw [hnone] at h1
    have h2 := probe_move_insert_or_update (st.insert_or_update a q) b q
    rw [hk, hm, h1] at h2
    simpa [hab] using h2
  · have h1 := probe_move_insert_or_update st b q
    rw [hk, hm, hnone] at h1
    have h2 := probe_move_insert_or_update (st.insert_or_update b q) a q
    rw [h1] at h2
    simpa [hba] using h2

/-- C5. Tie-break on equal depth: when the store holds no record for
`(key, move)` and `a`, `b` agree on key, move, depth and performance but differ
in score, then after inserting `a` and then `b` the record `probe_move` finds
has the fields of `b`, and the dirty flag is set. -/
theorem C5_tie_break_equal_depth (st : LearningData) (a b : PersistedLearningMove)
    (q1 q2 : Bool)
    (hnone : st.probe_move a.key a.learningMove.move = none)
    (hk : b.key = a.key) (hm : b.learningMove.move = a.learningMove.move)
    (hd : b.learningMove.depth = a.learningMove.depth)
    (_hp : b.learningMove.performance = a.learningMove.performance)
    (hs : a.learningMove.score ≠ b.learningMove.score) :
    ((st.insert_or_update a q1).insert_or_update b q2).probe_move a.key a.learningMove.move
        = some b.learningMove
    ∧ ((st.insert_or_update a q1).insert_or_update b q2).needPersisting = true := by
  have hab : should_update a.learningMove b.learningMove = true := by
    simp [should_update, hd, Ne.symm hs]
  have h1 := probe_move_insert_or_update st a q1
  rw [hnone] at h1
  have h2 := probe_move_insert_or_update (st.insert_or_update a q1) b q2
  rw [hk, hm, h1] at h2
  refine ⟨by simpa [hab] using h2, ?_⟩
  exact needPersisting_of_update (st.insert_or_update a q1) b q2 a.learningMove
    (by rw [hk, hm]; exact h1) hab

/-- C6. Promotion ordering outside self-play: the specification states that a
record whose move is new to the group becomes the first record of the group
exactly when `B.depth < depth`, or the depths are equal and `B.score <= score`,
`B` being the first record.  Evaluated with the multimap of libstdc++ on the
example of the specification, `B = (depth 4, score 10)` and the new record
`(depth 5, score -50)`: the new element is placed before `B`, the promotion
swaps the two by value, and the group ends with `B` first and the new record
second; a new record `(depth 3, score 0)`, which the comparison does not
promote, ends first. -/
theorem C6_promoted_record_ends_second :
    equal_range ((sampleStore [(1, [⟨4, 10, 9, 100⟩])]).insert_or_update
        ⟨1, ⟨5, -50, 2, 100⟩⟩ false).HT 1
      = [⟨4, 10, 9, 100⟩, ⟨5, -50, 2, 100⟩]
    ∧ newBestMove false ⟨5, -50, 2, 100⟩ ⟨4, 10, 9, 100⟩ = true
    ∧ equal_range ((sampleStore [(1, [⟨4, 10, 9, 100⟩])]).insert_or_update
        ⟨1, ⟨3, 0, 2, 100⟩⟩ false).HT 1
      = [⟨3, 0, 2, 100⟩, ⟨4, 10, 9, 100⟩]
    ∧ newBestMove false ⟨3, 0, 2, 100⟩ ⟨4, 10, 9, 100⟩ = false := by
  refine ⟨by decide, by decide, by decide, by decide⟩

/-- C7. Promotion ordering in self-play: the specification states that a record
whose move is new to the group becomes the first record of the group exactly
when its score is greater than the score of the first record `B`.  Evaluated
with the multimap of libstdc++ on the example of the specification,
`B = (depth 9, score 50)` and the new record `(depth 3, score 100)`: the new
element is placed before `B`, the promotion swaps the two by value, and the
group ends with `B` first and the new record second; a new record
`(depth 12, score 50)`, which the comparison does not promote, ends first. -/
theorem C7_promoted_record_ends_second_in_self_play :
    equal_range ((sampleStore [(1, [⟨9, 50, 9, 100⟩])]).insert_or_update
        ⟨1, ⟨3, 100, 2, 100⟩⟩ true).HT 1
      = [⟨9, 50, 9, 100⟩, ⟨3, 100, 2, 100⟩]
    ∧ newBestMove true ⟨3, 100, 2, 100⟩ ⟨9, 50, 9, 100⟩ = true
    ∧ equal_range ((sampleStore [(1, [⟨9, 50, 9, 100⟩])]).insert_or_update
        ⟨1, ⟨12, 50, 2, 100⟩⟩ true).HT 1
      = [⟨12, 50, 2, 100⟩, ⟨9, 50, 9, 100⟩]
    ∧ newBestMove true ⟨12, 50, 2, 100⟩ ⟨9, 50, 9, 100⟩ = false := by
  refine ⟨by decide, by decide, by decide, by decide⟩

/-- C8. Zero-depth filtering and completeness of `persist`: on a store with a
non-empty index, the dirty flag set and read-only off, the records `persist`
hands to the output stream are exactly the entries of the index in iteration
order with those of depth 0 removed; when the temporary file can be opened,
what the stream kept of them is the content left under the canonical name,
all of them when the stream does not fail; no written record has
depth 0 and every record of the index with depth other than 0 is written as
many times as the index holds it. -/
theorem C8_persist_writes_nonzero_depth (host : Host) (o : OptionsMap) (fs : FileSystem)
    (st : LearningData)
    (hne : HT_empty st.HT = false) (hd : st.needPersisting = true)
    (hro : st.isReadOnly = false) :
    ∃ written : List PersistedLearningMove,
      written = (entries st.HT).filter (fun plm => decide (plm.learningMove.depth ≠ 0))
      ∧ (st.persist host o fs).1.log
          = fs.log ++ FileOp.openWrite (tempExperienceFilename host o)
              :: written.map (FileOp.write (tempExperienceFilename host o))
            ++ [FileOp.remove (experienceFilename host o),
                FileOp.rename (tempExperienceFilename host o) (experienceFilename host o)]
      ∧ (fs.denyWrite (tempExperienceFilename host o) = false →
          tempExperienceFilename host o ≠ experienceFilename host o →
          (st.persist host o fs).1.files (experienceFilename host o)
              = some (fs.kept (tempExperienceFilename host o) written)
          ∧ (fs.failWrite (tempExperienceFilename host o) = none →
            (st.persist host o fs).1.files (experienceFilename host o)
              = some ⟨written, 0⟩))
      ∧ (∀ r ∈ written, r.learningMove.depth ≠ 0)
      ∧ (∀ r : PersistedLearningMove, r.learningMove.depth ≠ 0 →
          written.count r = (entries st.HT).count r) := by
  refine ⟨snapshot st.HT, rfl, ?_, ?_, ?_, ?_⟩
  · by_cases hw : fs.denyWrite (tempExperienceFilename host o) = true
    · cases hf : fs.files (tempExperienceFilename host o) <;>
        simp [LearningData.persist, hne, hd, hro, FileSystem.writeFile, hw,
          FileSystem.removeFile, FileSystem.renameFile, hf]
      split <;> simp
    · simp [LearningData.persist, hne, hd, hro, FileSystem.writeFile, hw,
        FileSystem.removeFile, FileSystem.renameFile]
      split <;> simp
  · intro hw hp
    refine ⟨persist_files_canonical_kept host o fs st hne hd hro hw hp, ?_⟩
    intro hfw
    exact persist_files_canonical host o fs st hne hd hro hw hfw hp
  · intro r hr
    simpa [snapshot] using (List.mem_filter.1 hr).2
  · intro r hr
    exact List.count_filter (by simpa using hr)

/-- C9. Round trip: the specification states that `persist`, `clear`, then `load` of the
canonical file gives back the `(key, move, depth, score)` tuples held before,
minus those of depth 0.  Evaluated on a store whose only record has depth 0:
`persist` writes a file of length zero, and `load` of that file succeeds and
merges the record found at the start of its zero-length buffer, so the index
holds a tuple although none was to be kept. -/
theorem C9_round_trip_all_depth_zero (stray : PersistedLearningMove) :
    (tuples (sampleStore [(1, [⟨0, 20, 7, 100⟩])]).HT).filter
        (fun t => decide (t.2.2.1 ≠ 0)) = []
    ∧ ((sampleStore [(1, [⟨0, 20, 7, 100⟩])]).persist (sampleHost stray) sampleOptions
          (sampleFs (fun _ => none) (fun _ => false))).1.files "JudaS.exp" = some ⟨[], 0⟩
    ∧ (LearningData.load (sampleHost stray)
          ((sampleStore [(1, [⟨0, 20, 7, 100⟩])]).persist (sampleHost stray) sampleOptions
            (sampleFs (fun _ => none) (fun _ => false))).1
          ((sampleStore [(1, [⟨0, 20, 7, 100⟩])]).persist (sampleHost stray) sampleOptions
            (sampleFs (fun _ => none) (fun _ => false))).2.clear
          "JudaS.exp").1 = true
    ∧ tuples (LearningData.load (sampleHost stray)
          ((sampleStore [(1, [⟨0, 20, 7, 100⟩])]).persist (sampleHost stray) sampleOptions
            (sampleFs (fun _ => none) (fun _ => false))).1
          ((sampleStore [(1, [⟨0, 20, 7, 100⟩])]).persist (sampleHost stray) sampleOptions
            (sampleFs (fun _ => none) (fun _ => false))).2.clear
          "JudaS.exp").2.2.HT
        = [(stray.key, stray.learningMove.move, stray.learningMove.depth,
            stray.learningMove.score)] := by
  refine ⟨by decide, ?_, ?_, ?_⟩ <;>
    simp [LearningData.persist, LearningData.load, LearningData.clear, sampleStore,
      sampleHost, sampleOptions, sampleFs, LearningData.construct, HT_empty, entries, snapshot,
      FileSystem.writeFile, FileSystem.kept, FileSystem.removeFile, FileSystem.renameFile,
      experienceFilename, tempExperienceFilename, FileData.size, Host.mallocOk,
      LearningData.insert_or_update, equal_range, HT_insert, Placement.insert, setGroup,
      tuples, tupleOf]

/-- C10. Write failure preserves old data: the specification states that when the temporary
file cannot be opened the canonical file is left as it was.  Evaluated on a
store with one record and a file system whose canonical file holds an older
record while `JudaS_new.exp` cannot be opened for output: `persist` removes the
canonical file, the rename finds no temporary file, and the dirty flag is
cleared. -/
theorem C10_persist_unwritable_temp_loses_canonical :
    (sampleFs (fun p => if p = "JudaS.exp" then some ⟨[⟨9, ⟨4, 10, 3, 100⟩⟩], 0⟩ else none)
        (fun p => decide (p = "JudaS_new.exp"))).files "JudaS.exp"
      = some ⟨[⟨9, ⟨4, 10, 3, 100⟩⟩], 0⟩
    ∧ ((sampleStore [(1, [⟨3, 20, 7, 100⟩])]).persist (sampleHost ⟨0, ⟨0, 0, 0, 0⟩⟩)
        sampleOptions
        (sampleFs (fun p => if p = "JudaS.exp" then some ⟨[⟨9, ⟨4, 10, 3, 100⟩⟩], 0⟩ else none)
          (fun p => decide (p = "JudaS_new.exp")))).1.files "JudaS.exp" = none
    ∧ ((sampleStore [(1, [⟨3, 20, 7, 100⟩])]).persist (sampleHost ⟨0, ⟨0, 0, 0, 0⟩⟩)
        sampleOptions
        (sampleFs (fun p => if p = "JudaS.exp" then some ⟨[⟨9, ⟨4, 10, 3, 100⟩⟩], 0⟩ else none)
          (fun p => decide (p = "JudaS_new.exp")))).2.needPersisting = false := by
  refine ⟨by decide, by decide, by decide⟩



/-- C11. Crash safety of `persist`: the specification states that once the
canonical file no longer holds the old content, the complete snapshot lies in
a file that the consolidation of `init` loads.  Evaluated for an engine
installed in `/opt/judas/` and started elsewhere, with a crash after the third
step: the canonical file is gone and the complete snapshot lies in
`/opt/judas/JudaS_new.exp`, but the next `init` asks for `JudaS_new.exp` under
its plain name, never opens the file that holds the snapshot, and ends with an
empty index. -/
theorem C11_crash_after_delete_snapshot_not_reloaded :
    (persistPrefix installedHost sampleOptions (sampleStore [(1, [⟨3, 20, 7, 100⟩])])
        ⟨[], 0⟩ 3
        (sampleFs (fun p => if p = "/opt/judas/JudaS.exp" then
            some ⟨[⟨9, ⟨4, 10, 3, 100⟩⟩], 0⟩ else none) (fun _ => false))).files
      "/opt/judas/JudaS.exp" = none
    ∧ (persistPrefix installedHost sampleOptions (sampleStore [(1, [⟨3, 20, 7, 100⟩])])
        ⟨[], 0⟩ 3
        (sampleFs (fun p => if p = "/opt/judas/JudaS.exp" then
            some ⟨[⟨9, ⟨4, 10, 3, 100⟩⟩], 0⟩ else none) (fun _ => false))).files
      "/opt/judas/JudaS_new.exp" = some ⟨[⟨1, ⟨3, 20, 7, 100⟩⟩], 0⟩
    ∧ (LearningData.init installedHost sampleOptions 1
        { (persistPrefix installedHost sampleOptions (sampleStore [(1, [⟨3, 20, 7, 100⟩])])
            ⟨[], 0⟩ 3
            (sampleFs (fun p => if p = "/opt/judas/JudaS.exp" then
              some ⟨[⟨9, ⟨4, 10, 3, 100⟩⟩], 0⟩ else none) (fun _ => false))) with log := [] }
        LearningData.construct).map (fun r => (r.2.HT, r.1.log))
      = some ([], [FileOp.openRead "/opt/judas/JudaS.exp",
          FileOp.openRead "/opt/judas/JudaS.exp", FileOp.openRead "JudaS_new.exp",
          FileOp.openRead "/opt/judas/JudaS0.exp"]) := by
  refine ⟨by decide, by decide, by decide⟩

/-- C12. `persist` is a no-op when there is nothing to do: when the index is
empty or the dirty flag is clear, whatever the read-only flag, `persist`
returns the file system (its trace included) and the store (index and all
flags) exactly as they were. -/
theorem C12_persist_noop_when_nothing_to_do (host : Host) (o : OptionsMap) (fs : FileSystem)
    (st : LearningData) (h : HT_empty st.HT = true ∨ st.needPersisting = false) :
    st.persist host o fs = (fs, st) := by
  rcases h with h | h <;> simp [LearningData.persist, h]

theorem C12_persist_noop_when_nothing_to_do_witness :
    (HT_empty (sampleStore []).HT = true ∨ (sampleStore []).needPersisting = false)
    ∧ (sampleStore []).persist (sampleHost ⟨0, ⟨0, 0, 0, 0⟩⟩) sampleOptions
        (sampleFs (fun _ => none) (fun _ => false))
      = (sampleFs (fun _ => none) (fun _ => false), sampleStore []) :=
  ⟨Or.inl (by decide),
    C12_persist_noop_when_nothing_to_do (sampleHost ⟨0, ⟨0, 0, 0, 0⟩⟩) sampleOptions
      (sampleFs (fun _ => none) (fun _ => false)) (sampleStore []) (Or.inl (by decide))⟩

/-- C13. Read-only guard: with the read-only flag set (and `assert` compiled
out), `persist` makes no request to the file system, so it creates, writes,
deletes and renames no file, and it leaves the store, hence the index and the
dirty flag, exactly as they were. -/
theorem C13_persist_read_only_guard (host : Host) (o : OptionsMap) (fs : FileSystem)
    (st : LearningData) (hro : st.isReadOnly = true) :
    st.persist host o fs = (fs, st)
    ∧ (st.persist host o fs).1.log = fs.log
    ∧ (st.persist host o fs).1.files = fs.files
    ∧ (st.persist host o fs).2.HT = st.HT
    ∧ (st.persist host o fs).2.needPersisting = st.needPersisting := by
  have h : st.persist host o fs = (fs, st) := by
    unfold LearningData.persist
    split
    · rfl
    · simp [hro]
  simp [h]

theorem C13_persist_read_only_guard_witness :
    ((sampleStore [(1, [⟨3, 20, 7, 100⟩])]).set_readonly true).isReadOnly = true
    ∧ (((sampleStore [(1, [⟨3, 20, 7, 100⟩])]).set_readonly true).persist
          (sampleHost ⟨0, ⟨0, 0, 0, 0⟩⟩) sampleOptions
          (sampleFs (fun _ => none) (fun _ => false))).1.log = [] :=
  ⟨rfl,
    (C13_persist_read_only_guard (sampleHost ⟨0, ⟨0, 0, 0, 0⟩⟩) sampleOptions
      (sampleFs (fun _ => none) (fun _ => false))
      ((sampleStore [(1, [⟨3, 20, 7, 100⟩])]).set_readonly true) rfl).2.1⟩

/-- C14. The dirty flag is set by every mutation: when `insert_or_update`
changes the index the dirty flag is true afterwards, and when the incoming
record loses to the record stored for the same key and move the store, hence
the index and the dirty flag, is exactly as before. -/
theorem C14_dirty_flag_set_by_mutation (st : LearningData) (plm : PersistedLearningMove)
    (q : Bool) :
    ((st.insert_or_update plm q).HT ≠ st.HT → (st.insert_or_update plm q).needPersisting = true)
    ∧ (∀ e, st.probe_move plm.key plm.learningMove.move = some e →
        should_update e plm.learningMove = false →
        (st.insert_or_update plm q).HT = st.HT
        ∧ (st.insert_or_update plm q).needPersisting = st.needPersisting) := by
  constructor
  · intro hne
    rcases insert_or_update_eq_or_dirty st plm q with he | hd
    · exact absurd (by rw [he]) hne
    · exact hd
  · intro e hp hs
    rw [insert_or_update_of_loses st plm q e hp hs]
    exact ⟨rfl, rfl⟩

theorem C14_dirty_flag_set_by_mutation_witness :
    (LearningData.construct.insert_or_update ⟨1, ⟨3, 20, 7, 100⟩⟩ false).HT
        ≠ LearningData.construct.HT
    ∧ (LearningData.construct.insert_or_update ⟨1, ⟨3, 20, 7, 100⟩⟩ false).needPersisting
        = true :=
  ⟨by decide,
    (C14_dirty_flag_set_by_mutation LearningData.construct ⟨1, ⟨3, 20, 7, 100⟩⟩ false).1
      (by decide)⟩


/-- C16. `load` is atomic on failure: when the named file does not exist, or
its byte length is not a multiple of the record width, or the read comes up
short, `load` returns false and leaves the store (index, buffer lists and
dirty flag) exactly as it was. -/
theorem C16_load_atomic_on_failure (host : Host) (fs : FileSystem) (st : LearningData)
    (filename : String)
    (h : fs.files filename = none
      ∨ (∃ d, fs.files filename = some d ∧ d.size % recordWidth ≠ 0)
      ∨ fs.shortRead filename = true) :
    (LearningData.load host fs st filename).1 = false
    ∧ (LearningData.load host fs st filename).2.2 = st := by
  unfold LearningData.load
  rcases h with h | ⟨d, h, hd⟩ | h
  · simp [h]
  · simp [h, hd]
  · cases hf : fs.files filename with
    | none => simp
    | some d =>
      simp only []
      by_cases h1 : d.size % recordWidth ≠ 0
      · simp [h1]
      · by_cases h2 : host.mallocOk d.size = true
        · simp [h1, h2, h]
        · simp [h1, h2]

theorem C16_load_atomic_on_failure_witness :
    (∃ d, (sampleFs (fun p => if p = "JudaS0.exp" then
          some ⟨[⟨1, ⟨3, 20, 7, 100⟩⟩, ⟨2, ⟨4, 1, 9, 100⟩⟩], 1⟩ else none)
        (fun _ => false)).files "JudaS0.exp" = some d ∧ d.size = recordWidth * 2 + 1)
    ∧ (LearningData.load (sampleHost ⟨0, ⟨0, 0, 0, 0⟩⟩)
        (sampleFs (fun p => if p = "JudaS0.exp" then
          some ⟨[⟨1, ⟨3, 20, 7, 100⟩⟩, ⟨2, ⟨4, 1, 9, 100⟩⟩], 1⟩ else none)
        (fun _ => false)) (sampleStore [(5, [⟨1, 1, 1, 1⟩])]) "JudaS0.exp").1 = false
    ∧ (LearningData.load (sampleHost ⟨0, ⟨0, 0, 0, 0⟩⟩)
        (sampleFs (fun p => if p = "JudaS0.exp" then
          some ⟨[⟨1, ⟨3, 20, 7, 100⟩⟩, ⟨2, ⟨4, 1, 9, 100⟩⟩], 1⟩ else none)
        (fun _ => false)) (sampleStore [(5, [⟨1, 1, 1, 1⟩])]) "JudaS0.exp").2.2
      = sampleStore [(5, [⟨1, 1, 1, 1⟩])] :=
  ⟨⟨⟨[⟨1, ⟨3, 20, 7, 100⟩⟩, ⟨2, ⟨4, 1, 9, 100⟩⟩], 1⟩, by decide, by decide⟩,
    C16_load_atomic_on_failure (sampleHost ⟨0, ⟨0, 0, 0, 0⟩⟩)
      (sampleFs (fun p => if p = "JudaS0.exp" then
          some ⟨[⟨1, ⟨3, 20, 7, 100⟩⟩, ⟨2, ⟨4, 1, 9, 100⟩⟩], 1⟩ else none)
        (fun _ => false)) (sampleStore [(5, [⟨1, 1, 1, 1⟩])]) "JudaS0.exp"
      (Or.inr (Or.inl ⟨⟨[⟨1, ⟨3, 20, 7, 100⟩⟩, ⟨2, ⟨4, 1, 9, 100⟩⟩], 1⟩, by decide,
        by decide⟩))⟩

/-- C17. `load` merges exactly the records of the file: the specification
states this for every file of length `k * recordWidth`, the empty file
included.  Evaluated on a file of length zero: `load` returns true and the
index, empty before, holds the record found at the start of the zero-length
buffer, whereas merging the zero records of the file leaves it empty. -/
theorem C17_load_empty_file_merges_stray (stray : PersistedLearningMove) :
    (⟨[], 0⟩ : FileData).size = recordWidth * 0
    ∧ (LearningData.load (sampleHost stray)
        (sampleFs (fun p => if p = "JudaS.exp" then some ⟨[], 0⟩ else none) (fun _ => false))
        LearningData.construct "JudaS.exp").1 = true
    ∧ (LearningData.load (sampleHost stray)
        (sampleFs (fun p => if p = "JudaS.exp" then some ⟨[], 0⟩ else none) (fun _ => false))
        LearningData.construct "JudaS.exp").2.2.HT = [(stray.key, [stray.learningMove])]
    ∧ (([] : List PersistedLearningMove).foldl
        (fun s plm => s.insert_or_update plm false) LearningData.construct).HT = [] := by
  refine ⟨by decide, ?_, ?_, by decide⟩ <;>
    simp [LearningData.load, sampleHost, sampleFs, LearningData.construct, FileData.size,
      Host.mallocOk, LearningData.insert_or_update, equal_range, HT_insert,
      Placement.insert, setGroup]




/-- C19. A corrupt file and the rest of consolidation: the specification
states that after a numbered slave file of bad length the well-formed files
that follow are still merged.  Evaluated with `JudaS0.exp` of length
`recordWidth * 1 + 1` and a well-formed `JudaS1.exp` holding one record:
`init` opens `JudaS0.exp`, merges nothing, leaves the loop, never opens
`JudaS1.exp`, and ends with an empty index. -/
theorem C19_files_after_corrupt_file_not_merged :
    (⟨[⟨1, ⟨3, 20, 7, 100⟩⟩], 1⟩ : FileData).size = recordWidth * 1 + 1
    ∧ (LearningData.init (sampleHost ⟨0, ⟨0, 0, 0, 0⟩⟩) sampleOptions 5
        (sampleFs (fun p =>
            if p = "JudaS0.exp" then some ⟨[⟨1, ⟨3, 20, 7, 100⟩⟩], 1⟩
            else if p = "JudaS1.exp" then some ⟨[⟨2, ⟨6, 15, 4, 100⟩⟩], 0⟩ else none)
          (fun _ => false))
        LearningData.construct).map (fun r => (r.2.HT, r.1.log))
      = some ([], [FileOp.openRead "JudaS.exp", FileOp.openRead "JudaS.exp",
          FileOp.openRead "JudaS_new.exp", FileOp.openRead "JudaS0.exp"]) := by
  refine ⟨by decide, by decide⟩

/-- C19, as the code has it.  When the numbered slave file `k` has a length
that is not a multiple of the record width, `init` merges no record of file
`k` and ends the numbered sequence there: the store it returns is the same on
every file system that agrees on the canonical file, on `JudaS_new.exp` and on
the numbered files before `k`, whatever file `k` holds besides its bad length
and whatever the files numbered above `k` hold. -/
theorem C19_corrupt_file_ends_numbered_sequence (host : Host) (o : OptionsMap)
    (k fuel : Nat) (fs fs2 : FileSystem) (st : LearningData) (hfuel : k < fuel)
    (hcanon : fs.files (host.map_path "JudaS.exp") = fs2.files (host.map_path "JudaS.exp")
      ∧ fs.shortRead (host.map_path "JudaS.exp") = fs2.shortRead (host.map_path "JudaS.exp"))
    (hnew : fs.files "JudaS_new.exp" = fs2.files "JudaS_new.exp"
      ∧ fs.shortRead "JudaS_new.exp" = fs2.shortRead "JudaS_new.exp")
    (hagree : ∀ j, j < k → fs.files (slaveFileName host j) = fs2.files (slaveFileName host j)
      ∧ fs.shortRead (slaveFileName host j) = fs2.shortRead (slaveFileName host j))
    (hbad : ∃ d, fs.files (slaveFileName host k) = some d ∧ d.size % recordWidth ≠ 0)
    (hbad2 : ∃ d, fs2.files (slaveFileName host k) = some d ∧ d.size % recordWidth ≠ 0) :
    ∃ r r2, LearningData.init host o fuel fs st = some r
      ∧ LearningData.init host o fuel fs2 st = some r2 ∧ r.2 = r2.2 := by
  unfold LearningData.init
  by_cases he : identify_learning_mode o.learningMode = LearningMode.Experience
      ∧ o.experienceBook = false
  · simp only [he, and_self, if_true]
    exact ⟨_, _, rfl, rfl, rfl⟩
  · simp only [he, if_false]
    obtain ⟨fsA, fsB, stR, slavesR, h1, h2⟩ := loadPhase_congr_up_to_bad host k fuel fs fs2
      { st.clear with learningMode := identify_learning_mode o.learningMode }
      hfuel hcanon hnew hagree hbad hbad2
    rw [h1, h2]
    refine ⟨_, _, rfl, rfl, ?_⟩
    by_cases hs : slavesR = []
    · simp [hs]
    · simp only [hs, ne_eq, not_false_eq_true, if_true]
      rw [persist_snd_congr host o fsA fsB stR]

theorem C19_corrupt_file_ends_numbered_sequence_witness :
    (0 < 5)
    ∧ ∃ r r2,
      LearningData.init (sampleHost ⟨0, ⟨0, 0, 0, 0⟩⟩) sampleOptions 5
        (sampleFs (fun p =>
            if p = "JudaS0.exp" then some ⟨[⟨1, ⟨3, 20, 7, 100⟩⟩], 1⟩
            else if p = "JudaS1.exp" then some ⟨[⟨2, ⟨6, 15, 4, 100⟩⟩], 0⟩ else none)
          (fun _ => false)) LearningData.construct = some r
      ∧ LearningData.init (sampleHost ⟨0, ⟨0, 0, 0, 0⟩⟩) sampleOptions 5
        (sampleFs (fun p =>
            if p = "JudaS0.exp" then some ⟨[], 5⟩ else none)
          (fun _ => false)) LearningData.construct = some r2
      ∧ r.2 = r2.2 :=
  ⟨by decide,
    C19_corrupt_file_ends_numbered_sequence (sampleHost ⟨0, ⟨0, 0, 0, 0⟩⟩) sampleOptions 0 5
      (sampleFs (fun p =>
          if p = "JudaS0.exp" then some ⟨[⟨1, ⟨3, 20, 7, 100⟩⟩], 1⟩
          else if p = "JudaS1.exp" then some ⟨[⟨2, ⟨6, 15, 4, 100⟩⟩], 0⟩ else none)
        (fun _ => false))
      (sampleFs (fun p => if p = "JudaS0.exp" then some ⟨[], 5⟩ else none) (fun _ => false))
      LearningData.construct (by decide) ⟨by decide, rfl⟩ ⟨by decide, rfl⟩
      (fun j hj => absurd hj (Nat.not_lt_zero j))
      ⟨⟨[⟨1, ⟨3, 20, 7, 100⟩⟩], 1⟩, by decide, by decide⟩
      ⟨⟨[], 5⟩, by decide, by decide⟩⟩

/-- C20. Consolidation idempotence: with the feature enabled, no
`JudaS_new.exp` and no `JudaS0.exp`, running `init`, and running it a second
time on the result, leaves every file (the canonical one included) as it was
and makes only open-for-reading requests: no write, no delete, no rename. -/
theorem C20_consolidation_idempotence (host : Host) (o : OptionsMap) (fuel : Nat)
    (fs : FileSystem) (st : LearningData) (hbook : o.experienceBook = true)
    (hnew : fs.files "JudaS_new.exp" = none)
    (h0 : fs.files (slaveFileName host 0) = none) :
    ∃ r r2, LearningData.init host o (fuel + 1) fs st = some r
      ∧ LearningData.init host o (fuel + 1) r.1 r.2 = some r2
      ∧ r.1.files = fs.files ∧ r2.1.files = fs.files
      ∧ r.1.log = fs.log ++
          [FileOp.openRead (host.map_path "JudaS.exp"),
           FileOp.openRead (host.map_path "JudaS.exp"),
           FileOp.openRead "JudaS_new.exp",
           FileOp.openRead (slaveFileName host 0)]
      ∧ r2.1.log = r.1.log ++
          [FileOp.openRead (host.map_path "JudaS.exp"),
           FileOp.openRead (host.map_path "JudaS.exp"),
           FileOp.openRead "JudaS_new.exp",
           FileOp.openRead (slaveFileName host 0)] := by
  obtain ⟨r, hr, hf, hl⟩ := init_without_slaves host o fuel fs st hbook hnew h0
  obtain ⟨r2, hr2, hf2, hl2⟩ := init_without_slaves host o fuel r.1 r.2 hbook
    (by rw [hf]; exact hnew) (by rw [hf]; exact h0)
  exact ⟨r, r2, hr, hr2, hf, hf2.trans hf, hl, hl2⟩

theorem C20_consolidation_idempotence_witness :
    sampleOptions.experienceBook = true
    ∧ ∃ r, LearningData.init (sampleHost ⟨0, ⟨0, 0, 0, 0⟩⟩) sampleOptions 1
        (sampleFs (fun p => if p = "JudaS.exp" then some ⟨[⟨9, ⟨4, 10, 3, 100⟩⟩], 0⟩ else none)
          (fun _ => false)) LearningData.construct = some r
      ∧ r.1.files "JudaS.exp" = some ⟨[⟨9, ⟨4, 10, 3, 100⟩⟩], 0⟩
      ∧ r.1.log = [FileOp.openRead "JudaS.exp", FileOp.openRead "JudaS.exp",
          FileOp.openRead "JudaS_new.exp", FileOp.openRead "JudaS0.exp"] := by
  refine ⟨rfl, ?_⟩
  obtain ⟨r, r2, hr, -, hf, -, hl, -⟩ :=
    C20_consolidation_idempotence (sampleHost ⟨0, ⟨0, 0, 0, 0⟩⟩) sampleOptions 0
      (sampleFs (fun p => if p = "JudaS.exp" then some ⟨[⟨9, ⟨4, 10, 3, 100⟩⟩], 0⟩ else none)
        (fun _ => false)) LearningData.construct rfl (by decide) (by decide)
  exact ⟨r, hr, by rw [hf]; decide, by rw [hl]; decide⟩


/-- C21. `init` when the feature is disabled: the specification states that
with Experience Book off `init` does no file I/O whatever the learning mode.
Evaluated with Experience Book off and learning mode `Self`: the early return
of `init` asks for mode `Experience`, so `init` goes on and opens the canonical
file (twice), `JudaS_new.exp` and `JudaS0.exp` for reading. -/
theorem C21_init_reads_files_in_self_mode :
    (LearningData.init (sampleHost ⟨0, ⟨0, 0, 0, 0⟩⟩)
        { learningMode := "Self", experienceBook := false, concurrentExperience := false } 1
        (sampleFs (fun _ => none) (fun _ => false)) LearningData.construct).map
          (fun r => r.1.log)
      = some [FileOp.openRead "JudaS.exp", FileOp.openRead "JudaS.exp",
          FileOp.openRead "JudaS_new.exp", FileOp.openRead "JudaS0.exp"] := by
  decide

/-- C21, as the code has it.  With Experience Book off and the learning mode
option set to `Experience`, `init` empties the index and both buffer lists,
sets the mode, and returns the file system as it was, trace included: no file
is read, written, deleted or renamed. -/
theorem C21_init_short_circuits_in_experience_mode (host : Host) (o : OptionsMap)
    (fuel : Nat) (fs : FileSystem) (st : LearningData)
    (hbook : o.experienceBook = false) (hmode : o.learningMode = "Experience") :
    ∃ r, LearningData.init host o fuel fs st = some r
      ∧ r.1 = fs ∧ r.2.HT = []
      ∧ r.2 = { st.clear with learningMode := LearningMode.Experience } := by
  refine ⟨(fs, { st.clear with learningMode := LearningMode.Experience }), ?_, rfl, rfl, rfl⟩
  simp [LearningData.init, identify_learning_mode, hbook, hmode]

theorem C21_init_short_circuits_in_experience_mode_witness :
    ({ learningMode := "Experience", experienceBook := false,
       concurrentExperience := false } : OptionsMap).experienceBook = false
    ∧ ∃ r, LearningData.init (sampleHost ⟨0, ⟨0, 0, 0, 0⟩⟩)
        { learningMode := "Experience", experienceBook := false,
          concurrentExperience := false } 0
        (sampleFs (fun p => if p = "JudaS0.exp" then some ⟨[⟨1, ⟨3, 20, 7, 100⟩⟩], 0⟩ else none)
          (fun _ => false))
        (sampleStore [(1, [⟨3, 20, 7, 100⟩])]) = some r
      ∧ r.1.log = [] ∧ r.2.HT = [] := by
  refine ⟨rfl, ?_⟩
  obtain ⟨r, hr, hfs, hht, -⟩ :=
    C21_init_short_circuits_in_experience_mode (sampleHost ⟨0, ⟨0, 0, 0, 0⟩⟩)
      { learningMode := "Experience", experienceBook := false, concurrentExperience := false }
      0
      (sampleFs (fun p => if p = "JudaS0.exp" then some ⟨[⟨1, ⟨3, 20, 7, 100⟩⟩], 0⟩ else none)
        (fun _ => false))
      (sampleStore [(1, [⟨3, 20, 7, 100⟩])]) rfl rfl
  exact ⟨r, hr, by rw [hfs]; rfl, hht⟩


/-- C22. `probeByMaxDepthAndScore` is a lexicographic maximum over the whole
group: on a store whose records all have non-negative depth, the count is the
number of records of the group of the key; for an empty group the result is
`(0, none)`; otherwise the record returned belongs to the group, no record of
the group has greater depth, and among the records of that depth none has
greater score. -/
theorem C22_probeByMaxDepthAndScore_lexicographic_max (st : LearningData) (key : Key)
    (hnn : ∀ plm ∈ entries st.HT, 0 ≤ plm.learningMove.depth) :
    (st.probeByMaxDepthAndScore key).1 = (equal_range st.HT key).length
    ∧ (equal_range st.HT key = [] → st.probeByMaxDepthAndScore key = (0, none))
    ∧ (equal_range st.HT key ≠ [] →
        ∃ r, (st.probeByMaxDepthAndScore key).2 = some r
          ∧ r ∈ equal_range st.HT key
          ∧ ∀ y ∈ equal_range st.HT key,
              y.depth ≤ r.depth ∧ (y.depth = r.depth → y.score ≤ r.score)) := by
  unfold LearningData.probeByMaxDepthAndScore
  cases hg : equal_range st.HT key with
  | nil => simp
  | cons x rest =>
    have hx : 0 ≤ x.depth :=
      hnn ⟨key, x⟩ (mem_entries_of_mem_equal_range st.HT key x (by rw [hg]; simp))
    obtain ⟨r, hs, hmem, hall⟩ := scanMaxDepthAndScore_spec x rest hx
    refine ⟨by simp, by simp, ?_⟩
    intro _
    exact ⟨r, by simpa using hs, hmem, hall⟩

theorem C22_probeByMaxDepthAndScore_lexicographic_max_witness :
    (∀ plm ∈ entries (sampleStore [(1, [⟨5, 0, 1, 100⟩, ⟨7, -25, 2, 100⟩, ⟨7, -20, 3, 1⟩])]).HT,
        0 ≤ plm.learningMove.depth)
    ∧ ((sampleStore [(1, [⟨5, 0, 1, 100⟩, ⟨7, -25, 2, 100⟩, ⟨7, -20, 3, 1⟩])]).probeByMaxDepthAndScore
        1).1 = 3
    ∧ (sampleStore [(1, [⟨5, 0, 1, 100⟩, ⟨7, -25, 2, 100⟩, ⟨7, -20, 3, 1⟩])]).probeByMaxDepthAndScore
        1 = (3, some ⟨7, -20, 3, 1⟩) :=
  ⟨by decide,
    (C22_probeByMaxDepthAndScore_lexicographic_max
      (sampleStore [(1, [⟨5, 0, 1, 100⟩, ⟨7, -25, 2, 100⟩, ⟨7, -20, 3, 1⟩])]) 1
      (by decide)).1,
    by decide⟩


/-- C23. `probe_move` is an exact lookup: a record it returns is in the group
of the key and has the move asked for; it returns nothing exactly when the key
has no group or no record of the group has that move; and in a group that
holds at most one record per move (as every group built by `insert_or_update`
does) it returns `r` for every `r` of the group with that move.  The method is
a function of the store and returns no store: it changes nothing. -/
theorem C23_probe_move_exact_lookup (st : LearningData) (key : Key) (move : Move) :
    (∀ r, st.probe_move key move = some r → r ∈ equal_range st.HT key ∧ r.move = move)
    ∧ (movesUnique (equal_range st.HT key) →
        ∀ r, r ∈ equal_range st.HT key → r.move = move → st.probe_move key move = some r)
    ∧ (st.probe_move key move = none ↔
        equal_range st.HT key = [] ∨ ∀ x ∈ equal_range st.HT key, x.move ≠ move) := by
  rw [probe_move_eq_probeGroup]
  refine ⟨fun r h => probeGroup_eq_some move _ r h,
    fun hu r hr hm => probeGroup_of_mem move _ r hu hr hm, ?_⟩
  rw [probeGroup_eq_none_iff]
  constructor
  · intro h
    exact Or.inr h
  · rintro (h | h)
    · rw [h]
      simp
    · exact h

theorem C23_probe_move_exact_lookup_witness :
    movesUnique (equal_range (sampleStore [(1, [⟨5, 0, 1, 100⟩, ⟨7, -25, 2, 100⟩])]).HT 1)
    ∧ (⟨7, -25, 2, 100⟩ : LearningMove)
        ∈ equal_range (sampleStore [(1, [⟨5, 0, 1, 100⟩, ⟨7, -25, 2, 100⟩])]).HT 1
    ∧ (sampleStore [(1, [⟨5, 0, 1, 100⟩, ⟨7, -25, 2, 100⟩])]).probe_move 1 2
        = some ⟨7, -25, 2, 100⟩ :=
  ⟨by unfold movesUnique; decide, by decide,
    (C23_probe_move_exact_lookup (sampleStore [(1, [⟨5, 0, 1, 100⟩, ⟨7, -25, 2, 100⟩])])
      1 2).2.1 (by unfold movesUnique; decide) ⟨7, -25, 2, 100⟩ (by decide) rfl⟩


/-- C24. Display sort order: the specification states the order for every list
of records, with `perf(x) = clamp(x.depth * 10 + x.score / 100, 0, 100)`.
Evaluated on two records of depth 214748364 with scores 0 and 1000: for the
second the `int` sum `depth * 10 + score / 100` overflows, its computed
performance is 0 against 100 for the first, and `sortLearningMoves` leaves the
record of score 0 first, although the triples put the record of score 1000
(same depth, same `perf`, greater score) strictly before it. -/
theorem C24_sort_order_broken_by_overflow :
    LearningData.sortLearningMoves [⟨214748364, 0, 1, 100⟩, ⟨214748364, 1000, 2, 100⟩]
      = [⟨214748364, 0, 1, 100⟩, ⟨214748364, 1000, 2, 100⟩]
    ∧ ¬ displayGe ⟨214748364, 0, 1, 100⟩ ⟨214748364, 1000, 2, 100⟩
    ∧ ¬ performanceFits ⟨214748364, 1000, 2, 100⟩ := by
  refine ⟨by decide, by decide, by decide⟩

/-- C24, as the code has it.  For every list of records whose performance is
computed without `int` overflow, `sortLearningMoves` returns a permutation of
the input in which every record stands before every record that follows it
only if its triple `(depth, perf, score)` is lexicographically greater or
equal, adjacent pairs in particular, with
`perf(x) = clamp(x.depth * 10 + x.score / 100, 0, 100)` and the division
truncating toward zero. -/
theorem C24_display_sort_order (l : List LearningMove) (hfit : ∀ x ∈ l, performanceFits x) :
    (LearningData.sortLearningMoves l).Perm l
    ∧ (LearningData.sortLearningMoves l).Pairwise displayGe
    ∧ List.Chain' displayGe (LearningData.sortLearningMoves l) := by
  obtain ⟨hperm, hsorted⟩ := sortLearningMoves_sorted l
  have hpair : (LearningData.sortLearningMoves l).Pairwise displayGe := by
    refine List.Pairwise.imp_of_mem ?_ hsorted
    intro a b ha hb h
    exact displayGe_of_mayPrecede a b (hfit a (hperm.mem_iff.1 ha)) (hfit b (hperm.mem_iff.1 hb)) h
  exact ⟨hperm, hpair, List.Pairwise.chain' hpair⟩

theorem C24_display_sort_order_witness :
    (∀ x ∈ ([⟨5, 0, 1, 100⟩, ⟨5, 1000, 2, 100⟩, ⟨7, -20, 3, 1⟩, ⟨5, -350, 4, 100⟩] :
        List LearningMove), performanceFits x)
    ∧ LearningData.sortLearningMoves
        [⟨5, 0, 1, 100⟩, ⟨5, 1000, 2, 100⟩, ⟨7, -20, 3, 1⟩, ⟨5, -350, 4, 100⟩]
      = [⟨7, -20, 3, 1⟩, ⟨5, 1000, 2, 100⟩, ⟨5, 0, 1, 100⟩, ⟨5, -350, 4, 100⟩]
    ∧ List.Chain' displayGe (LearningData.sortLearningMoves
        [⟨5, 0, 1, 100⟩, ⟨5, 1000, 2, 100⟩, ⟨7, -20, 3, 1⟩, ⟨5, -350, 4, 100⟩]) :=
  ⟨by decide, by decide,
    (C24_display_sort_order
      [⟨5, 0, 1, 100⟩, ⟨5, 1000, 2, 100⟩, ⟨7, -20, 3, 1⟩, ⟨5, -350, 4, 100⟩]
      (by decide)).2.2⟩

/-- C25. `clear` is total and empties the store: from every state, the freshly
constructed and the just cleared ones included, `clear` returns a store whose
index is empty (`probe` and `probe_move` find nothing for any key,
`probeByMaxDepthAndScore` returns count 0 and no record) and whose two buffer
lists are empty; and clearing twice is clearing once. -/
theorem C25_clear_empties_the_store (st : LearningData) (key : Key) (move : Move) :
    st.clear.HT = []
    ∧ st.clear.probe key = []
    ∧ st.clear.probe_move key move = none
    ∧ st.clear.probeByMaxDepthAndScore key = (0, none)
    ∧ st.clear.mainDataBuffers = [] ∧ st.clear.newMovesDataBuffers = []
    ∧ st.clear.clear = st.clear
    ∧ LearningData.construct.clear = LearningData.construct := by
  refine ⟨rfl, rfl, ?_, ?_, rfl, rfl, rfl, rfl⟩
  · simp [LearningData.probe_move, LearningData.clear, equal_range]
  · simp [LearningData.probeByMaxDepthAndScore, LearningData.clear, equal_range]


/-- C26. `pause` and `resume` touch only the pause flag, and a paused store
records nothing: `pause` sets `isPaused`, `resume` clears it, both leave the
index, the dirty flag, the read-only flag and the mode as they were; and
`Engine::set_position`, run on any position and any list of moves while the
store is paused, returns the store unchanged. -/
theorem C26_pause_resume_and_paused_recording {Pos : Type} (api : PositionApi Pos)
    (host : Host) (pos : Pos) (moves : List String) (st : LearningData) :
    (st.pause.isPaused = true ∧ st.resume.isPaused = false)
    ∧ (st.pause.HT = st.HT ∧ st.pause.needPersisting = st.needPersisting
        ∧ st.pause.isReadOnly = st.isReadOnly ∧ st.pause.learningMode = st.learningMode)
    ∧ (st.resume.HT = st.HT ∧ st.resume.needPersisting = st.needPersisting
        ∧ st.resume.isReadOnly = st.isReadOnly ∧ st.resume.learningMode = st.learningMode)
    ∧ (st.isPaused = true →
        (Engine.set_position api host pos moves st).2.HT = st.HT
        ∧ (Engine.set_position api host pos moves st).2.needPersisting = st.needPersisting) := by
  refine ⟨⟨rfl, rfl⟩, ⟨rfl, rfl, rfl, rfl⟩, ⟨rfl, rfl, rfl, rfl⟩, ?_⟩
  intro hp
  rw [set_position_of_paused api host moves st hp pos]
  exact ⟨rfl, rfl⟩

theorem C26_pause_resume_and_paused_recording_witness :
    LearningData.construct.pause.isPaused = true
    ∧ (Engine.set_position samplePositionApi (sampleHost ⟨0, ⟨0, 0, 0, 0⟩⟩) [] ["e2e4", "e7e5"]
        LearningData.construct.pause).2.HT = []
    ∧ (Engine.set_position samplePositionApi (sampleHost ⟨0, ⟨0, 0, 0, 0⟩⟩) [] ["e2e4", "e7e5"]
        LearningData.construct.pause).2.needPersisting = false :=
  ⟨rfl,
    (C26_pause_resume_and_paused_recording samplePositionApi (sampleHost ⟨0, ⟨0, 0, 0, 0⟩⟩) []
      ["e2e4", "e7e5"] LearningData.construct.pause).2.2.2 rfl⟩

/-- C27. The engine records the move that was played: the specification
states that the observation handed to `add_new_learning` carries the move `m`.
The record built by `Engine::set_position` never has its `move` field
assigned, so it carries `Move::none()`, which is not `m` (the loop leaves at
`Move::none()`).  Evaluated on the freshly constructed store (enabled, mode
not `Self`, not paused) and one move that parses to code 4 in a position of
key 0: afterwards `probe_move(0, 4)` finds nothing, and the record stored has
move code 0. -/
theorem C27_observation_carries_no_move {Pos : Type} (api : PositionApi Pos) (pos : Pos) :
    (Engine.observation api pos).key = api.key pos
    ∧ (Engine.observation api pos).learningMove.move = api.move_none
    ∧ samplePositionApi.to_move [] "e2e4" = 4
    ∧ samplePositionApi.move_none = 0
    ∧ ((Engine.set_position samplePositionApi (sampleHost ⟨0, ⟨0, 0, 0, 0⟩⟩) [] ["e2e4"]
        LearningData.construct).2.probe_move 0 4 = none)
    ∧ ((Engine.set_position samplePositionApi (sampleHost ⟨0, ⟨0, 0, 0, 0⟩⟩) [] ["e2e4"]
        LearningData.construct).2.HT = [(0, [⟨3, 250, 0, 32⟩])]) := by
  refine ⟨rfl, rfl, by decide, rfl, by decide, by decide⟩


/-- C28. Promotion is a value swap with position 0: when `insert_or_update`
promotes a candidate that sits at position `i > 0` of the group of its key,
the iterator `first` is on position 0 and the group afterwards is the group as
it stood after the insertion or the overwrite with the records of positions 0
and `i` exchanged: every other position holds the record it held and the
length is the same.  A candidate at position 0 is either the record that
libstdc++ has just inserted before the others, and then `first` is on
position 1 and the exchange is between positions 0 and 1, or the overwritten
first record itself, and then nothing is exchanged. -/
theorem C28_promotion_is_value_swap (st : LearningData) (plm : PersistedLearningMove)
    (q : Bool) (g1 : List LearningMove) (f i : Nat) (best cand : LearningMove)
    (hc : candidateOf st.placement (equal_range st.HT plm.key) plm.learningMove
      = some (g1, f, i))
    (hb : g1[f]? = some best) (hcand : g1[i]? = some cand)
    (hnew : newBestMove q cand best = true) :
    (0 < i →
      f = 0
      ∧ (equal_range (st.insert_or_update plm q).HT plm.key).length = g1.length
      ∧ (equal_range (st.insert_or_update plm q).HT plm.key)[0]? = some cand
      ∧ (equal_range (st.insert_or_update plm q).HT plm.key)[i]? = some best
      ∧ ∀ j, j ≠ 0 → j ≠ i →
          (equal_range (st.insert_or_update plm q).HT plm.key)[j]? = g1[j]?)
    ∧ (i = 0 → f ≠ 0 →
      f = 1 ∧ st.placement = Placement.beforeFirst
      ∧ (equal_range (st.insert_or_update plm q).HT plm.key).length = g1.length
      ∧ (equal_range (st.insert_or_update plm q).HT plm.key)[1]? = some cand
      ∧ (equal_range (st.insert_or_update plm q).HT plm.key)[0]? = some best
      ∧ ∀ j, j ≠ 0 → j ≠ 1 →
          (equal_range (st.insert_or_update plm q).HT plm.key)[j]? = g1[j]?)
    ∧ (i = 0 → f = 0 → equal_range (st.insert_or_update plm q).HT plm.key = g1) := by
  have hpos : (f = 0 ∧ 0 < i) ∨ (f = 1 ∧ i = 0 ∧ st.placement = Placement.beforeFirst)
      ∨ (f = 0 ∧ i = 0) := by
    unfold candidateOf at hc
    split at hc
    · cases hc
    · rename_i hg
      split at hc
      · cases hp : st.placement with
        | beforeFirst =>
          rw [hp] at hc
          simp only [Placement.newPos, Placement.firstPos, Option.some.injEq,
            Prod.mk.injEq] at hc
          exact Or.inr (Or.inl ⟨hc.2.1.symm, hc.2.2.symm, rfl⟩)
        | afterLast =>
          rw [hp] at hc
          simp only [Placement.newPos, Placement.firstPos, Option.some.injEq,
            Prod.mk.injEq] at hc
          have hlen : 0 < (equal_range st.HT plm.key).length :=
            List.length_pos.2 hg
          exact Or.inl ⟨hc.2.1.symm, by omega⟩
      · split at hc
        · split at hc
          · simp only [Option.some.injEq, Prod.mk.injEq] at hc
            rcases Nat.eq_zero_or_pos i with h | h
            · exact Or.inr (Or.inr ⟨hc.2.1.symm, h⟩)
            · exact Or.inl ⟨hc.2.1.symm, h⟩
          · cases hc
        · cases hc
  have hgroup : equal_range (st.insert_or_update plm q).HT plm.key
      = promote q g1 f i := by
    rw [equal_range_insert_or_update_same, groupStep_eq_promote_candidate, hc]
  have hleni : i < g1.length := by
    by_contra h
    rw [List.getElem?_eq_none (Nat.le_of_not_lt h)] at hcand
    cases hcand
  have hlenf : f < g1.length := by
    by_contra h
    rw [List.getElem?_eq_none (Nat.le_of_not_lt h)] at hb
    cases hb
  have hswap : i ≠ f →
      (promote q g1 f i).length = g1.length
      ∧ (promote q g1 f i)[f]? = some cand
      ∧ (promote q g1 f i)[i]? = some best
      ∧ ∀ j, j ≠ f → j ≠ i → (promote q g1 f i)[j]? = g1[j]? := by
    intro hne
    rw [promote_of_newBestMove q g1 f i best cand hne hb hcand hnew]
    refine ⟨by simp, ?_, ?_, ?_⟩
    · simp [List.getElem?_set, hlenf]
    · simp [List.getElem?_set, Ne.symm hne, hleni]
    · intro j hjf hji
      rw [List.getElem?_set_ne (Ne.symm hjf), List.getElem?_set_ne (Ne.symm hji)]
  rw [hgroup]
  refine ⟨?_, ?_, ?_⟩
  · intro hi
    have hf : f = 0 := by
      rcases hpos with h | h | h
      · exact h.1
      · omega
      · exact h.1
    subst hf
    obtain ⟨h1, h2, h3, h4⟩ := hswap (Nat.pos_iff_ne_zero.1 hi)
    exact ⟨rfl, h1, h2, h3, h4⟩
  · intro hi hf
    have hf1 : f = 1 ∧ st.placement = Placement.beforeFirst := by
      rcases hpos with h | h | h
      · omega
      · exact ⟨h.1, h.2.2⟩
      · exact absurd h.1 hf
    obtain ⟨hf1, hpl⟩ := hf1
    subst hi hf1
    obtain ⟨h1, h2, h3, h4⟩ := hswap (by decide)
    exact ⟨rfl, hpl, h1, h2, h3, fun j hj0 hj1 => h4 j hj1 hj0⟩
  · intro hi hf
    subst hi hf
    unfold promote
    simp [hb]

theorem C28_promotion_is_value_swap_witness :
    candidateOf (sampleStore [(1, [⟨4, 10, 9, 100⟩, ⟨2, 5, 8, 100⟩, ⟨1, 0, 7, 100⟩])]).placement
        (equal_range
          (sampleStore [(1, [⟨4, 10, 9, 100⟩, ⟨2, 5, 8, 100⟩, ⟨1, 0, 7, 100⟩])]).HT 1)
        ⟨5, -50, 7, 100⟩
      = some ([⟨4, 10, 9, 100⟩, ⟨2, 5, 8, 100⟩, ⟨5, -50, 7, 100⟩], 0, 2)
    ∧ equal_range
        ((sampleStore [(1, [⟨4, 10, 9, 100⟩, ⟨2, 5, 8, 100⟩, ⟨1, 0, 7, 100⟩])]).insert_or_update
          ⟨1, ⟨5, -50, 7, 100⟩⟩ false).HT 1
      = [⟨5, -50, 7, 100⟩, ⟨2, 5, 8, 100⟩, ⟨4, 10, 9, 100⟩]
    ∧ (equal_range
        ((sampleStore [(1, [⟨4, 10, 9, 100⟩, ⟨2, 5, 8, 100⟩, ⟨1, 0, 7, 100⟩])]).insert_or_update
          ⟨1, ⟨5, -50, 7, 100⟩⟩ false).HT 1)[2]? = some ⟨4, 10, 9, 100⟩
    ∧ candidateOf (sampleStore [(1, [⟨4, 10, 9, 100⟩, ⟨2, 5, 8, 100⟩])]).placement
        (equal_range (sampleStore [(1, [⟨4, 10, 9, 100⟩, ⟨2, 5, 8, 100⟩])]).HT 1)
        ⟨5, -50, 2, 100⟩
      = some ([⟨5, -50, 2, 100⟩, ⟨4, 10, 9, 100⟩, ⟨2, 5, 8, 100⟩], 1, 0)
    ∧ equal_range ((sampleStore [(1, [⟨4, 10, 9, 100⟩, ⟨2, 5, 8, 100⟩])]).insert_or_update
        ⟨1, ⟨5, -50, 2, 100⟩⟩ false).HT 1
      = [⟨4, 10, 9, 100⟩, ⟨5, -50, 2, 100⟩, ⟨2, 5, 8, 100⟩] :=
  ⟨by decide, by decide,
    ((C28_promotion_is_value_swap
      (sampleStore [(1, [⟨4, 10, 9, 100⟩, ⟨2, 5, 8, 100⟩, ⟨1, 0, 7, 100⟩])])
      ⟨1, ⟨5, -50, 7, 100⟩⟩ false [⟨4, 10, 9, 100⟩, ⟨2, 5, 8, 100⟩, ⟨5, -50, 7, 100⟩] 0 2
      ⟨4, 10, 9, 100⟩ ⟨5, -50, 7, 100⟩ (by decide) (by decide) (by decide) (by decide)).1
      (by decide)).2.2.2.1,
    by decide, by decide⟩

/-- C29. Insert-only sequences keep the best record first: the specification
states that after every call of a sequence in which no two records share
`(key, move)` the first record of every group is maximal.  Evaluated with the
multimap of libstdc++ on three records of one key with three moves
(depth 5 score 10, depth 5 score 7, depth 6 score 0): the second record is
placed before the first and is not promoted, so after the second call the
record of score 7 stands before the record of score 10; the third record is
placed first and promoted, the swap puts it second, and the group ends with
the record of depth 5 and score 7 before the record of depth 6.  In self-play
mode the second call leaves the same group. -/
theorem C29_insert_only_best_record_not_first :
    (([⟨1, ⟨5, 10, 1, 100⟩⟩, ⟨1, ⟨5, 7, 2, 100⟩⟩, ⟨1, ⟨6, 0, 3, 100⟩⟩] :
        List PersistedLearningMove).map keyMove).Nodup
    ∧ equal_range (([⟨1, ⟨5, 10, 1, 100⟩⟩, ⟨1, ⟨5, 7, 2, 100⟩⟩] :
        List PersistedLearningMove).foldl (fun s plm => s.insert_or_update plm false)
        LearningData.construct).HT 1
      = [⟨5, 7, 2, 100⟩, ⟨5, 10, 1, 100⟩]
    ∧ ¬ firstIsBest false [⟨5, 7, 2, 100⟩, ⟨5, 10, 1, 100⟩]
    ∧ equal_range (([⟨1, ⟨5, 10, 1, 100⟩⟩, ⟨1, ⟨5, 7, 2, 100⟩⟩, ⟨1, ⟨6, 0, 3, 100⟩⟩] :
        List PersistedLearningMove).foldl (fun s plm => s.insert_or_update plm false)
        LearningData.construct).HT 1
      = [⟨5, 7, 2, 100⟩, ⟨6, 0, 3, 100⟩, ⟨5, 10, 1, 100⟩]
    ∧ ¬ firstIsBest false [⟨5, 7, 2, 100⟩, ⟨6, 0, 3, 100⟩, ⟨5, 10, 1, 100⟩]
    ∧ equal_range (([⟨1, ⟨5, 10, 1, 100⟩⟩, ⟨1, ⟨5, 7, 2, 100⟩⟩] :
        List PersistedLearningMove).foldl (fun s plm => s.insert_or_update plm true)
        LearningData.construct).HT 1
      = [⟨5, 7, 2, 100⟩, ⟨5, 10, 1, 100⟩]
    ∧ ¬ firstIsBest true [⟨5, 7, 2, 100⟩, ⟨5, 10, 1, 100⟩] := by
  refine ⟨by decide, by decide, by decide, by decide, by decide, by decide, by decide⟩

/-- C30. `insert_or_update` is local to one key and never loses a move: after
a call the group of every other key is as before, the moves present in the
group of the key of the record are those present before together with the
move of the record, and the records of that group whose move is not the move
of the record are the same as before, as a multiset. -/
theorem C30_insert_or_update_local (st : LearningData) (plm : PersistedLearningMove)
    (q : Bool) :
    (∀ key, key ≠ plm.key →
        equal_range (st.insert_or_update plm q).HT key = equal_range st.HT key)
    ∧ (∀ m : Move,
        m ∈ (equal_range (st.insert_or_update plm q).HT plm.key).map (·.move) ↔
          m ∈ (equal_range st.HT plm.key).map (·.move) ∨ m = plm.learningMove.move)
    ∧ ((equal_range (st.insert_or_update plm q).HT plm.key).filter
          (fun r => decide (r.move ≠ plm.learningMove.move))).Perm
        ((equal_range st.HT plm.key).filter
          (fun r => decide (r.move ≠ plm.learningMove.move))) := by
  refine ⟨fun key hk => equal_range_insert_or_update_other st plm q key hk, ?_, ?_⟩
  · intro m
    rw [equal_range_insert_or_update_same]
    exact mem_moves_groupStep _ q _ _ m
  · rw [equal_range_insert_or_update_same]
    exact filter_other_moves_groupStep _ q _ _

theorem C30_insert_or_update_local_witness :
    (2 : Key) ≠ 1
    ∧ equal_range ((sampleStore [(1, [⟨4, 10, 9, 100⟩]), (2, [⟨2, 5, 8, 100⟩])]).insert_or_update
        ⟨1, ⟨5, -50, 2, 100⟩⟩ false).HT 2 = [⟨2, 5, 8, 100⟩] :=
  ⟨by decide,
    (C30_insert_or_update_local (sampleStore [(1, [⟨4, 10, 9, 100⟩]), (2, [⟨2, 5, 8, 100⟩])])
      ⟨1, ⟨5, -50, 2, 100⟩⟩ false).1 2 (by decide)⟩

/-- C31. Stored depth is monotone. In a store whose groups have pairwise
distinct moves, after `insert_or_update` of a record (either mode) `probe_move`
for the key and move of the record returns a record whose depth is at least
the depth of the record and at least the depth stored for that key and move
before the call; and over any sequence of `insert_or_update` calls the depth
stored for a given key and move never decreases. -/
theorem C31_stored_depth_monotone (st : LearningData)
    (hu : ∀ key, movesUnique (equal_range st.HT key)) :
    (∀ (plm : PersistedLearningMove) (q : Bool), ∃ r,
        (st.insert_or_update plm q).probe_move plm.key plm.learningMove.move = some r
        ∧ plm.learningMove.depth ≤ r.depth
        ∧ ∀ e, st.probe_move plm.key plm.learningMove.move = some e → e.depth ≤ r.depth)
    ∧ (∀ (calls : List (PersistedLearningMove × Bool)) (key : Key) (move : Move)
        (e : LearningMove), st.probe_move key move = some e →
        ∃ r, (runCalls st calls).probe_move key move = some r ∧ e.depth ≤ r.depth) := by
  refine ⟨?_, fun calls key move e hp => probe_move_depth_runCalls calls st hu key move e hp⟩
  intro plm q
  rw [probe_move_insert_or_update]
  cases hp : st.probe_move plm.key plm.learningMove.move with
  | none => exact ⟨plm.learningMove, rfl, le_refl _, by simp⟩
  | some e =>
    by_cases hs : should_update e plm.learningMove = true
    · refine ⟨plm.learningMove, by simp [hs], le_refl _, ?_⟩
      intro e2 he2
      cases he2
      exact depth_le_of_should_update _ _ hs
    · refine ⟨e, by simp [hs], ?_, ?_⟩
      · exact depth_le_of_not_should_update _ _ (by simpa using hs)
      · intro e2 he2
        cases he2
        exact le_refl _

theorem C31_stored_depth_monotone_witness :
    (∀ key, movesUnique (equal_range
        (sampleStore [(1, [⟨4, 10, 9, 100⟩, ⟨7, 3, 2, 100⟩])]).HT key))
    ∧ (sampleStore [(1, [⟨4, 10, 9, 100⟩, ⟨7, 3, 2, 100⟩])]).probe_move 1 2
        = some ⟨7, 3, 2, 100⟩
    ∧ ∃ r, (runCalls (sampleStore [(1, [⟨4, 10, 9, 100⟩, ⟨7, 3, 2, 100⟩])])
          [(⟨1, ⟨5, -50, 2, 100⟩⟩, false), (⟨1, ⟨9, 0, 9, 100⟩⟩, true)]).probe_move 1 2 = some r
        ∧ (7 : Int) ≤ r.depth :=
  have hu : ∀ key, movesUnique (equal_range
      (sampleStore [(1, [⟨4, 10, 9, 100⟩, ⟨7, 3, 2, 100⟩])]).HT key) := by
    intro key
    by_cases hk : key = 1
    · subst hk
      unfold movesUnique
      decide
    · have hk2 : ¬ 1 = key := fun h => hk h.symm
      have : equal_range (sampleStore [(1, [⟨4, 10, 9, 100⟩, ⟨7, 3, 2, 100⟩])]).HT key = [] := by
        simp [sampleStore, equal_range, hk2]
      rw [this]
      simp [movesUnique]
  ⟨hu, by decide,
    (C31_stored_depth_monotone (sampleStore [(1, [⟨4, 10, 9, 100⟩, ⟨7, 3, 2, 100⟩])]) hu).2
      [(⟨1, ⟨5, -50, 2, 100⟩⟩, false), (⟨1, ⟨9, 0, 9, 100⟩⟩, true)] 1 2 ⟨7, 3, 2, 100⟩
      (by decide)⟩


/-- C32. Loading a file twice adds nothing: the specification states that a
second load of a well-formed file right after a first successful load leaves
every group as the first load left it.  Evaluated on the file of length zero,
where the records are vacuously distinct: each load allocates its own block of
size zero and its `do ... while` loop merges the record that block decodes to;
with two blocks that decode to records of keys 1 and 2, the first load returns
true and leaves one group and the second load adds a second group. -/
theorem C32_second_load_of_empty_file_adds_record :
    (LearningData.load (sampleHost ⟨1, ⟨5, 10, 4, 100⟩⟩)
        (sampleFs (fun p => if p = "JudaS.exp" then some ⟨[], 0⟩ else none) (fun _ => false))
        LearningData.construct "JudaS.exp").1 = true
    ∧ (LearningData.load (sampleHost ⟨1, ⟨5, 10, 4, 100⟩⟩)
        (sampleFs (fun p => if p = "JudaS.exp" then some ⟨[], 0⟩ else none) (fun _ => false))
        LearningData.construct "JudaS.exp").2.2.HT = [(1, [⟨5, 10, 4, 100⟩])]
    ∧ (LearningData.load (sampleHost ⟨2, ⟨3, 0, 7, 100⟩⟩)
      (LearningData.load (sampleHost ⟨1, ⟨5, 10, 4, 100⟩⟩)
        (sampleFs (fun p => if p = "JudaS.exp" then some ⟨[], 0⟩ else none) (fun _ => false))
        LearningData.construct "JudaS.exp").2.1
      (LearningData.load (sampleHost ⟨1, ⟨5, 10, 4, 100⟩⟩)
        (sampleFs (fun p => if p = "JudaS.exp" then some ⟨[], 0⟩ else none) (fun _ => false))
        LearningData.construct "JudaS.exp").2.2 "JudaS.exp").2.2.HT
      = [(1, [⟨5, 10, 4, 100⟩]), (2, [⟨3, 0, 7, 100⟩])] := by
  refine ⟨?_, ?_, ?_⟩ <;>
    simp [LearningData.load, sampleHost, sampleFs, LearningData.construct, FileData.size,
      Host.mallocOk, LearningData.insert_or_update, equal_range, HT_insert, setGroup,
      Placement.insert]

/-- C33. The specification states that `probeByMaxDepthAndScore` returns no
record if and only if the returned count is 0, for records of any depth and
score.  Evaluated on a group of two records of depths -1 and -3: the scan
starts from depth -1 and score -1, takes neither record, and the method
returns the count 2 and no record. -/
theorem C33_no_record_for_group_of_negative_depth :
    (sampleStore [(1, [⟨-1, -5, 1, 100⟩, ⟨-3, 40, 2, 100⟩])]).probeByMaxDepthAndScore 1
      = (2, none)
    ∧ ¬ (((sampleStore [(1, [⟨-1, -5, 1, 100⟩, ⟨-3, 40, 2, 100⟩])]).probeByMaxDepthAndScore 1).2
          = none
        ↔ ((sampleStore [(1, [⟨-1, -5, 1, 100⟩, ⟨-3, 40, 2, 100⟩])]).probeByMaxDepthAndScore 1).1
          = 0) := by
  refine ⟨by decide, by decide⟩

/-- C33, as the code has it.  For every store and every key the returned count
is 0 exactly when the group of the key is empty, and the returned record is
none if and only if the returned count is 0 or every record of the group has a
depth below -1, or the depth -1 and a score of at most -1; so for a group
whose records all have non-negative depth the returned record is none if and
only if the returned count is 0. -/
theorem C33_probeByMaxDepthAndScore_none_iff (st : LearningData) (key : Key) :
    ((st.probeByMaxDepthAndScore key).1 = 0 ↔ equal_range st.HT key = [])
    ∧ ((st.probeByMaxDepthAndScore key).2 = none ↔
        ((st.probeByMaxDepthAndScore key).1 = 0
          ∨ ∀ x ∈ equal_range st.HT key, belowStart x))
    ∧ ((∀ x ∈ equal_range st.HT key, 0 ≤ x.depth) →
        ((st.probeByMaxDepthAndScore key).2 = none ↔
          (st.probeByMaxDepthAndScore key).1 = 0)) := by
  unfold LearningData.probeByMaxDepthAndScore
  cases hg : equal_range st.HT key with
  | nil => simp
  | cons x rest =>
    have hiff := scanMaxDepthAndScore_eq_none_iff (x :: rest)
    refine ⟨by simp, ?_, ?_⟩
    · simp only [List.cons_ne_self, reduceCtorEq, if_false, List.length_cons,
        Nat.add_one_ne_zero, false_or]
      exact hiff
    · intro hnn
      simp only [reduceCtorEq, if_false, List.length_cons, Nat.add_one_ne_zero, iff_false]
      rw [hiff]
      intro hall
      have h1 := hall x (by simp)
      have h2 := hnn x (by simp)
      unfold belowStart at h1
      omega

theorem C33_probeByMaxDepthAndScore_none_iff_witness :
    (∀ x ∈ equal_range (sampleStore [(1, [⟨0, -5, 1, 100⟩, ⟨3, 40, 2, 100⟩])]).HT 1,
        0 ≤ x.depth)
    ∧ (sampleStore [(1, [⟨0, -5, 1, 100⟩, ⟨3, 40, 2, 100⟩])]).probeByMaxDepthAndScore 1
        = (2, some ⟨3, 40, 2, 100⟩)
    ∧ (((sampleStore [(1, [⟨0, -5, 1, 100⟩, ⟨3, 40, 2, 100⟩])]).probeByMaxDepthAndScore 1).2
          = none
        ↔ ((sampleStore [(1, [⟨0, -5, 1, 100⟩, ⟨3, 40, 2, 100⟩])]).probeByMaxDepthAndScore 1).1
          = 0) :=
  ⟨by decide, by decide,
    (C33_probeByMaxDepthAndScore_none_iff
      (sampleStore [(1, [⟨0, -5, 1, 100⟩, ⟨3, 40, 2, 100⟩])]) 1).2.2 (by decide)⟩

/-- C34. The specification states, for records whose product `depth * 10`
does not overflow, that the comparator holds exactly when the triple
`(depth, perf, score)` of the first record is lexicographically greater.
Evaluated on two records of depth 214748364 with scores 700 and 800: both
products fit, the `int` sum `depth * 10 + score / 100` overflows for the score
800 only, the computed performances are 100 and 0, and the comparator puts the
record of score 700 before the other, whose triple is the greater one. -/
theorem C34_comparator_differs_when_sum_overflows :
    depthTimesTenFits ⟨214748364, 700, 1, 100⟩
    ∧ depthTimesTenFits ⟨214748364, 800, 2, 100⟩
    ∧ sortLess ⟨214748364, 700, 1, 100⟩ ⟨214748364, 800, 2, 100⟩ = true
    ∧ ¬ displayGt ⟨214748364, 700, 1, 100⟩ ⟨214748364, 800, 2, 100⟩
    ∧ sortLess ⟨214748364, 800, 2, 100⟩ ⟨214748364, 700, 1, 100⟩ = false
    ∧ displayGt ⟨214748364, 800, 2, 100⟩ ⟨214748364, 700, 1, 100⟩ := by
  refine ⟨by decide, by decide, by decide, by decide, by decide, by decide⟩

/-- C34, as the code has it.  The comparator of `sortLearningMoves` is a
strict weak ordering on all records: it is irreflexive, asymmetric and
transitive, and incomparability is transitive.  For records whose `int` sum
`depth * 10 + score / 100` is computed without overflow it holds exactly when
the triple `(depth, clamp(depth * 10 + score / 100, 0, 100), score)` of the
first record is lexicographically greater than that of the second. -/
theorem C34_comparator_strict_weak_order :
    (∀ a b : LearningMove, performanceFits a → performanceFits b →
        (sortLess a b = true ↔ displayGt a b))
    ∧ (∀ a : LearningMove, sortLess a a = false)
    ∧ (∀ a b : LearningMove, sortLess a b = true → sortLess b a = false)
    ∧ (∀ a b c : LearningMove, sortLess a b = true → sortLess b c = true →
        sortLess a c = true)
    ∧ (∀ a b c : LearningMove, sortLess a b = false ∧ sortLess b a = false →
        sortLess b c = false ∧ sortLess c b = false →
        sortLess a c = false ∧ sortLess c a = false) := by
  refine ⟨sortLess_iff_displayGt, sortLess_irrefl, sortLess_asymm, sortLess_trans, ?_⟩
  intro a b c hab hbc
  exact ⟨mayPrecede_sortLess_trans c b a hbc.1 hab.1,
    mayPrecede_sortLess_trans a b c hab.2 hbc.2⟩

theorem C34_comparator_strict_weak_order_witness :
    performanceFits ⟨5, 1000, 2, 100⟩ ∧ performanceFits ⟨5, -350, 4, 100⟩
    ∧ displayGt ⟨5, 1000, 2, 100⟩ ⟨5, -350, 4, 100⟩
    ∧ sortLess ⟨5, 1000, 2, 100⟩ ⟨5, -350, 4, 100⟩ = true :=
  ⟨by decide, by decide, by decide,
    (C34_comparator_strict_weak_order.1 ⟨5, 1000, 2, 100⟩ ⟨5, -350, 4, 100⟩
      (by decide) (by decide)).2 (by decide)⟩


/-- C35. Win-probability table lookup is in bounds and faithful.  On
`[-4000, 4000] x [17, 78]` the function `index` is `(v + 4000) * 62 + m - 17`,
is injective and stays below `WIN_PROBABILITY_SIZE`; for every value and every
material count in `[17, 78]`, `get_win_probability_by_material` reads a slot
inside the table, and after `init` it returns the byte `init` stored for the
value clamped to `[-4000, 4000]` and that material count; and
`get_win_probability` passes a material count in `[17, 78]`. -/
theorem C35_win_probability_lookup (getWinProbability : Int → Int → Int) :
    (∀ v m : Int, -4000 ≤ v → v ≤ 4000 → 17 ≤ m → m ≤ 78 →
        (index v m : Int) = (v + 4000) * 62 + m - 17 ∧ index v m < WIN_PROBABILITY_SIZE)
    ∧ (∀ v m v2 m2 : Int, -4000 ≤ v → v ≤ 4000 → 17 ≤ m → m ≤ 78 →
        -4000 ≤ v2 → v2 ≤ 4000 → 17 ≤ m2 → m2 ≤ 78 →
        index v m = index v2 m2 → v = v2 ∧ m = m2)
    ∧ (∀ (t : WinProbabilities) (value m : Int), 17 ≤ m → m ≤ 78 →
        index (clamp value (-4000) 4000) m < WIN_PROBABILITY_SIZE
        ∧ WDLModel.get_win_probability_by_material t value m
            = some (t (index (clamp value (-4000) 4000) m)))
    ∧ (∀ value m : Int, 17 ≤ m → m ≤ 78 →
        WDLModel.get_win_probability_by_material (WDLModel.init getWinProbability) value m
          = some (WDLModel.toUint8 (getWinProbability (clamp value (-4000) 4000) m)))
    ∧ (∀ (t : WinProbabilities) (value : Int) (count : PieceType → Int),
        17 ≤ WDLModel.materialClamp count ∧ WDLModel.materialClamp count ≤ 78
        ∧ WDLModel.get_win_probability t value count
            = WDLModel.get_win_probability_by_material t value
                (WDLModel.materialClamp count)) := by
  have hread : ∀ (t : WinProbabilities) (value m : Int), 17 ≤ m → m ≤ 78 →
      index (clamp value (-4000) 4000) m < WIN_PROBABILITY_SIZE
      ∧ WDLModel.get_win_probability_by_material t value m
          = some (t (index (clamp value (-4000) 4000) m)) := by
    intro t value m hm1 hm2
    have hc := clamp_mem value (-4000) 4000 (by omega)
    have hlt := index_lt_size _ m hc.1 hc.2 hm1 hm2
    exact ⟨hlt, by simp [WDLModel.get_win_probability_by_material, WDLModel.readSlot, hlt]⟩
  refine ⟨?_, ?_, hread, ?_, ?_⟩
  · intro v m hv1 hv2 hm1 hm2
    exact ⟨index_of_inRange v m hv1 hv2 hm1 hm2, index_lt_size v m hv1 hv2 hm1 hm2⟩
  · intro v m v2 m2 hv1 hv2 hm1 hm2 hw1 hw2 hn1 hn2 h
    exact index_injective v m v2 m2 hv1 hv2 hm1 hm2 hw1 hw2 hn1 hn2 h
  · intro value m hm1 hm2
    have hc := clamp_mem value (-4000) 4000 (by omega)
    rw [(hread _ value m hm1 hm2).2, init_slot getWinProbability _ m hc.1 hc.2 hm1 hm2]
  · intro t value count
    have hc := clamp_mem (wrapInt (count PieceType.PAWN + 3 * count PieceType.KNIGHT
      + 3 * count PieceType.BISHOP + 5 * count PieceType.ROOK + 9 * count PieceType.QUEEN))
      17 78 (by omega)
    exact ⟨hc.1, hc.2, rfl⟩

theorem C35_win_probability_lookup_witness :
    (17 : Int) ≤ 58 ∧ (58 : Int) ≤ 78
    ∧ WDLModel.get_win_probability_by_material (WDLModel.init (fun v m => v + m)) 5000 58
        = some 218
    ∧ WDLModel.get_win_probability_by_material (WDLModel.init (fun v m => v + m)) (-4321) 58
        = some 154 :=
  ⟨by decide, by decide,
    ((C35_win_probability_lookup (fun v m => v + m)).2.2.2.1 5000 58 (by decide)
      (by decide)).trans (by decide),
    ((C35_win_probability_lookup (fun v m => v + m)).2.2.2.1 (-4321) 58 (by decide)
      (by decide)).trans (by decide)⟩


/-! ## Witnesses -/

theorem C3_should_update_iff_witness :
    ((5 : Int) < 7) ∧ should_update ⟨7, 1, 1, 1⟩ ⟨5, 2, 1, 1⟩ = false :=
  ⟨by decide, (C3_should_update_iff ⟨7, 1, 1, 1⟩ ⟨5, 2, 1, 1⟩).2.1 (by decide)⟩

theorem C4_merge_determinism_witness :
    (sampleStore [(1, [⟨4, 10, 9, 100⟩])]).probe_move 1 2 = none
    ∧ (1 : Key) = 1 ∧ (2 : Move) = 2 ∧ ((5 : Int) < 7)
    ∧ (((sampleStore [(1, [⟨4, 10, 9, 100⟩])]).insert_or_update ⟨1, ⟨5, 30, 2, 80⟩⟩
          false).insert_or_update ⟨1, ⟨7, -4, 2, 50⟩⟩ false).probe_move 1 2
        = some ⟨7, -4, 2, 50⟩
    ∧ (((sampleStore [(1, [⟨4, 10, 9, 100⟩])]).insert_or_update ⟨1, ⟨7, -4, 2, 50⟩⟩
          false).insert_or_update ⟨1, ⟨5, 30, 2, 80⟩⟩ false).probe_move 1 2
        = some ⟨7, -4, 2, 50⟩ :=
  ⟨by decide, rfl, rfl, by decide,
    C4_merge_determinism (sampleStore [(1, [⟨4, 10, 9, 100⟩])]) ⟨1, ⟨5, 30, 2, 80⟩⟩
      ⟨1, ⟨7, -4, 2, 50⟩⟩ false (by decide) rfl rfl (by decide)⟩

theorem C5_tie_break_equal_depth_witness :
    (sampleStore [(1, [⟨4, 10, 9, 100⟩])]).probe_move 1 2 = none
    ∧ (30 : Int) ≠ 12
    ∧ (((sampleStore [(1, [⟨4, 10, 9, 100⟩])]).insert_or_update ⟨1, ⟨6, 30, 2, 80⟩⟩
          false).insert_or_update ⟨1, ⟨6, 12, 2, 80⟩⟩ true).probe_move 1 2
        = some ⟨6, 12, 2, 80⟩
    ∧ (((sampleStore [(1, [⟨4, 10, 9, 100⟩])]).insert_or_update ⟨1, ⟨6, 30, 2, 80⟩⟩
          false).insert_or_update ⟨1, ⟨6, 12, 2, 80⟩⟩ true).needPersisting = true :=
  ⟨by decide, by decide,
    C5_tie_break_equal_depth (sampleStore [(1, [⟨4, 10, 9, 100⟩])]) ⟨1, ⟨6, 30, 2, 80⟩⟩
      ⟨1, ⟨6, 12, 2, 80⟩⟩ false true (by decide) rfl rfl rfl rfl (by decide)⟩

theorem C8_persist_writes_nonzero_depth_witness :
    HT_empty (sampleStore [(1, [⟨3, 20, 7, 100⟩, ⟨0, 0, 8, 100⟩]), (2, [⟨5, 1, 7, 90⟩])]).HT
      = false
    ∧ (sampleStore [(1, [⟨3, 20, 7, 100⟩, ⟨0, 0, 8, 100⟩]), (2, [⟨5, 1, 7, 90⟩])]).needPersisting
      = true
    ∧ (sampleStore [(1, [⟨3, 20, 7, 100⟩, ⟨0, 0, 8, 100⟩]), (2, [⟨5, 1, 7, 90⟩])]).isReadOnly
      = false
    ∧ ∃ written : List PersistedLearningMove,
      written = [⟨1, ⟨3, 20, 7, 100⟩⟩, ⟨2, ⟨5, 1, 7, 90⟩⟩]
      ∧ ((sampleStore [(1, [⟨3, 20, 7, 100⟩, ⟨0, 0, 8, 100⟩]), (2, [⟨5, 1, 7, 90⟩])]).persist
          (sampleHost ⟨0, ⟨0, 0, 0, 0⟩⟩) sampleOptions
          (sampleFs (fun _ => none) (fun _ => false))).1.files "JudaS.exp"
        = some ⟨written, 0⟩ := by
  refine ⟨by decide, rfl, rfl, ?_⟩
  obtain ⟨written, hw, -, hfile, -, -⟩ :=
    C8_persist_writes_nonzero_depth (sampleHost ⟨0, ⟨0, 0, 0, 0⟩⟩) sampleOptions
      (sampleFs (fun _ => none) (fun _ => false))
      (sampleStore [(1, [⟨3, 20, 7, 100⟩, ⟨0, 0, 8, 100⟩]), (2, [⟨5, 1, 7, 90⟩])])
      (by decide) rfl rfl
  exact ⟨written, by rw [hw]; decide, (hfile rfl (by decide)).2 rfl⟩
